import Mathlib

/-!
# Shallow embedding of the `slrucache` Go package

This file models `src/slrucache.go`: a segmented LRU cache built from a
fixed array of entries (`entries []SLRUCacheEntry`) partitioned among three
doubly linked lists (`freelist`, `lrulist`, `probelist`) whose links are
array indices (`prev`/`next : int`, sentinel `SLRU_EOF = -3`), plus a
key-to-index map (`mapping map[K]int`).

Modelling conventions:
* Go `int` fields (indices, list heads/tails, counts, capacities) become
  `Int`; the sentinel is the literal `-3` as in the source.
* The shared backing array becomes an `Array (Entry K V)` stored in the
  cache record; the three `SLRUList` objects become three `LState` records
  (head, tail, count) stored in the same cache record, and the Go methods
  on `*SLRUList` become functions on the whole cache parametrised by a
  `ListId` naming which of the three lists is being operated on.  The Go
  `entry.list *SLRUList` back-pointer becomes `list : Option ListId`
  (`nil` = `none`).
* Go's `map[K]int` becomes an association list with first-match lookup;
  insertion removes any previous binding first, so a map with distinct
  keys stays distinct, matching Go map semantics on such maps.
* `panic` (via `doPanic`, or a nil-pointer dereference of `entry.list`)
  is modelled by returning `none` from the public operation.
* The two optional callbacks (`insertCb`, `removeCb`) are modelled by an
  event trace: an event is emitted exactly at the program points where the
  source would invoke the (possibly nil) callback, carrying the key the
  source would pass.
* Go zero values (`var zeroK K`) are modelled by `default` from
  `Inhabited`; a fresh `SLRUCacheEntry` has `prev = 0`, `next = 0`,
  `list = nil` exactly as Go zero-initialises the slice.
-/

set_option linter.unusedSectionVars false

namespace SLRU

/-- `SLRU_EOF` from the source: the end-of-list sentinel. -/
def SLRU_EOF : Int := -3

/-- Which of the three lists of the cache an entry belongs to
(the `list *SLRUList` back-pointer, up to pointer identity). -/
inductive ListId : Type where
  | free : ListId
  | lru : ListId
  | probe : ListId
deriving DecidableEq, Repr

/-- `SLRUCacheEntry`: key, value, `prev`/`next` index links and the
back-pointer to the owning list (`none` = Go `nil`). -/
structure Entry (K V : Type) where
  key : K
  value : V
  prev : Int
  next : Int
  list : Option ListId
deriving Repr

/-- The Go zero value of `SLRUCacheEntry`: zero key/value, zero links,
nil list pointer (what `make([]SLRUCacheEntry, n)` fills slots with). -/
def zeroEntry {K V : Type} [Inhabited K] [Inhabited V] : Entry K V :=
  { key := default, value := default, prev := 0, next := 0, list := none }

instance {K V : Type} [Inhabited K] [Inhabited V] : Inhabited (Entry K V) :=
  ⟨zeroEntry⟩

/-- The mutable metadata of one `SLRUList`: head index, tail index, count.
(The `entries` field of the Go struct is the shared backing array, held
once in the cache record.) -/
structure LState where
  head : Int
  tail : Int
  count : Int
deriving DecidableEq, Repr

/-- `NewSLRUList`: empty list metadata. -/
def newLState : LState := { head := SLRU_EOF, tail := SLRU_EOF, count := 0 }

/-- `SLRUCache`: backing array, key mapping, configured sizes
(`cnum`/`snum`/`pnum`) and the three lists' metadata. -/
structure Cache (K V : Type) where
  entries : Array (Entry K V)
  mapping : List (K × Int)
  cnum : Int
  snum : Int
  pnum : Int
  freelist : LState
  lrulist : LState
  probelist : LState

variable {K V : Type}

/-- Project the metadata of the list named by `lid`. -/
def Cache.lst (c : Cache K V) : ListId → LState
  | .free => c.freelist
  | .lru => c.lrulist
  | .probe => c.probelist

/-- Replace the metadata of the list named by `lid`. -/
def Cache.setLst (c : Cache K V) (lid : ListId) (s : LState) : Cache K V :=
  match lid with
  | .free => { c with freelist := s }
  | .lru => { c with lrulist := s }
  | .probe => { c with probelist := s }

/-- Read the entry at (Go `int`) index `i` of the backing array.
The source only ever indexes with in-range indices; out-of-range reads
(which would panic in Go) return the zero entry. -/
def Cache.eget [Inhabited K] [Inhabited V] (c : Cache K V) (i : Int) : Entry K V :=
  if 0 ≤ i ∧ i.toNat < c.entries.size then c.entries.getD i.toNat default else default

/-- Update the entry at index `i` of the backing array by `f`
(no-op when out of range, where Go would panic). -/
def Cache.eset [Inhabited K] [Inhabited V] (c : Cache K V) (i : Int)
    (f : Entry K V → Entry K V) : Cache K V :=
  if h : 0 ≤ i ∧ i.toNat < c.entries.size then
    { c with entries := c.entries.set ⟨i.toNat, h.2⟩ (f (c.entries.getD i.toNat default)) }
  else c

variable [Inhabited K] [Inhabited V]

/-- `(*SLRUList).removeTail`: detach and return the tail index, or the
sentinel when the list is empty.  Statement-by-statement translation of
the source (`l.tail = e[t].prev`; clear `t`'s links; repair the new
tail's `next` or empty the head; clear `t`'s list pointer; decrement
count). -/
def removeTail (c : Cache K V) (lid : ListId) : Int × Cache K V :=
  let t := (c.lst lid).tail
  if t < 0 then (SLRU_EOF, c)
  else
    let c1 := c.setLst lid { c.lst lid with tail := (c.eget t).prev }
    let c2 := c1.eset t (fun e => { e with next := SLRU_EOF })
    let c3 := c2.eset t (fun e => { e with prev := SLRU_EOF })
    let c4 :=
      if (c3.lst lid).tail = SLRU_EOF then
        c3.setLst lid { c3.lst lid with head := SLRU_EOF }
      else
        c3.eset (c3.lst lid).tail (fun e => { e with next := SLRU_EOF })
    let c5 := c4.eset t (fun e => { e with list := none })
    let c6 := c5.setLst lid { c5.lst lid with count := (c5.lst lid).count - 1 }
    (t, c6)

/-- `(*SLRUList).removeHead`: detach and return the head index, or the
sentinel when the list is empty. -/
def removeHead (c : Cache K V) (lid : ListId) : Int × Cache K V :=
  let h := (c.lst lid).head
  if h < 0 then (SLRU_EOF, c)
  else
    let c1 := c.setLst lid { c.lst lid with head := (c.eget h).next }
    let c2 := c1.eset h (fun e => { e with next := SLRU_EOF })
    let c3 := c2.eset h (fun e => { e with prev := SLRU_EOF })
    let c4 :=
      if (c3.lst lid).head = SLRU_EOF then
        c3.setLst lid { c3.lst lid with tail := SLRU_EOF }
      else
        c3.eset (c3.lst lid).head (fun e => { e with prev := SLRU_EOF })
    let c5 := c4.eset h (fun e => { e with list := none })
    let c6 := c5.setLst lid { c5.lst lid with count := (c5.lst lid).count - 1 }
    (h, c6)

/-- `(*SLRUList).remove`: detach the entry at index `n`; `false` when the
entry's list pointer is not this list.  Head/tail cases dispatch to
`removeHead`/`removeTail`; interior entries are spliced out. -/
def removeN (c : Cache K V) (lid : ListId) (n : Int) : Bool × Cache K V :=
  if (c.eget n).list ≠ some lid then (false, c)
  else if (c.lst lid).head = n then (true, (removeHead c lid).2)
  else if (c.lst lid).tail = n then (true, (removeTail c lid).2)
  else
    let c1 := c.eset (c.eget n).next (fun e => { e with prev := (c.eget n).prev })
    let c2 := c1.eset (c1.eget n).prev (fun e => { e with next := (c1.eget n).next })
    let c3 := c2.eset n (fun e => { e with next := SLRU_EOF })
    let c4 := c3.eset n (fun e => { e with prev := SLRU_EOF })
    let c5 := c4.eset n (fun e => { e with list := none })
    let c6 := c5.setLst lid { c5.lst lid with count := (c5.lst lid).count - 1 }
    (true, c6)

/-- `(*SLRUList).insertHead`: link the entry at index `n` in as the new
head (caller guarantees `n` is detached). -/
def insertHead (c : Cache K V) (lid : ListId) (n : Int) : Cache K V :=
  let h := (c.lst lid).head
  let c1 :=
    if h ≥ 0 then
      let ca := c.eset h (fun e => { e with prev := n })
      ca.eset n (fun e => { e with next := h })
    else
      let ca := c.eset n (fun e => { e with next := SLRU_EOF })
      ca.setLst lid { ca.lst lid with tail := n }
  let c2 := c1.eset n (fun e => { e with prev := SLRU_EOF })
  let c3 := c2.eset n (fun e => { e with list := some lid })
  let c4 := c3.setLst lid { c3.lst lid with head := n }
  c4.setLst lid { (c4.lst lid) with count := (c4.lst lid).count + 1 }

/-- Go map read `m[k]`: first binding for `k`, if any. -/
def mapFind [DecidableEq K] : List (K × Int) → K → Option Int
  | [], _ => none
  | (k', n) :: rest, k => if k' = k then some n else mapFind rest k

/-- Go `delete(m, k)`: drop every binding for `k`. -/
def mapErase [DecidableEq K] : List (K × Int) → K → List (K × Int)
  | [], _ => []
  | (k', n) :: rest, k =>
    if k' = k then mapErase rest k else (k', n) :: mapErase rest k

/-- Go map write `m[k] = n`: bind `k` to `n`, replacing any previous
binding. -/
def mapInsert [DecidableEq K] (m : List (K × Int)) (k : K) (n : Int) : List (K × Int) :=
  (k, n) :: mapErase m k

/-- Callback invocations: `removed k` marks a point where the source
calls the optional `removeCb` with `k`; `inserted k` likewise for
`insertCb`. -/
inductive Ev (K : Type) : Type where
  | removed (k : K) : Ev K
  | inserted (k : K) : Ev K
deriving DecidableEq, Repr

/-- The `for x := 0; x < cnum; x++ { freelist.insertHead(x) }` loop of the
constructor: `initFree c n` performs the first `n` iterations. -/
def initFree (c : Cache K V) : Nat → Cache K V
  | 0 => c
  | n + 1 => insertHead (initFree c n) .free (n : Int)

/-- `NewSLRUCache(lruEntries, probeEntries)`: zero-filled backing array of
`snum + pnum` slots, empty mapping, three empty lists, then every slot
pushed onto the free list in index order.  Capacities are taken as `Nat`
(the claims only concern non-negative capacities; in Go a negative total
would make `make` panic at construction). -/
def NewSLRUCache (K V : Type) [Inhabited K] [Inhabited V]
    (lruEntries probeEntries : Nat) : Cache K V :=
  let c : Cache K V :=
    { entries := Array.mkArray (lruEntries + probeEntries) zeroEntry
      mapping := []
      cnum := (lruEntries : Int) + (probeEntries : Int)
      snum := (lruEntries : Int)
      pnum := (probeEntries : Int)
      freelist := newLState
      lrulist := newLState
      probelist := newLState }
  initFree c (lruEntries + probeEntries)

variable [DecidableEq K]

/-- `(*SLRUCache).Lookup`.  `none` models a panic (via `doPanic` or a nil
`entry.list` dereference); a successful call returns the Go return value
(`nil` pointer modelled as `none`), the post state and the callback
trace. -/
def Lookup (c : Cache K V) (key : K) :
    Option (Option V × Cache K V × List (Ev K)) :=
  match mapFind c.mapping key with
  | none => some (none, c, [])
  | some n =>
    if (c.eget n).list = some ListId.lru then
      if n ≠ c.lrulist.head then
        match removeN c .lru n with
        | (false, _) => none
        | (true, c1) =>
          let c2 := insertHead c1 .lru n
          some (some (c2.eget n).value, c2, [])
      else
        some (some (c.eget n).value, c, [])
    else
      let step1 : Cache K V × List (Ev K) :=
        if c.lrulist.count ≥ c.snum then
          let p := removeTail c .lru
          if p.1 ≠ SLRU_EOF then
            let lt := p.1
            let ca := p.2
            let oldKey := (ca.eget lt).key
            let cb := { ca with mapping := mapErase ca.mapping oldKey }
            let cc := cb.eset lt (fun e => { e with key := default })
            let cd := cc.eset lt (fun e => { e with value := default })
            let ce := insertHead cd .free lt
            (ce, [Ev.removed oldKey])
          else (p.2, [])
        else (c, [])
      let c1 := step1.1
      match (c1.eget n).list with
      | none => none
      | some lid =>
        match removeN c1 lid n with
        | (false, _) => none
        | (true, c2) =>
          let c3 := insertHead c2 .lru n
          some (some (c3.eget n).value, c3, step1.2 ++ [Ev.inserted key])

/-- `(*SLRUCache).Insert`.  `none` models a panic. -/
def Insert (c : Cache K V) (key : K) (value : V) :
    Option (Cache K V × List (Ev K)) :=
  match mapFind c.mapping key with
  | some n => some (c.eset n (fun e => { e with value := value }), [])
  | none =>
    let pick : Option (Int × Cache K V) :=
      if c.probelist.count ≥ c.pnum then
        let p := removeTail c .probe
        if p.1 = SLRU_EOF then none
        else
          let n := p.1
          let c1 := p.2
          let oldKey := (c1.eget n).key
          let c2 := { c1 with mapping := mapErase c1.mapping oldKey }
          let c3 := c2.eset n (fun e => { e with key := default })
          let c4 := c3.eset n (fun e => { e with value := default })
          some (n, c4)
      else
        let p := removeTail c .free
        if p.1 = SLRU_EOF then none else some (p.1, p.2)
    match pick with
    | none => none
    | some (n, c') =>
      let c4 := c'.eset n (fun e => { e with key := key })
      let c5 := c4.eset n (fun e => { e with value := value })
      let c6 := { c5 with mapping := mapInsert c5.mapping key n }
      some (insertHead c6 .probe n, [])

/-- `(*SLRUCache).Remove`: returns whether the key was found, the post
state and the callback trace.  Never panics in the source (a nil list
pointer is guarded). -/
def Remove (c : Cache K V) (key : K) : Bool × Cache K V × List (Ev K) :=
  match mapFind c.mapping key with
  | none => (false, c, [])
  | some n =>
    let c1 :=
      match (c.eget n).list with
      | some lid => (removeN c lid n).2
      | none => c
    let c2 := { c1 with mapping := mapErase c1.mapping key }
    let c3 := c2.eset n (fun e => { e with key := default })
    let c4 := c3.eset n (fun e => { e with value := default })
    let c5 := insertHead c4 .free n
    (true, c5, [Ev.removed key])

/-- One public operation, for describing call sequences. -/
inductive Op (K V : Type) : Type where
  | ins (k : K) (v : V) : Op K V
  | look (k : K) : Op K V
  | rem (k : K) : Op K V

/-- Run one operation, keeping only the post state (`none` = panic). -/
def step (c : Cache K V) : Op K V → Option (Cache K V)
  | .ins k v => (Insert c k v).map Prod.fst
  | .look k => (Lookup c k).map (fun r => r.2.1)
  | .rem k => some (Remove c k).2.1

/-- Run a sequence of operations (`none` as soon as one panics). -/
def runOps (c : Cache K V) : List (Op K V) → Option (Cache K V)
  | [] => some c
  | op :: rest =>
    match step c op with
    | none => none
    | some c' => runOps c' rest

/-- The three segment sizes `(free, lru, probe)` exposed for testing. -/
def counts (c : Cache K V) : Int × Int × Int :=
  (c.freelist.count, c.lrulist.count, c.probelist.count)

/-- States reachable from a constructed cache by the public operations
(stopping at a panic). -/
inductive Reachable : Cache K V → Prop where
  | new (s p : Nat) : Reachable (NewSLRUCache K V s p)
  | look {c : Cache K V} (k : K) {r : Option V} {c' : Cache K V} {evs : List (Ev K)} :
      Reachable c → Lookup c k = some (r, c', evs) → Reachable c'
  | ins {c : Cache K V} (k : K) (v : V) {c' : Cache K V} {evs : List (Ev K)} :
      Reachable c → Insert c k v = some (c', evs) → Reachable c'
  | rem {c : Cache K V} (k : K) {b : Bool} {c' : Cache K V} {evs : List (Ev K)} :
      Reachable c → Remove c k = (b, c', evs) → Reachable c'

/-! ## Basic lemmas about the state accessors -/

section Accessors

variable {c : Cache K V} {lid lid' : ListId} {s : LState} {i j : Int}
  {f : Entry K V → Entry K V}

@[simp] theorem entries_setLst : (c.setLst lid s).entries = c.entries := by
  cases lid <;> rfl

@[simp] theorem mapping_setLst : (c.setLst lid s).mapping = c.mapping := by
  cases lid <;> rfl

@[simp] theorem cnum_setLst : (c.setLst lid s).cnum = c.cnum := by
  cases lid <;> rfl

@[simp] theorem snum_setLst : (c.setLst lid s).snum = c.snum := by
  cases lid <;> rfl

@[simp] theorem pnum_setLst : (c.setLst lid s).pnum = c.pnum := by
  cases lid <;> rfl

@[simp] theorem eget_setLst : (c.setLst lid s).eget i = c.eget i := by
  unfold Cache.eget; cases lid <;> rfl

@[simp] theorem lst_setLst_self : (c.setLst lid s).lst lid = s := by
  cases lid <;> rfl

@[simp] theorem setLst_setLst {s' : LState} :
    (c.setLst lid s).setLst lid s' = c.setLst lid s' := by
  cases lid <;> rfl

theorem lst_setLst_ne (h : lid' ≠ lid) : (c.setLst lid s).lst lid' = c.lst lid' := by
  cases lid <;> cases lid' <;> first | rfl | exact absurd rfl h

theorem eget_setMapping {m : List (K × Int)} :
    (({ c with mapping := m } : Cache K V)).eget i = c.eget i := rfl

theorem lst_setMapping {m : List (K × Int)} :
    (({ c with mapping := m } : Cache K V)).lst lid = c.lst lid := by
  cases lid <;> rfl

theorem size_setMapping {m : List (K × Int)} :
    (({ c with mapping := m } : Cache K V)).entries.size = c.entries.size := rfl

theorem cnum_setMapping {m : List (K × Int)} :
    (({ c with mapping := m } : Cache K V)).cnum = c.cnum := rfl

theorem snum_setMapping {m : List (K × Int)} :
    (({ c with mapping := m } : Cache K V)).snum = c.snum := rfl

theorem pnum_setMapping {m : List (K × Int)} :
    (({ c with mapping := m } : Cache K V)).pnum = c.pnum := rfl

theorem mapping_setMapping {m : List (K × Int)} :
    (({ c with mapping := m } : Cache K V)).mapping = m := rfl

theorem lst_free_eq : c.lst .free = c.freelist := rfl

theorem lst_lru_eq : c.lst .lru = c.lrulist := rfl

theorem lst_probe_eq : c.lst .probe = c.probelist := rfl

theorem eset_of_invalid (h : ¬(0 ≤ i ∧ i.toNat < c.entries.size)) : c.eset i f = c := by
  unfold Cache.eset; rw [dif_neg h]

@[simp] theorem size_eset : ((c.eset i f).entries.size) = c.entries.size := by
  unfold Cache.eset
  by_cases h : 0 ≤ i ∧ i.toNat < c.entries.size
  · rw [dif_pos h]; exact Array.size_set ..
  · rw [dif_neg h]

@[simp] theorem mapping_eset : (c.eset i f).mapping = c.mapping := by
  unfold Cache.eset
  by_cases h : 0 ≤ i ∧ i.toNat < c.entries.size
  · rw [dif_pos h]
  · rw [dif_neg h]

@[simp] theorem cnum_eset : (c.eset i f).cnum = c.cnum := by
  unfold Cache.eset
  by_cases h : 0 ≤ i ∧ i.toNat < c.entries.size
  · rw [dif_pos h]
  · rw [dif_neg h]

@[simp] theorem snum_eset : (c.eset i f).snum = c.snum := by
  unfold Cache.eset
  by_cases h : 0 ≤ i ∧ i.toNat < c.entries.size
  · rw [dif_pos h]
  · rw [dif_neg h]

@[simp] theorem pnum_eset : (c.eset i f).pnum = c.pnum := by
  unfold Cache.eset
  by_cases h : 0 ≤ i ∧ i.toNat < c.entries.size
  · rw [dif_pos h]
  · rw [dif_neg h]

@[simp] theorem lst_eset : (c.eset i f).lst lid = c.lst lid := by
  unfold Cache.eset
  by_cases h : 0 ≤ i ∧ i.toNat < c.entries.size
  · rw [dif_pos h]; cases lid <;> rfl
  · rw [dif_neg h]

@[simp] theorem freelist_eset : (c.eset i f).freelist = c.freelist := by
  rw [← lst_free_eq, lst_eset, lst_free_eq]

@[simp] theorem lrulist_eset : (c.eset i f).lrulist = c.lrulist := by
  rw [← lst_lru_eq, lst_eset, lst_lru_eq]

@[simp] theorem probelist_eset : (c.eset i f).probelist = c.probelist := by
  rw [← lst_probe_eq, lst_eset, lst_probe_eq]

theorem eget_of_invalid (h : ¬(0 ≤ i ∧ i.toNat < c.entries.size)) : c.eget i = default := by
  unfold Cache.eget; rw [if_neg h]

theorem eget_eq (h : 0 ≤ i ∧ i.toNat < c.entries.size) :
    c.eget i = c.entries.getD i.toNat default := by
  unfold Cache.eget; rw [if_pos h]

theorem eset_eq (h : 0 ≤ i ∧ i.toNat < c.entries.size) :
    c.eset i f =
      { c with entries := c.entries.set ⟨i.toNat, h.2⟩ (f (c.entries.getD i.toNat default)) } := by
  unfold Cache.eset; rw [dif_pos h]

/-- `Array.getD` after `Array.set` at the same index. -/
theorem getD_set_self {α : Type} (a : Array α) (i : Fin a.size) (v d : α) :
    (a.set i v).getD i.val d = v := by
  unfold Array.getD
  split
  next h => exact Array.getElem_set_eq _ _ _ rfl _
  next h => exact absurd (by simp [Array.size_set, i.isLt]) h

/-- `Array.getD` after `Array.set` at a different index. -/
theorem getD_set_ne {α : Type} (a : Array α) (i : Fin a.size) (v d : α) (j : Nat)
    (h : i.val ≠ j) : (a.set i v).getD j d = a.getD j d := by
  unfold Array.getD
  by_cases hj : j < a.size
  · rw [dif_pos (by simpa using hj), dif_pos hj]
    exact Array.getElem_set_ne _ _ _ _ h
  · rw [dif_neg (by simpa using hj), dif_neg hj]

theorem eget_eset_self (h : 0 ≤ i ∧ i.toNat < c.entries.size) :
    (c.eset i f).eget i = f (c.eget i) := by
  rw [eset_eq h, eget_eq h]
  have hvalid : 0 ≤ i ∧ i.toNat <
      (c.entries.set ⟨i.toNat, h.2⟩ (f (c.entries.getD i.toNat default))).size := by
    refine ⟨h.1, ?_⟩; rw [Array.size_set]; exact h.2
  rw [eget_eq hvalid]
  exact getD_set_self c.entries ⟨i.toNat, h.2⟩ _ _

theorem eget_eset_ne (h : j ≠ i) : (c.eset i f).eget j = c.eget j := by
  by_cases hi : 0 ≤ i ∧ i.toNat < c.entries.size
  · rw [eset_eq hi]
    by_cases hj : 0 ≤ j ∧ j.toNat < c.entries.size
    · have hj' : 0 ≤ j ∧ j.toNat <
          (c.entries.set ⟨i.toNat, hi.2⟩ (f (c.entries.getD i.toNat default))).size := by
        refine ⟨hj.1, ?_⟩; rw [Array.size_set]; exact hj.2
      rw [eget_eq hj', eget_eq hj]
      refine getD_set_ne c.entries ⟨i.toNat, hi.2⟩ _ _ _ ?_
      simp only []
      omega
    · have hj' : ¬(0 ≤ j ∧ j.toNat <
          (c.entries.set ⟨i.toNat, hi.2⟩ (f (c.entries.getD i.toNat default))).size) := by
        rw [Array.size_set]; exact hj
      rw [eget_of_invalid hj', eget_of_invalid hj]
  · rw [eset_of_invalid hi]

end Accessors

/-! ## Lemmas about the association-list map -/

section MapLemmas

variable [DecidableEq K] {m : List (K × Int)} {k k' : K} {n : Int}

@[simp] theorem mapFind_mapErase_self : mapFind (mapErase m k) k = none := by
  induction m with
  | nil => rfl
  | cons p rest ih =>
    obtain ⟨k0, n0⟩ := p
    by_cases h : k0 = k
    · simpa [mapErase, h] using ih
    · simpa [mapErase, mapFind, h] using ih

theorem mapFind_mapErase_ne (h : k' ≠ k) :
    mapFind (mapErase m k) k' = mapFind m k' := by
  have hkk : ¬(k = k') := fun hc => h hc.symm
  have hkk' : ¬(k' = k) := h
  induction m with
  | nil => rfl
  | cons p rest ih =>
    obtain ⟨k0, n0⟩ := p
    by_cases h0 : k0 = k
    · simp [mapErase, mapFind, h0, hkk, ih]
    · by_cases h1 : k0 = k'
      · simp [mapErase, mapFind, h0, h1, hkk', ih]
      · simp [mapErase, mapFind, h0, h1, ih]

@[simp] theorem mapFind_mapInsert_self : mapFind (mapInsert m k n) k = some n := by
  simp [mapInsert, mapFind]

theorem mapFind_mapInsert_ne (h : k' ≠ k) :
    mapFind (mapInsert m k n) k' = mapFind m k' := by
  have h1 : ¬(k = k') := fun hc => h hc.symm
  simp only [mapInsert, mapFind, if_neg h1]
  exact mapFind_mapErase_ne h

end MapLemmas

/-! ## The list representation predicate

`chainTo c lid p xs q` says that `xs` is a consecutive run of valid slot
indices, all tagged as members of list `lid`, doubly linked in order,
whose first slot's `prev` is `p` and whose last slot's `next` is `q`.
`listRep c lid xs` says the whole list named `lid` is exactly `xs`
(its `head`, `tail` and `count` agree). -/

/-- Head of an index list, or the sentinel. -/
def headI : List Int → Int
  | [] => SLRU_EOF
  | n :: _ => n

/-- Head of an index list, or the fallback `q`. -/
def headQ : List Int → Int → Int
  | [], q => q
  | n :: _, _ => n

/-- Last element of an index list, or the sentinel. -/
def lastI : List Int → Int
  | [] => SLRU_EOF
  | [n] => n
  | _ :: m :: rest => lastI (m :: rest)

/-- Last element of an index list, or the fallback `p`. -/
def lastQ : List Int → Int → Int
  | [], p => p
  | [n], _ => n
  | _ :: m :: rest, p => lastQ (m :: rest) p

@[simp] theorem headI_nil : headI [] = SLRU_EOF := rfl
@[simp] theorem headI_cons {n : Int} {xs : List Int} : headI (n :: xs) = n := rfl
@[simp] theorem headQ_nil {q : Int} : headQ [] q = q := rfl
@[simp] theorem headQ_cons {n q : Int} {xs : List Int} : headQ (n :: xs) q = n := rfl
@[simp] theorem lastI_nil : lastI [] = SLRU_EOF := rfl
@[simp] theorem lastI_single {n : Int} : lastI [n] = n := rfl
@[simp] theorem lastQ_nil {p : Int} : lastQ [] p = p := rfl
@[simp] theorem lastQ_single {n p : Int} : lastQ [n] p = n := rfl

theorem lastI_cons₂ {n m : Int} {xs : List Int} :
    lastI (n :: m :: xs) = lastI (m :: xs) := rfl

theorem lastQ_cons₂ {n m p : Int} {xs : List Int} :
    lastQ (n :: m :: xs) p = lastQ (m :: xs) p := rfl

theorem lastQ_eq_lastI {xs : List Int} {p : Int} (h : xs ≠ []) : lastQ xs p = lastI xs := by
  induction xs with
  | nil => exact absurd rfl h
  | cons n rest ih =>
    cases rest with
    | nil => rfl
    | cons m rest' => rw [lastQ_cons₂, lastI_cons₂]; exact ih (by simp)

theorem lastI_mem {xs : List Int} (h : xs ≠ []) : lastI xs ∈ xs := by
  induction xs with
  | nil => exact absurd rfl h
  | cons n rest ih =>
    cases rest with
    | nil => simp
    | cons m rest' =>
      rw [lastI_cons₂]
      exact List.mem_cons_of_mem _ (ih (by simp))

theorem lastI_concat {xs : List Int} {t : Int} : lastI (xs ++ [t]) = t := by
  induction xs with
  | nil => rfl
  | cons n rest ih =>
    cases rest with
    | nil => rfl
    | cons m rest' =>
      rw [show (n :: m :: rest') ++ [t] = n :: m :: (rest' ++ [t]) from rfl, lastI_cons₂]
      exact ih

theorem headI_concat {xs : List Int} {t : Int} (h : xs ≠ []) :
    headI (xs ++ [t]) = headI xs := by
  cases xs with
  | nil => exact absurd rfl h
  | cons n rest => rfl

/-- Links of two entries agree (the fields `chainTo` inspects). -/
def linkEq (e e' : Entry K V) : Prop :=
  e.prev = e'.prev ∧ e.next = e'.next ∧ e.list = e'.list

theorem linkEq_refl {e : Entry K V} : linkEq e e := ⟨rfl, rfl, rfl⟩

theorem linkEq_of_eq {e e' : Entry K V} (h : e = e') : linkEq e e' := h ▸ linkEq_refl

/-- `xs` is a doubly linked run of list `lid` between boundary links
`p` (before) and `q` (after). -/
def chainTo (c : Cache K V) (lid : ListId) : Int → List Int → Int → Prop
  | _, [], _ => True
  | p, n :: rest, q =>
    0 ≤ n ∧ n < (c.entries.size : Int) ∧
    (c.eget n).prev = p ∧ (c.eget n).next = headQ rest q ∧
    (c.eget n).list = some lid ∧ chainTo c lid n rest q

@[simp] theorem chainTo_nil {c : Cache K V} {lid : ListId} {p q : Int} :
    chainTo c lid p [] q := trivial

theorem chainTo_cons {c : Cache K V} {lid : ListId} {p q n : Int} {rest : List Int} :
    chainTo c lid p (n :: rest) q ↔
      0 ≤ n ∧ n < (c.entries.size : Int) ∧
      (c.eget n).prev = p ∧ (c.eget n).next = headQ rest q ∧
      (c.eget n).list = some lid ∧ chainTo c lid n rest q := Iff.rfl

theorem chainTo_mem {c : Cache K V} {lid : ListId} {p q i : Int} {xs : List Int}
    (h : chainTo c lid p xs q) (hm : i ∈ xs) :
    0 ≤ i ∧ i < (c.entries.size : Int) ∧ (c.eget i).list = some lid := by
  induction xs generalizing p with
  | nil => cases hm
  | cons n rest ih =>
    rw [chainTo_cons] at h
    rcases List.mem_cons.mp hm with h1 | h1
    · exact h1 ▸ ⟨h.1, h.2.1, h.2.2.2.2.1⟩
    · exact ih h.2.2.2.2.2 h1

/-- The full list named `lid` is exactly `xs` (head to tail). -/
def listRep (c : Cache K V) (lid : ListId) (xs : List Int) : Prop :=
  chainTo c lid SLRU_EOF xs SLRU_EOF ∧
  (c.lst lid).head = headI xs ∧
  (c.lst lid).tail = lastI xs ∧
  (c.lst lid).count = (xs.length : Int)

theorem listRep_nil_iff {c : Cache K V} {lid : ListId} :
    listRep c lid [] ↔ (c.lst lid).head = SLRU_EOF ∧ (c.lst lid).tail = SLRU_EOF ∧
      (c.lst lid).count = 0 := by
  unfold listRep
  simp

/-! ## Chain manipulation lemmas -/

theorem lastQ_cons {n p : Int} {rest : List Int} : lastQ (n :: rest) p = lastQ rest n := by
  cases rest with
  | nil => rfl
  | cons m r' => rw [lastQ_cons₂, lastQ_eq_lastI (by simp), lastQ_eq_lastI (by simp)]

theorem headQ_append {xs ys : List Int} {q : Int} :
    headQ (xs ++ ys) q = headQ xs (headQ ys q) := by
  cases xs <;> rfl

/-- Chains only look at link fields, so they survive any update that
preserves the links of their members (and the array size). -/
theorem chainTo_frame {c c' : Cache K V} {lid : ListId} {p q : Int} {xs : List Int}
    (hsize : c'.entries.size = c.entries.size)
    (heq : ∀ i ∈ xs, linkEq (c'.eget i) (c.eget i))
    (h : chainTo c lid p xs q) : chainTo c' lid p xs q := by
  induction xs generalizing p with
  | nil => trivial
  | cons n rest ih =>
    rw [chainTo_cons] at h ⊢
    obtain ⟨h1, h2, h3, h4, h5, h6⟩ := h
    obtain ⟨e1, e2, e3⟩ := heq n (List.mem_cons_self _ _)
    exact ⟨h1, by rw [hsize]; exact h2, by rw [e1, h3], by rw [e2, h4], by rw [e3, h5],
      ih (fun i hi => heq i (List.mem_cons_of_mem _ hi)) h6⟩

/-- Splitting a chain at an append. -/
theorem chainTo_append {c : Cache K V} {lid : ListId} {p q : Int} {xs ys : List Int} :
    chainTo c lid p (xs ++ ys) q ↔
      chainTo c lid p xs (headQ ys q) ∧ chainTo c lid (lastQ xs p) ys q := by
  induction xs generalizing p with
  | nil => simp
  | cons n rest ih =>
    rw [List.cons_append, chainTo_cons, chainTo_cons, headQ_append, lastQ_cons, ih]
    tauto

/-- Rewriting the final link of a chain: if only the last member's `next`
changed (to `q'`) and every other member's links are untouched, the chain
persists with the new exit link. -/
theorem chainTo_next_retarget {c c' : Cache K V} {lid : ListId} {p q q' : Int} {xs : List Int}
    (hsize : c'.entries.size = c.entries.size)
    (hnd : xs.Nodup)
    (hpl : ∀ i ∈ xs, (c'.eget i).prev = (c.eget i).prev ∧ (c'.eget i).list = (c.eget i).list)
    (hnx : ∀ i ∈ xs, i ≠ lastI xs → (c'.eget i).next = (c.eget i).next)
    (hlast : xs = [] ∨ (c'.eget (lastI xs)).next = q')
    (h : chainTo c lid p xs q) : chainTo c' lid p xs q' := by
  induction xs generalizing p with
  | nil => trivial
  | cons n rest ih =>
    rw [chainTo_cons] at h ⊢
    obtain ⟨h1, h2, h3, h4, h5, h6⟩ := h
    obtain ⟨e1, e3⟩ := hpl n (List.mem_cons_self _ _)
    rcases hlast with hl | hl
    · cases hl
    cases rest with
    | nil =>
      rw [lastI_single] at hl
      exact ⟨h1, by rw [hsize]; exact h2, by rw [e1, h3], by simpa using hl,
        by rw [e3, h5], trivial⟩
    | cons m rest' =>
      have hlm : lastI (n :: m :: rest') = lastI (m :: rest') := lastI_cons₂
      have hne : n ≠ lastI (n :: m :: rest') := by
        rw [hlm]
        intro hc
        exact (List.nodup_cons.mp hnd).1 (hc ▸ lastI_mem (by simp))
      refine ⟨h1, by rw [hsize]; exact h2, by rw [e1, h3],
        by rw [hnx n (List.mem_cons_self _ _) hne, h4, headQ_cons, headQ_cons],
        by rw [e3, h5], ?_⟩
      refine ih (List.nodup_cons.mp hnd).2
        (fun i hi => hpl i (List.mem_cons_of_mem _ hi))
        (fun i hi hne' => hnx i (List.mem_cons_of_mem _ hi) (by rw [hlm]; exact hne'))
        (Or.inr (by rw [← hlm]; exact hl)) h6

/-- Rewriting the entry link of a chain: if only the first member's
`prev` changed (to `p'`) and all other links are untouched, the chain
persists with the new entry link. -/
theorem chainTo_prev_retarget {c c' : Cache K V} {lid : ListId} {p p' q n : Int} {xs : List Int}
    (hsize : c'.entries.size = c.entries.size)
    (hn1 : (c'.eget n).prev = p')
    (hn2 : (c'.eget n).next = (c.eget n).next)
    (hn3 : (c'.eget n).list = (c.eget n).list)
    (hxs : ∀ i ∈ xs, linkEq (c'.eget i) (c.eget i))
    (h : chainTo c lid p (n :: xs) q) : chainTo c' lid p' (n :: xs) q := by
  rw [chainTo_cons] at h ⊢
  obtain ⟨h1, h2, h3, h4, h5, h6⟩ := h
  exact ⟨h1, by rw [hsize]; exact h2, hn1, by rw [hn2, h4], by rw [hn3, h5],
    chainTo_frame hsize hxs h6⟩

/-- listRep survives updates that keep the list metadata and the members'
links. -/
theorem listRep_frame {c c' : Cache K V} {lid : ListId} {xs : List Int}
    (hsize : c'.entries.size = c.entries.size)
    (hlst : c'.lst lid = c.lst lid)
    (heq : ∀ i ∈ xs, linkEq (c'.eget i) (c.eget i))
    (h : listRep c lid xs) : listRep c' lid xs := by
  obtain ⟨h1, h2, h3, h4⟩ := h
  exact ⟨chainTo_frame hsize heq h1, by rw [hlst]; exact h2, by rw [hlst]; exact h3,
    by rw [hlst]; exact h4⟩

theorem listRep_mem {c : Cache K V} {lid : ListId} {xs : List Int} {i : Int}
    (h : listRep c lid xs) (hm : i ∈ xs) :
    0 ≤ i ∧ i < (c.entries.size : Int) ∧ (c.eget i).list = some lid :=
  chainTo_mem h.1 hm

theorem listRep_not_mem {c : Cache K V} {lid : ListId} {xs : List Int} {i : Int}
    (h : listRep c lid xs) (htag : (c.eget i).list ≠ some lid) : i ∉ xs :=
  fun hm => htag (listRep_mem h hm).2.2

/-! ## Effect lemmas for the four list operations -/

/-- Common frame of a list operation on list `lid` that only touches the
slots in `touched`: mapping, sizes, other lists' metadata, entries outside
`touched`, and every slot's key and value are untouched. -/
def opFrame (c c' : Cache K V) (lid : ListId) (touched : List Int) : Prop :=
  c'.mapping = c.mapping ∧ c'.cnum = c.cnum ∧ c'.snum = c.snum ∧ c'.pnum = c.pnum ∧
  c'.entries.size = c.entries.size ∧
  (∀ lid', lid' ≠ lid → c'.lst lid' = c.lst lid') ∧
  (∀ i, i ∉ touched → c'.eget i = c.eget i) ∧
  (∀ i, (c'.eget i).key = (c.eget i).key ∧ (c'.eget i).value = (c.eget i).value)

theorem eget_eset_self' {c : Cache K V} {i : Int} {f : Entry K V → Entry K V}
    (h0 : 0 ≤ i) (h1 : i < (c.entries.size : Int)) : (c.eset i f).eget i = f (c.eget i) :=
  eget_eset_self ⟨h0, by omega⟩

/-- `removeTail` on an empty list returns the sentinel and changes
nothing. -/
theorem removeTail_nil {c : Cache K V} {lid : ListId} (h : listRep c lid []) :
    removeTail c lid = (SLRU_EOF, c) := by
  have h3 : (c.lst lid).tail = SLRU_EOF := by simpa using h.2.2.1
  unfold removeTail
  rw [h3]
  norm_num [SLRU_EOF]

/-- Effect of `removeTail` on a non-empty list `xs ++ [t]`: it returns
`t`, the list becomes `xs`, `t`'s links and list tag are cleared, and
nothing else changes. -/
theorem removeTail_spec {c : Cache K V} {lid : ListId} {xs : List Int} {t : Int}
    (h : listRep c lid (xs ++ [t])) (hnd : (xs ++ [t]).Nodup) :
    ∃ c', removeTail c lid = (t, c') ∧ listRep c' lid xs ∧
      opFrame c c' lid (xs ++ [t]) ∧
      (∀ i, (c'.eget i).list = if i = t then none else (c.eget i).list) ∧
      (c'.eget t).prev = SLRU_EOF ∧ (c'.eget t).next = SLRU_EOF := by
  obtain ⟨hch, hhd, htl, hcn⟩ := h
  rw [chainTo_append] at hch
  obtain ⟨hch1, hch2⟩ := hch
  rw [chainTo_cons] at hch2
  obtain ⟨ht0, ht1, htp, htn, httag, -⟩ := hch2
  rw [headQ_nil] at htn
  have htl' : (c.lst lid).tail = t := by rw [htl, lastI_concat]
  have hndx : xs.Nodup := (List.nodup_append.mp hnd).1
  have htnm : t ∉ xs := fun hm => (List.nodup_append.mp hnd).2.2 hm (by simp)
  have hnneg : ¬ t < 0 := by omega
  by_cases hxne : xs = []
  case pos =>
    subst hxne
    rw [lastQ_nil] at htp
    have hcn1 : (c.lst lid).count = 1 := by simpa using hcn
    refine ⟨(((c.setLst lid { c.lst lid with tail := SLRU_EOF }).eset t
        (fun e => { e with next := SLRU_EOF })).eset t
        (fun e => { e with prev := SLRU_EOF })).setLst lid
        { head := SLRU_EOF, tail := SLRU_EOF, count := (c.lst lid).count } |>.eset t
        (fun e => { e with list := none }) |>.setLst lid
        { head := SLRU_EOF, tail := SLRU_EOF, count := (c.lst lid).count - 1 },
      ?_, ?_, ?_, ?_, ?_, ?_⟩
    · unfold removeTail
      rw [htl']
      simp only [hnneg, if_false, htp, lst_eset, lst_setLst_self, eget_setLst,
        eq_self_iff_true, if_true]
    · exact ⟨trivial, by simp [lst_setLst_self], by simp [lst_setLst_self],
        by simp [lst_setLst_self, hcn1]⟩
    · refine ⟨by simp, by simp, by simp, by simp, by simp, ?_, ?_, ?_⟩
      · intro lid' hne
        rw [lst_setLst_ne hne, lst_eset, lst_setLst_ne hne, lst_eset, lst_eset,
          lst_setLst_ne hne]
      · intro i hi
        have hit : i ≠ t := by simpa using hi
        rw [eget_setLst, eget_eset_ne hit, eget_setLst, eget_eset_ne hit,
          eget_eset_ne hit, eget_setLst]
      · intro i
        by_cases hit : i = t
        · subst hit
          rw [eget_setLst, eget_eset_self' ht0 (by simpa using ht1), eget_setLst,
            eget_eset_self' ht0 (by simpa using ht1),
            eget_eset_self' ht0 (by simpa using ht1), eget_setLst]
          exact ⟨rfl, rfl⟩
        · rw [eget_setLst, eget_eset_ne hit, eget_setLst, eget_eset_ne hit,
            eget_eset_ne hit, eget_setLst]
          exact ⟨rfl, rfl⟩
    · intro i
      by_cases hit : i = t
      · subst hit
        rw [if_pos rfl, eget_setLst, eget_eset_self' ht0 (by simpa using ht1), eget_setLst,
          eget_eset_self' ht0 (by simpa using ht1),
          eget_eset_self' ht0 (by simpa using ht1), eget_setLst]
      · rw [if_neg hit, eget_setLst, eget_eset_ne hit, eget_setLst, eget_eset_ne hit,
          eget_eset_ne hit, eget_setLst]
    · rw [eget_setLst, eget_eset_self' ht0 (by simpa using ht1), eget_setLst,
        eget_eset_self' ht0 (by simpa using ht1),
        eget_eset_self' ht0 (by simpa using ht1), eget_setLst]
    · rw [eget_setLst, eget_eset_self' ht0 (by simpa using ht1), eget_setLst,
        eget_eset_self' ht0 (by simpa using ht1),
        eget_eset_self' ht0 (by simpa using ht1), eget_setLst]
  case neg =>
    rw [lastQ_eq_lastI hxne] at htp
    have hla := chainTo_mem hch1 (lastI_mem hxne)
    obtain ⟨hla0, hla1, hlatag⟩ := hla
    have hlat : lastI xs ≠ t := fun hc => htnm (hc ▸ lastI_mem hxne)
    have hcond : ¬ ((c.eget t).prev = SLRU_EOF) := by
      rw [htp]
      intro hc
      rw [hc] at hla0
      norm_num [SLRU_EOF] at hla0
    have hcnt : (c.lst lid).count = (xs.length : Int) + 1 := by
      rw [hcn]; push_cast [List.length_append, List.length_singleton]; ring
    have key : removeTail c lid = (t, ((((c.setLst lid
        { c.lst lid with tail := (c.eget t).prev }).eset t
        (fun e => { e with next := SLRU_EOF })).eset t
        (fun e => { e with prev := SLRU_EOF })).eset (c.eget t).prev
        (fun e => { e with next := SLRU_EOF })).eset t
        (fun e => { e with list := none }) |>.setLst lid
        { head := (c.lst lid).head, tail := (c.eget t).prev,
          count := (c.lst lid).count - 1 }) := by
      unfold removeTail
      rw [htl']
      simp only [hnneg, if_false, lst_eset, lst_setLst_self]
      rw [if_neg hcond]
      simp only [lst_eset, lst_setLst_self]
    rw [htp] at key
    set la := lastI xs with hladef
    refine ⟨_, key, ?_, ?_, ?_, ?_, ?_⟩
    · -- listRep c' lid xs
      refine ⟨?_, ?_, ?_, ?_⟩
      · -- the chain
        refine chainTo_next_retarget (q := t) (by simp) hndx ?_ ?_ (Or.inr ?_) hch1
        · intro i hi
          have hit : i ≠ t := fun hc => htnm (hc ▸ hi)
          by_cases hil : i = la
          · subst hil
            rw [eget_setLst, eget_eset_ne hit,
              eget_eset_self' hla0 (by simpa using hla1), eget_eset_ne hit,
              eget_eset_ne hit, eget_setLst]
            exact ⟨rfl, rfl⟩
          · rw [eget_setLst, eget_eset_ne hit, eget_eset_ne hil, eget_eset_ne hit,
              eget_eset_ne hit, eget_setLst]
            exact ⟨rfl, rfl⟩
        · intro i hi hil
          have hit : i ≠ t := fun hc => htnm (hc ▸ hi)
          rw [eget_setLst, eget_eset_ne hit, eget_eset_ne hil, eget_eset_ne hit,
            eget_eset_ne hit, eget_setLst]
        · rw [eget_setLst, eget_eset_ne hlat,
            eget_eset_self' hla0 (by simpa using hla1)]
      · rw [lst_setLst_self]
        rw [hhd, headI_concat hxne]
      · rw [lst_setLst_self]
      · rw [lst_setLst_self]
        simp [hcnt]
    · -- opFrame
      refine ⟨by simp, by simp, by simp, by simp, by simp, ?_, ?_, ?_⟩
      · intro lid' hne
        rw [lst_setLst_ne hne, lst_eset, lst_eset, lst_eset, lst_eset, lst_setLst_ne hne]
      · intro i hi
        have hit : i ≠ t := fun hc => hi (by rw [hc]; simp)
        have hil : i ≠ la := fun hc => hi (by rw [hc]; exact List.mem_append_left _ (lastI_mem hxne))
        rw [eget_setLst, eget_eset_ne hit, eget_eset_ne hil, eget_eset_ne hit,
          eget_eset_ne hit, eget_setLst]
      · intro i
        by_cases hit : i = t
        · subst hit
          rw [eget_setLst, eget_eset_self' ht0 (by simpa using ht1), eget_eset_ne hlat.symm,
            eget_eset_self' ht0 (by simpa using ht1),
            eget_eset_self' ht0 (by simpa using ht1), eget_setLst]
          exact ⟨rfl, rfl⟩
        · by_cases hil : i = la
          · subst hil
            rw [eget_setLst, eget_eset_ne hit,
              eget_eset_self' hla0 (by simpa using hla1), eget_eset_ne hit,
              eget_eset_ne hit, eget_setLst]
            exact ⟨rfl, rfl⟩
          · rw [eget_setLst, eget_eset_ne hit, eget_eset_ne hil, eget_eset_ne hit,
              eget_eset_ne hit, eget_setLst]
            exact ⟨rfl, rfl⟩
    · -- list tags
      intro i
      by_cases hit : i = t
      · subst hit
        rw [if_pos rfl, eget_setLst, eget_eset_self' ht0 (by simpa using ht1),
          eget_eset_ne hlat.symm, eget_eset_self' ht0 (by simpa using ht1),
          eget_eset_self' ht0 (by simpa using ht1), eget_setLst]
      · rw [if_neg hit]
        by_cases hil : i = la
        · subst hil
          rw [eget_setLst, eget_eset_ne hit,
            eget_eset_self' hla0 (by simpa using hla1), eget_eset_ne hit,
            eget_eset_ne hit, eget_setLst]
        · rw [eget_setLst, eget_eset_ne hit, eget_eset_ne hil, eget_eset_ne hit,
            eget_eset_ne hit, eget_setLst]
    · rw [eget_setLst, eget_eset_self' ht0 (by simpa using ht1), eget_eset_ne hlat.symm,
        eget_eset_self' ht0 (by simpa using ht1),
        eget_eset_self' ht0 (by simpa using ht1), eget_setLst]
    · rw [eget_setLst, eget_eset_self' ht0 (by simpa using ht1), eget_eset_ne hlat.symm,
        eget_eset_self' ht0 (by simpa using ht1),
        eget_eset_self' ht0 (by simpa using ht1), eget_setLst]

theorem lastI_cons_of_ne_nil {x : Int} {t : List Int} (h : t ≠ []) :
    lastI (x :: t) = lastI t := by
  cases t with
  | nil => exact absurd rfl h
  | cons y ys => exact lastI_cons₂

theorem lastI_append {xs ys : List Int} (h : ys ≠ []) : lastI (xs ++ ys) = lastI ys := by
  induction xs with
  | nil => rfl
  | cons x rest ih =>
    rw [List.cons_append, lastI_cons_of_ne_nil (fun hc => h (List.append_eq_nil.mp hc).2)]
    exact ih

/-- Effect of `removeHead` on a non-empty list `n :: xs`: it returns `n`,
the list becomes `xs`, `n`'s links and tag are cleared, nothing else
changes. -/
theorem removeHead_spec {c : Cache K V} {lid : ListId} {xs : List Int} {n : Int}
    (h : listRep c lid (n :: xs)) (hnd : (n :: xs).Nodup) :
    ∃ c', removeHead c lid = (n, c') ∧ listRep c' lid xs ∧
      opFrame c c' lid (n :: xs) ∧
      (∀ i, (c'.eget i).list = if i = n then none else (c.eget i).list) ∧
      (c'.eget n).prev = SLRU_EOF ∧ (c'.eget n).next = SLRU_EOF := by
  obtain ⟨hch, hhd, htl, hcn⟩ := h
  rw [chainTo_cons] at hch
  obtain ⟨hn0, hn1, hprev, hnext, htag, hch2⟩ := hch
  have hhd' : (c.lst lid).head = n := by rw [hhd, headI_cons]
  have hndx : xs.Nodup := (List.nodup_cons.mp hnd).2
  have hnnm : n ∉ xs := (List.nodup_cons.mp hnd).1
  have hnneg : ¬ n < 0 := by omega
  by_cases hxne : xs = []
  case pos =>
    subst hxne
    rw [headQ_nil] at hnext
    have hcn1 : (c.lst lid).count = 1 := by simpa using hcn
    refine ⟨(((c.setLst lid { c.lst lid with head := SLRU_EOF }).eset n
        (fun e => { e with next := SLRU_EOF })).eset n
        (fun e => { e with prev := SLRU_EOF })).setLst lid
        { head := SLRU_EOF, tail := SLRU_EOF, count := (c.lst lid).count } |>.eset n
        (fun e => { e with list := none }) |>.setLst lid
        { head := SLRU_EOF, tail := SLRU_EOF, count := (c.lst lid).count - 1 },
      ?_, ?_, ?_, ?_, ?_, ?_⟩
    · unfold removeHead
      rw [hhd']
      simp only [hnneg, if_false, hnext, lst_eset, lst_setLst_self, eget_setLst,
        eq_self_iff_true, if_true]
    · exact ⟨trivial, by simp [lst_setLst_self], by simp [lst_setLst_self],
        by simp [lst_setLst_self, hcn1]⟩
    · refine ⟨by simp, by simp, by simp, by simp, by simp, ?_, ?_, ?_⟩
      · intro lid' hne
        rw [lst_setLst_ne hne, lst_eset, lst_setLst_ne hne, lst_eset, lst_eset,
          lst_setLst_ne hne]
      · intro i hi
        have hit : i ≠ n := by simpa using hi
        rw [eget_setLst, eget_eset_ne hit, eget_setLst, eget_eset_ne hit,
          eget_eset_ne hit, eget_setLst]
      · intro i
        by_cases hit : i = n
        · subst hit
          rw [eget_setLst, eget_eset_self' hn0 (by simpa using hn1), eget_setLst,
            eget_eset_self' hn0 (by simpa using hn1),
            eget_eset_self' hn0 (by simpa using hn1), eget_setLst]
          exact ⟨rfl, rfl⟩
        · rw [eget_setLst, eget_eset_ne hit, eget_setLst, eget_eset_ne hit,
            eget_eset_ne hit, eget_setLst]
          exact ⟨rfl, rfl⟩
    · intro i
      by_cases hit : i = n
      · subst hit
        rw [if_pos rfl, eget_setLst, eget_eset_self' hn0 (by simpa using hn1), eget_setLst,
          eget_eset_self' hn0 (by simpa using hn1),
          eget_eset_self' hn0 (by simpa using hn1), eget_setLst]
      · rw [if_neg hit, eget_setLst, eget_eset_ne hit, eget_setLst, eget_eset_ne hit,
          eget_eset_ne hit, eget_setLst]
    · rw [eget_setLst, eget_eset_self' hn0 (by simpa using hn1), eget_setLst,
        eget_eset_self' hn0 (by simpa using hn1),
        eget_eset_self' hn0 (by simpa using hn1), eget_setLst]
    · rw [eget_setLst, eget_eset_self' hn0 (by simpa using hn1), eget_setLst,
        eget_eset_self' hn0 (by simpa using hn1),
        eget_eset_self' hn0 (by simpa using hn1), eget_setLst]
  case neg =>
    obtain ⟨y, ys, rfl⟩ := List.exists_cons_of_ne_nil hxne
    rw [headQ_cons] at hnext
    have hy := chainTo_mem hch2 (List.mem_cons_self _ _)
    obtain ⟨hy0, hy1, hytag⟩ := hy
    have hyn : y ≠ n := fun hc => hnnm (hc ▸ List.mem_cons_self _ _)
    have hcond : ¬ ((c.eget n).next = SLRU_EOF) := by
      rw [hnext]
      intro hc
      rw [hc] at hy0
      norm_num [SLRU_EOF] at hy0
    have hcnt : (c.lst lid).count = ((y :: ys).length : Int) + 1 := by
      rw [hcn]; push_cast [List.length_cons]; ring
    have key : removeHead c lid = (n, ((((c.setLst lid
        { c.lst lid with head := (c.eget n).next }).eset n
        (fun e => { e with next := SLRU_EOF })).eset n
        (fun e => { e with prev := SLRU_EOF })).eset (c.eget n).next
        (fun e => { e with prev := SLRU_EOF })).eset n
        (fun e => { e with list := none }) |>.setLst lid
        { head := (c.eget n).next, tail := (c.lst lid).tail,
          count := (c.lst lid).count - 1 }) := by
      unfold removeHead
      rw [hhd']
      simp only [hnneg, if_false, lst_eset, lst_setLst_self]
      rw [if_neg hcond]
      simp only [lst_eset, lst_setLst_self]
    rw [hnext] at key
    refine ⟨_, key, ?_, ?_, ?_, ?_, ?_⟩
    · -- listRep c' lid (y :: ys)
      refine ⟨?_, ?_, ?_, ?_⟩
      · refine chainTo_prev_retarget (p := n) (by simp) ?_ ?_ ?_ ?_ hch2
        · rw [eget_setLst, eget_eset_ne hyn,
            eget_eset_self' hy0 (by simpa using hy1), eget_eset_ne hyn,
            eget_eset_ne hyn, eget_setLst]
        · rw [eget_setLst, eget_eset_ne hyn,
            eget_eset_self' hy0 (by simpa using hy1), eget_eset_ne hyn,
            eget_eset_ne hyn, eget_setLst]
        · rw [eget_setLst, eget_eset_ne hyn,
            eget_eset_self' hy0 (by simpa using hy1), eget_eset_ne hyn,
            eget_eset_ne hyn, eget_setLst]
        · intro i hi
          have hin : i ≠ n := fun hc => hnnm (hc ▸ List.mem_cons_of_mem _ hi)
          have hiy : i ≠ y := fun hc => (List.nodup_cons.mp hndx).1 (hc ▸ hi)
          rw [eget_setLst, eget_eset_ne hin, eget_eset_ne hiy, eget_eset_ne hin,
            eget_eset_ne hin, eget_setLst]
          exact ⟨rfl, rfl, rfl⟩
      · rw [lst_setLst_self]
        simp
      · rw [lst_setLst_self]
        rw [htl, lastI_cons_of_ne_nil hxne]
      · rw [lst_setLst_self]
        simp [hcnt]
    · refine ⟨by simp, by simp, by simp, by simp, by simp, ?_, ?_, ?_⟩
      · intro lid' hne
        rw [lst_setLst_ne hne, lst_eset, lst_eset, lst_eset, lst_eset, lst_setLst_ne hne]
      · intro i hi
        have hin : i ≠ n := fun hc => hi (by rw [hc]; simp)
        have hiy : i ≠ y := fun hc => hi (by rw [hc]; simp)
        rw [eget_setLst, eget_eset_ne hin, eget_eset_ne hiy, eget_eset_ne hin,
          eget_eset_ne hin, eget_setLst]
      · intro i
        by_cases hin : i = n
        · subst hin
          rw [eget_setLst, eget_eset_self' hn0 (by simpa using hn1), eget_eset_ne hyn.symm,
            eget_eset_self' hn0 (by simpa using hn1),
            eget_eset_self' hn0 (by simpa using hn1), eget_setLst]
          exact ⟨rfl, rfl⟩
        · by_cases hiy : i = y
          · subst hiy
            rw [eget_setLst, eget_eset_ne hin,
              eget_eset_self' hy0 (by simpa using hy1), eget_eset_ne hin,
              eget_eset_ne hin, eget_setLst]
            exact ⟨rfl, rfl⟩
          · rw [eget_setLst, eget_eset_ne hin, eget_eset_ne hiy, eget_eset_ne hin,
              eget_eset_ne hin, eget_setLst]
            exact ⟨rfl, rfl⟩
    · intro i
      by_cases hin : i = n
      · subst hin
        rw [if_pos rfl, eget_setLst, eget_eset_self' hn0 (by simpa using hn1),
          eget_eset_ne hyn.symm, eget_eset_self' hn0 (by simpa using hn1),
          eget_eset_self' hn0 (by simpa using hn1), eget_setLst]
      · rw [if_neg hin]
        by_cases hiy : i = y
        · subst hiy
          rw [eget_setLst, eget_eset_ne hin,
            eget_eset_self' hy0 (by simpa using hy1), eget_eset_ne hin,
            eget_eset_ne hin, eget_setLst]
        · rw [eget_setLst, eget_eset_ne hin, eget_eset_ne hiy, eget_eset_ne hin,
            eget_eset_ne hin, eget_setLst]
    · rw [eget_setLst, eget_eset_self' hn0 (by simpa using hn1), eget_eset_ne hyn.symm,
        eget_eset_self' hn0 (by simpa using hn1),
        eget_eset_self' hn0 (by simpa using hn1), eget_setLst]
    · rw [eget_setLst, eget_eset_self' hn0 (by simpa using hn1), eget_eset_ne hyn.symm,
        eget_eset_self' hn0 (by simpa using hn1),
        eget_eset_self' hn0 (by simpa using hn1), eget_setLst]

/-- Effect of `insertHead` on a list `xs` and a detached valid slot `n`:
the list becomes `n :: xs`, `n` gets tagged, nothing else changes. -/
theorem insertHead_spec {c : Cache K V} {lid : ListId} {xs : List Int} {n : Int}
    (h : listRep c lid xs) (hnd : xs.Nodup) (hn0 : 0 ≤ n)
    (hn1 : n < (c.entries.size : Int)) (hnm : n ∉ xs) :
    listRep (insertHead c lid n) lid (n :: xs) ∧
    opFrame c (insertHead c lid n) lid (n :: xs) ∧
    (∀ i, ((insertHead c lid n).eget i).list =
      if i = n then some lid else (c.eget i).list) := by
  obtain ⟨hch, hhd, htl, hcn⟩ := h
  by_cases hxne : xs = []
  case pos =>
    subst hxne
    have hhd' : (c.lst lid).head = SLRU_EOF := by simpa using hhd
    have hcn0 : (c.lst lid).count = 0 := by simpa using hcn
    have hnge : ¬ ((SLRU_EOF : Int) ≥ 0) := by norm_num [SLRU_EOF]
    have key : insertHead c lid n = ((((c.eset n
        (fun e => { e with next := SLRU_EOF })).setLst lid
        { c.lst lid with tail := n }).eset n
        (fun e => { e with prev := SLRU_EOF })).eset n
        (fun e => { e with list := some lid })).setLst lid
        { head := n, tail := n, count := (c.lst lid).count + 1 } := by
      unfold insertHead
      rw [hhd']
      simp only [hnge, if_false, lst_eset, lst_setLst_self, eget_setLst, setLst_setLst]
    rw [key]
    refine ⟨⟨?_, ?_, ?_, ?_⟩, ?_, ?_⟩
    · rw [chainTo_cons]
      refine ⟨hn0, by simpa using hn1, ?_, ?_, ?_, trivial⟩
      · rw [eget_setLst, eget_eset_self' hn0 (by simpa using hn1),
          eget_eset_self' hn0 (by simpa using hn1), eget_setLst,
          eget_eset_self' hn0 (by simpa using hn1)]
      · rw [eget_setLst, eget_eset_self' hn0 (by simpa using hn1),
          eget_eset_self' hn0 (by simpa using hn1), eget_setLst,
          eget_eset_self' hn0 (by simpa using hn1)]
        rfl
      · rw [eget_setLst, eget_eset_self' hn0 (by simpa using hn1),
          eget_eset_self' hn0 (by simpa using hn1), eget_setLst,
          eget_eset_self' hn0 (by simpa using hn1)]
    · rw [lst_setLst_self]
      rfl
    · rw [lst_setLst_self]
      rfl
    · rw [lst_setLst_self]
      simp [hcn0]
    · refine ⟨by simp, by simp, by simp, by simp, by simp, ?_, ?_, ?_⟩
      · intro lid' hne
        rw [lst_setLst_ne hne, lst_eset, lst_eset, lst_setLst_ne hne, lst_eset]
      · intro i hi
        have hin : i ≠ n := by simpa using hi
        rw [eget_setLst, eget_eset_ne hin, eget_eset_ne hin, eget_setLst,
          eget_eset_ne hin]
      · intro i
        by_cases hin : i = n
        · subst hin
          rw [eget_setLst, eget_eset_self' hn0 (by simpa using hn1),
            eget_eset_self' hn0 (by simpa using hn1), eget_setLst,
            eget_eset_self' hn0 (by simpa using hn1)]
          exact ⟨rfl, rfl⟩
        · rw [eget_setLst, eget_eset_ne hin, eget_eset_ne hin, eget_setLst,
            eget_eset_ne hin]
          exact ⟨rfl, rfl⟩
    · intro i
      by_cases hin : i = n
      · subst hin
        rw [if_pos rfl, eget_setLst, eget_eset_self' hn0 (by simpa using hn1),
          eget_eset_self' hn0 (by simpa using hn1), eget_setLst,
          eget_eset_self' hn0 (by simpa using hn1)]
      · rw [if_neg hin, eget_setLst, eget_eset_ne hin, eget_eset_ne hin, eget_setLst,
          eget_eset_ne hin]
  case neg =>
    obtain ⟨y, ys, rfl⟩ := List.exists_cons_of_ne_nil hxne
    rw [chainTo_cons] at hch
    obtain ⟨hy0, hy1, hyprev, hynext, hytag, hch2⟩ := hch
    have hhd' : (c.lst lid).head = y := by simpa using hhd
    have hyn : y ≠ n := fun hc => hnm (hc ▸ List.mem_cons_self _ _)
    have hyge : (y : Int) ≥ 0 := hy0
    have key : insertHead c lid n = ((((c.eset y
        (fun e => { e with prev := n })).eset n
        (fun e => { e with next := y })).eset n
        (fun e => { e with prev := SLRU_EOF })).eset n
        (fun e => { e with list := some lid })).setLst lid
        { head := n, tail := (c.lst lid).tail, count := (c.lst lid).count + 1 } := by
      unfold insertHead
      rw [hhd']
      simp only [hyge, if_true, lst_eset, lst_setLst_self, eget_setLst, setLst_setLst]
    rw [key]
    refine ⟨⟨?_, ?_, ?_, ?_⟩, ?_, ?_⟩
    · rw [chainTo_cons]
      refine ⟨hn0, by simpa using hn1, ?_, ?_, ?_, ?_⟩
      · rw [eget_setLst, eget_eset_self' hn0 (by simpa using hn1),
          eget_eset_self' hn0 (by simpa using hn1),
          eget_eset_self' hn0 (by simpa using hn1), eget_eset_ne hyn.symm]
      · rw [eget_setLst, eget_eset_self' hn0 (by simpa using hn1),
          eget_eset_self' hn0 (by simpa using hn1),
          eget_eset_self' hn0 (by simpa using hn1), eget_eset_ne hyn.symm]
        rfl
      · rw [eget_setLst, eget_eset_self' hn0 (by simpa using hn1),
          eget_eset_self' hn0 (by simpa using hn1),
          eget_eset_self' hn0 (by simpa using hn1), eget_eset_ne hyn.symm]
      · refine chainTo_prev_retarget (p := SLRU_EOF) (by simp) ?_ ?_ ?_ ?_
          (⟨hy0, hy1, hyprev, hynext, hytag, hch2⟩ : chainTo c lid SLRU_EOF (y :: ys) SLRU_EOF)
        · rw [eget_setLst, eget_eset_ne hyn, eget_eset_ne hyn, eget_eset_ne hyn,
            eget_eset_self' hy0 (by simpa using hy1)]
        · rw [eget_setLst, eget_eset_ne hyn, eget_eset_ne hyn, eget_eset_ne hyn,
            eget_eset_self' hy0 (by simpa using hy1)]
        · rw [eget_setLst, eget_eset_ne hyn, eget_eset_ne hyn, eget_eset_ne hyn,
            eget_eset_self' hy0 (by simpa using hy1)]
        · intro i hi
          have hin : i ≠ n := fun hc => hnm (hc ▸ List.mem_cons_of_mem _ hi)
          have hiy : i ≠ y := fun hc => (List.nodup_cons.mp hnd).1 (hc ▸ hi)
          rw [eget_setLst, eget_eset_ne hin, eget_eset_ne hin, eget_eset_ne hin,
            eget_eset_ne hiy]
          exact ⟨rfl, rfl, rfl⟩
    · rw [lst_setLst_self]
      rfl
    · rw [lst_setLst_self]
      rw [htl, lastI_cons_of_ne_nil hxne]
    · rw [lst_setLst_self]
      simp [hcn]
    · refine ⟨by simp, by simp, by simp, by simp, by simp, ?_, ?_, ?_⟩
      · intro lid' hne
        rw [lst_setLst_ne hne, lst_eset, lst_eset, lst_eset, lst_eset]
      · intro i hi
        have hin : i ≠ n := fun hc => hi (by rw [hc]; simp)
        have hiy : i ≠ y := fun hc => hi (by rw [hc]; simp)
        rw [eget_setLst, eget_eset_ne hin, eget_eset_ne hin, eget_eset_ne hin,
          eget_eset_ne hiy]
      · intro i
        by_cases hin : i = n
        · subst hin
          rw [eget_setLst, eget_eset_self' hn0 (by simpa using hn1),
            eget_eset_self' hn0 (by simpa using hn1),
            eget_eset_self' hn0 (by simpa using hn1), eget_eset_ne hyn.symm]
          exact ⟨rfl, rfl⟩
        · by_cases hiy : i = y
          · subst hiy
            rw [eget_setLst, eget_eset_ne hyn, eget_eset_ne hyn, eget_eset_ne hyn,
              eget_eset_self' hy0 (by simpa using hy1)]
            exact ⟨rfl, rfl⟩
          · rw [eget_setLst, eget_eset_ne hin, eget_eset_ne hin, eget_eset_ne hin,
              eget_eset_ne hiy]
            exact ⟨rfl, rfl⟩
    · intro i
      by_cases hin : i = n
      · subst hin
        rw [if_pos rfl, eget_setLst, eget_eset_self' hn0 (by simpa using hn1),
          eget_eset_self' hn0 (by simpa using hn1),
          eget_eset_self' hn0 (by simpa using hn1), eget_eset_ne hyn.symm]
      · rw [if_neg hin]
        by_cases hiy : i = y
        · subst hiy
          rw [eget_setLst, eget_eset_ne hyn, eget_eset_ne hyn, eget_eset_ne hyn,
            eget_eset_self' hy0 (by simpa using hy1)]
        · rw [eget_setLst, eget_eset_ne hin, eget_eset_ne hin, eget_eset_ne hin,
            eget_eset_ne hiy]

/-- `remove(n)` refuses when `n`'s list pointer is not this list. -/
theorem removeN_not_mem {c : Cache K V} {lid : ListId} {n : Int}
    (h : (c.eget n).list ≠ some lid) : removeN c lid n = (false, c) := by
  unfold removeN
  rw [if_pos h]

/-- Effect of `remove(n)` on a list `as ++ n :: bs` containing `n`:
it succeeds, the list becomes `as ++ bs`, `n`'s tag is cleared, and
nothing else changes. -/
theorem removeN_spec {c : Cache K V} {lid : ListId} {as bs : List Int} {n : Int}
    (h : listRep c lid (as ++ n :: bs)) (hnd : (as ++ n :: bs).Nodup) :
    ∃ c', removeN c lid n = (true, c') ∧ listRep c' lid (as ++ bs) ∧
      opFrame c c' lid (as ++ n :: bs) ∧
      (∀ i, (c'.eget i).list = if i = n then none else (c.eget i).list) := by
  have hmem : n ∈ as ++ n :: bs := by simp
  obtain ⟨hn0, hn1, htag⟩ := listRep_mem h hmem
  have htag' : ¬ ((c.eget n).list ≠ some lid) := not_not_intro htag
  have hnd' := List.nodup_append.mp hnd
  have hnas : n ∉ as := fun hm => hnd'.2.2 hm (List.mem_cons_self _ _)
  have hnbs : n ∉ bs := (List.nodup_cons.mp hnd'.2.1).1
  by_cases hase : as = []
  case pos =>
    subst hase
    have hhd : (c.lst lid).head = n := by simpa using h.2.1
    obtain ⟨c', hrh, hrep, hframe, htags, -, -⟩ :=
      removeHead_spec (c := c) (n := n) h hnd
    refine ⟨c', ?_, hrep, hframe, htags⟩
    unfold removeN
    rw [if_neg htag', if_pos hhd, hrh]
  case neg =>
    obtain ⟨a, as', rfl⟩ := List.exists_cons_of_ne_nil hase
    have hhd : (c.lst lid).head = a := by simpa using h.2.1
    have han : a ≠ n := fun hc => hnas (hc ▸ List.mem_cons_self _ _)
    have hhdn : ¬ ((c.lst lid).head = n) := by rw [hhd]; exact han
    by_cases hbse : bs = []
    case pos =>
      subst hbse
      have htln : (c.lst lid).tail = n := by
        rw [h.2.2.1, lastI_concat]
      obtain ⟨c', hrt, hrep, hframe, htags, -, -⟩ :=
        removeTail_spec (c := c) (t := n) h hnd
      refine ⟨c', ?_, by simpa using hrep, hframe, htags⟩
      unfold removeN
      rw [if_neg htag', if_neg hhdn, if_pos htln, hrt]
    case neg =>
      obtain ⟨b, bs', rfl⟩ := List.exists_cons_of_ne_nil hbse
      -- decompose the chain around n
      have hch := h.1
      rw [chainTo_append] at hch
      obtain ⟨ch1, ch2⟩ := hch
      rw [chainTo_cons] at ch2
      obtain ⟨chn0, chn1, hpreveq, hnexteq, -, ch3⟩ := ch2
      rw [lastQ_eq_lastI hase] at hpreveq
      rw [headQ_cons] at hnexteq
      rw [headQ_cons] at ch1
      have hla := chainTo_mem ch1 (lastI_mem hase)
      obtain ⟨hla0, hla1, hlatag⟩ := hla
      have hb := chainTo_mem ch3 (List.mem_cons_self _ _)
      obtain ⟨hb0, hb1, hbtag⟩ := hb
      have hlan : lastI (a :: as') ≠ n := fun hc => hnas (hc ▸ lastI_mem hase)
      have hbn : b ≠ n := fun hc => hnbs (hc ▸ List.mem_cons_self _ _)
      have hlab : lastI (a :: as') ≠ b := fun hc =>
        hnd'.2.2 (lastI_mem hase) (hc ▸ List.mem_cons_of_mem _ (List.mem_cons_self _ _))
      have htln : ¬ ((c.lst lid).tail = n) := by
        rw [h.2.2.1, @lastI_append (a :: as') (n :: b :: bs') (by simp),
          @lastI_cons_of_ne_nil n (b :: bs') (by simp)]
        intro hc
        exact hnbs (hc ▸ lastI_mem (by simp))
      set la := lastI (a :: as') with hladef
      have key : removeN c lid n = (true, ((((c.eset b
          (fun e => { e with prev := la })).eset la
          (fun e => { e with next := b })).eset n
          (fun e => { e with next := SLRU_EOF })).eset n
          (fun e => { e with prev := SLRU_EOF })).eset n
          (fun e => { e with list := none }) |>.setLst lid
          { head := (c.lst lid).head, tail := (c.lst lid).tail,
            count := (c.lst lid).count - 1 }) := by
        unfold removeN
        rw [if_neg htag', if_neg hhdn, if_neg htln]
        simp only [eget_eset_ne hbn.symm, hpreveq, hnexteq, lst_eset, lst_setLst_self]
      refine ⟨_, key, ?_, ?_, ?_⟩
      · -- listRep c' lid ((a :: as') ++ b :: bs')
        refine ⟨?_, ?_, ?_, ?_⟩
        · rw [chainTo_append]
          constructor
          · refine chainTo_next_retarget (q := n) (by simp) hnd'.1 ?_ ?_ (Or.inr ?_) ch1
            · intro i hi
              have hin : i ≠ n := fun hc => hnas (hc ▸ hi)
              have hib : i ≠ b := fun hc =>
                hnd'.2.2 hi (hc ▸ List.mem_cons_of_mem _ (List.mem_cons_self _ _))
              by_cases hil : i = la
              · subst hil
                rw [eget_setLst, eget_eset_ne hin, eget_eset_ne hin, eget_eset_ne hin,
                  eget_eset_self' hla0 (by simpa using hla1), eget_eset_ne hlab]
                exact ⟨rfl, rfl⟩
              · rw [eget_setLst, eget_eset_ne hin, eget_eset_ne hin, eget_eset_ne hin,
                  eget_eset_ne hil, eget_eset_ne hib]
                exact ⟨rfl, rfl⟩
            · intro i hi hil
              have hin : i ≠ n := fun hc => hnas (hc ▸ hi)
              have hib : i ≠ b := fun hc =>
                hnd'.2.2 hi (hc ▸ List.mem_cons_of_mem _ (List.mem_cons_self _ _))
              rw [eget_setLst, eget_eset_ne hin, eget_eset_ne hin, eget_eset_ne hin,
                eget_eset_ne hil, eget_eset_ne hib]
            · rw [eget_setLst, eget_eset_ne hlan, eget_eset_ne hlan, eget_eset_ne hlan,
                eget_eset_self' hla0 (by simpa using hla1), eget_eset_ne hlab]
              rfl
          · rw [lastQ_eq_lastI hase, ← hladef]
            refine chainTo_prev_retarget (p := n) (by simp) ?_ ?_ ?_ ?_ ch3
            · rw [eget_setLst, eget_eset_ne hbn, eget_eset_ne hbn, eget_eset_ne hbn,
                eget_eset_ne hlab.symm, eget_eset_self' hb0 (by simpa using hb1)]
            · rw [eget_setLst, eget_eset_ne hbn, eget_eset_ne hbn, eget_eset_ne hbn,
                eget_eset_ne hlab.symm, eget_eset_self' hb0 (by simpa using hb1)]
            · rw [eget_setLst, eget_eset_ne hbn, eget_eset_ne hbn, eget_eset_ne hbn,
                eget_eset_ne hlab.symm, eget_eset_self' hb0 (by simpa using hb1)]
            · intro i hi
              have hin : i ≠ n := fun hc => hnbs (hc ▸ List.mem_cons_of_mem _ hi)
              have hib : i ≠ b := fun hc => (List.nodup_cons.mp (List.nodup_cons.mp hnd'.2.1).2).1 (hc ▸ hi)
              have hil : i ≠ la := fun hc =>
                hnd'.2.2 (hc ▸ lastI_mem hase) (List.mem_cons_of_mem _ (List.mem_cons_of_mem _ hi))
              rw [eget_setLst, eget_eset_ne hin, eget_eset_ne hin, eget_eset_ne hin,
                eget_eset_ne hil, eget_eset_ne hib]
              exact ⟨rfl, rfl, rfl⟩
        · rw [lst_setLst_self]
          have := h.2.1
          simpa using this
        · rw [lst_setLst_self]
          rw [h.2.2.1, @lastI_append (a :: as') (n :: b :: bs') (by simp),
            @lastI_cons_of_ne_nil n (b :: bs') (by simp),
            @lastI_append (a :: as') (b :: bs') (by simp)]
        · rw [lst_setLst_self]
          have hc := h.2.2.2
          simp only [List.length_append, List.length_cons] at hc ⊢
          push_cast at hc ⊢
          omega
      · refine ⟨by simp, by simp, by simp, by simp, by simp, ?_, ?_, ?_⟩
        · intro lid' hne
          rw [lst_setLst_ne hne, lst_eset, lst_eset, lst_eset, lst_eset, lst_eset]
        · intro i hi
          have hin : i ≠ n := fun hc => hi (by rw [hc]; simp)
          have hib : i ≠ b := fun hc => hi (by rw [hc]; simp)
          have hil : i ≠ la := fun hc => hi (by
            rw [hc]
            exact List.mem_append_left _ (lastI_mem hase))
          rw [eget_setLst, eget_eset_ne hin, eget_eset_ne hin, eget_eset_ne hin,
            eget_eset_ne hil, eget_eset_ne hib]
        · intro i
          by_cases hin : i = n
          · subst hin
            rw [eget_setLst, eget_eset_self' hn0 (by simpa using hn1),
              eget_eset_self' hn0 (by simpa using hn1),
              eget_eset_self' hn0 (by simpa using hn1), eget_eset_ne hlan.symm,
              eget_eset_ne hbn.symm]
            exact ⟨rfl, rfl⟩
          · by_cases hil : i = la
            · subst hil
              rw [eget_setLst, eget_eset_ne hlan, eget_eset_ne hlan, eget_eset_ne hlan,
                eget_eset_self' hla0 (by simpa using hla1), eget_eset_ne hlab]
              exact ⟨rfl, rfl⟩
            · by_cases hib : i = b
              · subst hib
                rw [eget_setLst, eget_eset_ne hbn, eget_eset_ne hbn, eget_eset_ne hbn,
                  eget_eset_ne hlab.symm, eget_eset_self' hb0 (by simpa using hb1)]
                exact ⟨rfl, rfl⟩
              · rw [eget_setLst, eget_eset_ne hin, eget_eset_ne hin, eget_eset_ne hin,
                  eget_eset_ne hil, eget_eset_ne hib]
                exact ⟨rfl, rfl⟩
      · intro i
        by_cases hin : i = n
        · subst hin
          rw [if_pos rfl, eget_setLst, eget_eset_self' hn0 (by simpa using hn1),
            eget_eset_self' hn0 (by simpa using hn1),
            eget_eset_self' hn0 (by simpa using hn1), eget_eset_ne hlan.symm,
            eget_eset_ne hbn.symm]
        · rw [if_neg hin]
          by_cases hil : i = la
          · subst hil
            rw [eget_setLst, eget_eset_ne hlan, eget_eset_ne hlan, eget_eset_ne hlan,
              eget_eset_self' hla0 (by simpa using hla1), eget_eset_ne hlab]
          · by_cases hib : i = b
            · subst hib
              rw [eget_setLst, eget_eset_ne hbn, eget_eset_ne hbn, eget_eset_ne hbn,
                eget_eset_ne hlab.symm, eget_eset_self' hb0 (by simpa using hb1)]
            · rw [eget_setLst, eget_eset_ne hin, eget_eset_ne hin, eget_eset_ne hin,
                eget_eset_ne hil, eget_eset_ne hib]

/-! ## The global invariant -/

/-- The valid slot indices `0, 1, ..., n-1` as integers. -/
def rangeI (n : Nat) : List Int := (List.range n).map (Nat.cast : Nat → Int)

theorem mem_rangeI {n : Nat} {i : Int} : i ∈ rangeI n ↔ 0 ≤ i ∧ i < (n : Int) := by
  unfold rangeI
  simp only [List.mem_map, List.mem_range]
  constructor
  · rintro ⟨m, hm, rfl⟩
    omega
  · rintro ⟨h0, h1⟩
    exact ⟨i.toNat, by omega, by omega⟩

theorem rangeI_nodup {n : Nat} : (rangeI n).Nodup :=
  List.Nodup.map Nat.cast_injective (List.nodup_range n)

/-- Consistency of the key mapping with the segment membership lists
`ls` (protected), `ps` (probationary) and the free list `fs`. -/
def MapsOk [DecidableEq K] (c : Cache K V) (ls ps fs : List Int) : Prop :=
  (∀ k n, mapFind c.mapping k = some n → (n ∈ ls ∨ n ∈ ps) ∧ (c.eget n).key = k) ∧
  (∀ n, (n ∈ ls ∨ n ∈ ps) → mapFind c.mapping ((c.eget n).key) = some n) ∧
  (∀ n ∈ fs, (c.eget n).key = (default : K) ∧ (c.eget n).value = (default : V))

/-- The inductive well-formedness invariant of a cache: the three lists
partition the slot pool, the mapping is consistent, the configured sizes
agree, and the counts respect the capacity bounds maintained by the code
(`lrulist.count` can reach `1` even when `snum = 0`). -/
def WF [DecidableEq K] (c : Cache K V) : Prop :=
  ∃ fs ls ps : List Int,
    listRep c .free fs ∧ listRep c .lru ls ∧ listRep c .probe ps ∧
    (fs ++ ls ++ ps).Perm (rangeI c.entries.size) ∧
    MapsOk c ls ps fs ∧
    (c.entries.size : Int) = c.cnum ∧
    c.cnum = c.snum + c.pnum ∧ 0 ≤ c.snum ∧ 0 ≤ c.pnum ∧
    c.lrulist.count ≤ max c.snum 1 ∧ c.probelist.count ≤ c.pnum

/-- Disjointness facts packaged from the partition permutation. -/
theorem nodup_parts {fs ls ps : List Int} {n : Nat}
    (hperm : (fs ++ ls ++ ps).Perm (rangeI n)) :
    fs.Nodup ∧ ls.Nodup ∧ ps.Nodup ∧
    (∀ i ∈ fs, i ∉ ls) ∧ (∀ i ∈ fs, i ∉ ps) ∧ (∀ i ∈ ls, i ∉ ps) := by
  have hnd : (fs ++ ls ++ ps).Nodup := hperm.symm.nodup rangeI_nodup
  rw [List.append_assoc, List.nodup_append] at hnd
  obtain ⟨h1, h2, h3⟩ := hnd
  rw [List.nodup_append] at h2
  obtain ⟨h4, h5, h6⟩ := h2
  refine ⟨h1, h4, h5, ?_, ?_, ?_⟩
  · intro i hi hc
    exact h3 hi (List.mem_append_left _ hc)
  · intro i hi hc
    exact h3 hi (List.mem_append_right _ hc)
  · intro i hi hc
    exact h6 hi hc

theorem mem_parts {fs ls ps : List Int} {n : Nat}
    (hperm : (fs ++ ls ++ ps).Perm (rangeI n)) {i : Int}
    (h0 : 0 ≤ i) (h1 : i < (n : Int)) : i ∈ fs ∨ i ∈ ls ∨ i ∈ ps := by
  have : i ∈ fs ++ ls ++ ps := hperm.symm.subset (mem_rangeI.mpr ⟨h0, h1⟩)
  simpa using this

/-! ## The constructor establishes the invariant -/

/-- The first `k` slots, most recently inserted first. -/
def revRange (k : Nat) : List Int := (List.range k).reverse.map (Nat.cast : Nat → Int)

@[simp] theorem revRange_zero : revRange 0 = [] := rfl

theorem revRange_succ {k : Nat} : revRange (k + 1) = (k : Int) :: revRange k := by
  unfold revRange
  rw [List.range_succ, List.reverse_append]
  rfl

theorem revRange_perm {k : Nat} : (revRange k).Perm (rangeI k) := by
  unfold revRange rangeI
  exact (List.reverse_perm _).map _

theorem revRange_nodup {k : Nat} : (revRange k).Nodup :=
  revRange_perm.symm.nodup rangeI_nodup

theorem mem_revRange {k : Nat} {i : Int} : i ∈ revRange k ↔ 0 ≤ i ∧ i < (k : Int) := by
  rw [revRange_perm.mem_iff]
  exact mem_rangeI

/-- The cache record before the constructor's free-list loop. -/
def preCache (K V : Type) [Inhabited K] [Inhabited V]
    (lruEntries probeEntries : Nat) : Cache K V :=
  { entries := Array.mkArray (lruEntries + probeEntries) zeroEntry
    mapping := []
    cnum := (lruEntries : Int) + (probeEntries : Int)
    snum := (lruEntries : Int)
    pnum := (probeEntries : Int)
    freelist := newLState
    lrulist := newLState
    probelist := newLState }

theorem NewSLRUCache_eq_initFree {s p : Nat} :
    NewSLRUCache K V s p = initFree (preCache K V s p) (s + p) := rfl

theorem preCache_eget {s p : Nat} {i : Int} :
    (preCache K V s p).eget i = zeroEntry := by
  unfold Cache.eget preCache
  split
  next h =>
    simp only [Array.getD]
    split
    next h2 => exact Array.getElem_mkArray _ _ _
    next h2 => rfl
  next h => rfl

/-- Invariant of the constructor's loop: after `k` iterations the free
list is `revRange k`, the other lists are empty, and no key, value or
mapping entry exists. -/
theorem initFree_invariant {s p : Nat} (k : Nat) (hk : k ≤ s + p) :
    listRep (initFree (preCache K V s p) k) .free (revRange k) ∧
    listRep (initFree (preCache K V s p) k) .lru [] ∧
    listRep (initFree (preCache K V s p) k) .probe [] ∧
    (initFree (preCache K V s p) k).mapping = [] ∧
    (initFree (preCache K V s p) k).cnum = ((s : Int) + (p : Int)) ∧
    (initFree (preCache K V s p) k).snum = (s : Int) ∧
    (initFree (preCache K V s p) k).pnum = (p : Int) ∧
    (initFree (preCache K V s p) k).entries.size = s + p ∧
    (∀ i, ((initFree (preCache K V s p) k).eget i).key = (default : K) ∧
      ((initFree (preCache K V s p) k).eget i).value = (default : V)) := by
  induction k with
  | zero =>
    simp only [initFree]
    refine ⟨?_, ?_, ?_, rfl, rfl, rfl, rfl, by simp [preCache], ?_⟩
    · exact ⟨trivial, rfl, rfl, rfl⟩
    · exact ⟨trivial, rfl, rfl, rfl⟩
    · exact ⟨trivial, rfl, rfl, rfl⟩
    · intro i
      rw [preCache_eget]
      exact ⟨rfl, rfl⟩
  | succ m ih =>
    obtain ⟨hfree, hlru, hprobe, hmap, hcnum, hsnum, hpnum, hsize, hkv⟩ :=
      ih (Nat.le_of_succ_le hk)
    have hm0 : (0 : Int) ≤ (m : Int) := by omega
    have hm1 : (m : Int) < ((initFree (preCache K V s p) m).entries.size : Int) := by
      rw [hsize]; omega
    have hnm : (m : Int) ∉ revRange m := fun hc => by
      have := mem_revRange.mp hc
      omega
    obtain ⟨hrep, hframe, -⟩ :=
      insertHead_spec hfree revRange_nodup hm0 hm1 hnm
    obtain ⟨hfmap, hfcnum, hfsnum, hfpnum, hfsize, hflst, -, hfkv⟩ := hframe
    have hstep : initFree (preCache K V s p) (m + 1) =
        insertHead (initFree (preCache K V s p) m) .free (m : Int) := rfl
    rw [hstep]
    refine ⟨by rw [← revRange_succ] at hrep; exact hrep, ?_, ?_, ?_, ?_, ?_, ?_, ?_, ?_⟩
    · exact listRep_frame hfsize (hflst _ (by simp)) (fun i hi => by cases hi) hlru
    · exact listRep_frame hfsize (hflst _ (by simp)) (fun i hi => by cases hi) hprobe
    · rw [hfmap, hmap]
    · rw [hfcnum, hcnum]
    · rw [hfsnum, hsnum]
    · rw [hfpnum, hpnum]
    · rw [hfsize, hsize]
    · intro i
      obtain ⟨h1, h2⟩ := hfkv i
      obtain ⟨h3, h4⟩ := hkv i
      exact ⟨by rw [h1, h3], by rw [h2, h4]⟩

/-- A freshly constructed cache satisfies the invariant. -/
theorem wf_new [DecidableEq K] (s p : Nat) : WF (NewSLRUCache K V s p) := by
  obtain ⟨hfree, hlru, hprobe, hmap, hcnum, hsnum, hpnum, hsize, hkv⟩ :=
    initFree_invariant (K := K) (V := V) (s + p) (le_refl (s + p))
  rw [NewSLRUCache_eq_initFree]
  refine ⟨revRange (s + p), [], [], hfree, hlru, hprobe, ?_, ?_, ?_, ?_, ?_, ?_, ?_, ?_⟩
  · rw [hsize]
    simpa using revRange_perm
  · refine ⟨?_, ?_, ?_⟩
    · intro k n hf
      rw [hmap] at hf
      cases hf
    · intro n hn
      rcases hn with hn | hn <;> cases hn
    · intro n hn
      exact hkv n
  · rw [hsize, hcnum]
    push_cast
    ring
  · rw [hcnum, hsnum, hpnum]
  · rw [hsnum]; omega
  · rw [hpnum]; omega
  · have h := hlru.2.2.2
    rw [lst_lru_eq] at h
    simp only [List.length_nil, Nat.cast_zero] at h
    rw [h]
    exact le_trans zero_le_one (le_max_right _ 1)
  · have h := hprobe.2.2.2
    rw [lst_probe_eq] at h
    simp only [List.length_nil, Nat.cast_zero] at h
    rw [h, hpnum]
    omega

/-! ## Behaviour of the public operations -/

section Ops

variable [DecidableEq K]

/-- `Lookup` of an absent key returns nil and changes nothing. -/
theorem lookup_miss {c : Cache K V} {k : K} (h : mapFind c.mapping k = none) :
    Lookup c k = some (none, c, []) := by
  unfold Lookup
  rw [h]

/-- `Remove` of an absent key returns false and changes nothing. -/
theorem remove_miss {c : Cache K V} {k : K} (h : mapFind c.mapping k = none) :
    Remove c k = (false, c, []) := by
  unfold Remove
  rw [h]

/-- `Insert` of a present key only overwrites the slot's value. -/
theorem insert_dup {c : Cache K V} {k : K} {n : Int} {v : V}
    (h : mapFind c.mapping k = some n) :
    Insert c k v = some (c.eset n (fun e => { e with value := v }), []) := by
  unfold Insert
  rw [h]

/-- `Lookup` hit on the head of the protected list: fast path, no state
change. -/
theorem lookup_hit_lru_head {c : Cache K V} {k : K} {n : Int}
    (hf : mapFind c.mapping k = some n) (ht : (c.eget n).list = some .lru)
    (hh : n = c.lrulist.head) :
    Lookup c k = some (some ((c.eget n).value), c, []) := by
  unfold Lookup
  rw [hf]
  simp only [ht, if_true, if_pos rfl]
  rw [if_neg (not_not_intro hh)]

/-- Transporting mapping consistency across an update that does not move
any key, value, mapping entry or live slot. -/
theorem mapsOk_transport {c c' : Cache K V} {ls ps fs ls' ps' fs' : List Int}
    (hm : c'.mapping = c.mapping)
    (hkv : ∀ i, (c'.eget i).key = (c.eget i).key ∧ (c'.eget i).value = (c.eget i).value)
    (hls : ∀ i, (i ∈ ls' ∨ i ∈ ps') ↔ (i ∈ ls ∨ i ∈ ps))
    (hfs : ∀ i, i ∈ fs' → i ∈ fs)
    (h : MapsOk c ls ps fs) : MapsOk c' ls' ps' fs' := by
  obtain ⟨h1, h2, h3⟩ := h
  refine ⟨?_, ?_, ?_⟩
  · intro k n hf
    rw [hm] at hf
    obtain ⟨hmem, hkey⟩ := h1 k n hf
    exact ⟨(hls n).mpr hmem, by rw [(hkv n).1, hkey]⟩
  · intro n hn
    rw [hm, (hkv n).1]
    exact h2 n ((hls n).mp hn)
  · intro n hn
    obtain ⟨d1, d2⟩ := h3 n (hfs n hn)
    exact ⟨by rw [(hkv n).1, d1], by rw [(hkv n).2, d2]⟩

/-- Under the invariant, a mapped slot with the protected tag is a member
of the protected list, and symmetrically for the probationary tag. -/
theorem live_mem_of_tag {c : Cache K V} {ls ps : List Int} {n : Int}
    (hlru : listRep c .lru ls) (hprobe : listRep c .probe ps)
    (hmem : n ∈ ls ∨ n ∈ ps) :
    ((c.eget n).list = some .lru → n ∈ ls) ∧
    ((c.eget n).list = some .probe → n ∈ ps) := by
  constructor
  · intro ht
    rcases hmem with h | h
    · exact h
    · have := (listRep_mem hprobe h).2.2
      rw [this] at ht
      cases ht
  · intro ht
    rcases hmem with h | h
    · have := (listRep_mem hlru h).2.2
      rw [this] at ht
      cases ht
    · exact h

/-- `Lookup` hit on a non-head protected entry: the entry moves to the
protected head; mapping, the other lists, all counts, and every key and
value are untouched. -/
theorem lookup_hit_lru_move {c : Cache K V} {k : K} {n : Int}
    (hwf : WF c) (hf : mapFind c.mapping k = some n)
    (ht : (c.eget n).list = some .lru) (hh : ¬(n = c.lrulist.head)) :
    ∃ c', Lookup c k = some (some ((c.eget n).value), c', []) ∧ WF c' ∧
      c'.mapping = c.mapping ∧ c'.freelist = c.freelist ∧ c'.probelist = c.probelist ∧
      c'.lrulist.count = c.lrulist.count ∧ c'.lrulist.head = n ∧
      c'.snum = c.snum ∧ c'.pnum = c.pnum ∧ c'.cnum = c.cnum ∧
      (∀ i, (c'.eget i).key = (c.eget i).key ∧ (c'.eget i).value = (c.eget i).value) ∧
      (c'.eget n).list = some .lru ∧ mapFind c'.mapping k = some n := by
  obtain ⟨fs, ls, ps, hfree, hlru, hprobe, hperm, hmaps, hsz, hcnums, hs0, hp0, hlb, hpb⟩ := hwf
  have hlive := (hmaps.1 k n hf).1
  have hnls : n ∈ ls := (live_mem_of_tag hlru hprobe hlive).1 ht
  obtain ⟨as, bs, rfl⟩ := List.append_of_mem hnls
  obtain ⟨hfnd, hlnd, hpnd, hdfl, hdfp, hdlp⟩ := nodup_parts hperm
  obtain ⟨c1, hrn, hrep1, hframe1, htags1⟩ := removeN_spec hlru hlnd
  obtain ⟨hm1, hc1, hs1, hp1, hsz1, hlst1, hout1, hkv1⟩ := hframe1
  have habnd : (as ++ bs).Nodup :=
    hlnd.sublist ((List.append_sublist_append_left as).mpr ((List.Sublist.refl bs).cons n))
  have hnab : n ∉ as ++ bs := by
    intro hc
    rcases List.mem_append.mp hc with hc | hc
    · exact (List.disjoint_of_nodup_append hlnd) hc (List.mem_cons_self _ _)
    · exact (List.nodup_cons.mp (List.nodup_append.mp hlnd).2.1).1 hc
  have hn0 : 0 ≤ n := (listRep_mem hlru (by simp)).1
  have hn1 : n < (c1.entries.size : Int) := by
    rw [hsz1]; exact (listRep_mem hlru (by simp)).2.1
  obtain ⟨hrep2, hframe2, htags2⟩ := insertHead_spec hrep1 habnd hn0 hn1 hnab
  obtain ⟨hm2, hc2, hs2, hp2, hsz2, hlst2, hout2, hkv2⟩ := hframe2
  have hkv12 : ∀ i, ((insertHead c1 .lru n).eget i).key = (c.eget i).key ∧
      ((insertHead c1 .lru n).eget i).value = (c.eget i).value := by
    intro i
    exact ⟨by rw [(hkv2 i).1, (hkv1 i).1], by rw [(hkv2 i).2, (hkv1 i).2]⟩
  have heq : Lookup c k =
      some (some (((insertHead c1 .lru n).eget n).value), insertHead c1 .lru n, []) := by
    unfold Lookup
    rw [hf]
    simp only [ht, eq_self_iff_true, if_true]
    rw [if_pos hh, hrn]
  refine ⟨insertHead c1 .lru n, ?_, ?_, ?_, ?_, ?_, ?_, ?_, ?_, ?_, ?_, hkv12, ?_, ?_⟩
  · rw [heq, (hkv12 n).2]
  · -- WF
    refine ⟨fs, n :: (as ++ bs), ps, ?_, hrep2, ?_, ?_, ?_, ?_, ?_, ?_, ?_, ?_, ?_⟩
    · refine listRep_frame (by rw [hsz2, hsz1]) ?_ ?_ hfree
      · rw [hlst2 _ (by simp), hlst1 _ (by simp)]
      · intro i hi
        rw [hout2 _ ?_, hout1 _ ?_]
        · exact linkEq_refl
        · intro hc
          rcases List.mem_append.mp hc with hc | hc
          · exact hdfl i hi (List.mem_append_left _ hc)
          · rcases List.mem_cons.mp hc with hc | hc
            · exact hdfl i hi (by simp [hc])
            · exact hdfl i hi (List.mem_append_right _ (List.mem_cons_of_mem _ hc))
        · intro hc
          rcases List.mem_cons.mp hc with hc | hc
          · exact hdfl i hi (by simp [hc])
          · rcases List.mem_append.mp hc with hc | hc
            · exact hdfl i hi (List.mem_append_left _ hc)
            · exact hdfl i hi (List.mem_append_right _ (List.mem_cons_of_mem _ hc))
    · refine listRep_frame (by rw [hsz2, hsz1]) ?_ ?_ hprobe
      · rw [hlst2 _ (by simp), hlst1 _ (by simp)]
      · intro i hi
        rw [hout2 _ ?_, hout1 _ ?_]
        · exact linkEq_refl
        · intro hc
          rcases List.mem_append.mp hc with hc | hc
          · exact hdlp i (List.mem_append_left _ hc) hi
          · rcases List.mem_cons.mp hc with hc | hc
            · exact hdlp i (by simp [hc]) hi
            · exact hdlp i (List.mem_append_right _ (List.mem_cons_of_mem _ hc)) hi
        · intro hc
          rcases List.mem_cons.mp hc with hc | hc
          · exact hdlp i (by simp [hc]) hi
          · rcases List.mem_append.mp hc with hc | hc
            · exact hdlp i (List.mem_append_left _ hc) hi
            · exact hdlp i (List.mem_append_right _ (List.mem_cons_of_mem _ hc)) hi
    · rw [hsz2, hsz1]
      refine List.Perm.trans ?_ hperm
      refine Multiset.coe_eq_coe.mp ?_
      simp only [← Multiset.coe_add, ← Multiset.cons_coe]
      simp only [← Multiset.singleton_add]
      abel
    · refine mapsOk_transport (by rw [hm2, hm1]) hkv12 ?_ (fun i h => h) hmaps
      intro i
      constructor
      · rintro (hi | hi)
        · rcases List.mem_cons.mp hi with hi | hi
          · exact Or.inl (by simp [hi])
          · rcases List.mem_append.mp hi with hi | hi
            · exact Or.inl (List.mem_append_left _ hi)
            · exact Or.inl (List.mem_append_right _ (List.mem_cons_of_mem _ hi))
        · exact Or.inr hi
      · rintro (hi | hi)
        · rcases List.mem_append.mp hi with hi | hi
          · exact Or.inl (List.mem_cons_of_mem _ (List.mem_append_left _ hi))
          · rcases List.mem_cons.mp hi with hi | hi
            · exact Or.inl (by simp [hi])
            · exact Or.inl (List.mem_cons_of_mem _ (List.mem_append_right _ hi))
        · exact Or.inr hi
    · rw [hsz2, hsz1, hc2, hc1]; exact hsz
    · rw [hc2, hc1, hs2, hs1, hp2, hp1]; exact hcnums
    · rw [hs2, hs1]; exact hs0
    · rw [hp2, hp1]; exact hp0
    · have h1 := hrep2.2.2.2
      have h2 := hlru.2.2.2
      rw [lst_lru_eq] at h1 h2
      rw [h1, hs2, hs1]
      refine le_trans ?_ hlb
      rw [h2]
      simp only [List.length_cons, List.length_append]
      push_cast
      omega
    · have hpl : (insertHead c1 .lru n).probelist = c.probelist := by
        rw [← lst_probe_eq, hlst2 _ (by simp), hlst1 _ (by simp), lst_probe_eq]
      rw [hpl, hp2, hp1]
      exact hpb
  · rw [hm2, hm1]
  · rw [← lst_free_eq, hlst2 _ (by simp), hlst1 _ (by simp), lst_free_eq]
  · rw [← lst_probe_eq, hlst2 _ (by simp), hlst1 _ (by simp), lst_probe_eq]
  · have h1 := hrep2.2.2.2
    have h2 := hlru.2.2.2
    rw [lst_lru_eq] at h1 h2
    rw [h1, h2]
    simp only [List.length_cons, List.length_append]
    push_cast
    omega
  · have h1 := hrep2.2.1
    rw [lst_lru_eq] at h1
    rw [h1, headI_cons]
  · rw [hs2, hs1]
  · rw [hp2, hp1]
  · rw [hc2, hc1]
  · have h := htags2 n
    rw [if_pos rfl] at h
    exact h
  · rw [hm2, hm1]
    exact hf

/-- Core of the promotion path: from a state whose protected list is `ls`
and whose probationary list contains `n`, removing `n` from probation and
inserting it at the protected head. -/
theorem promote_core {d : Cache K V} {ls asp bsp : List Int} {n : Int}
    (hlru : listRep d .lru ls) (hprobe : listRep d .probe (asp ++ n :: bsp))
    (hlnd : ls.Nodup) (hpnd : (asp ++ n :: bsp).Nodup)
    (hdlp : ∀ i ∈ ls, i ∉ asp ++ n :: bsp) :
    ∃ c2, removeN d .probe n = (true, c2) ∧
      listRep (insertHead c2 .lru n) .lru (n :: ls) ∧
      listRep (insertHead c2 .lru n) .probe (asp ++ bsp) ∧
      (∀ lid', lid' ≠ ListId.lru → lid' ≠ ListId.probe →
        (insertHead c2 .lru n).lst lid' = d.lst lid') ∧
      (insertHead c2 .lru n).mapping = d.mapping ∧
      (insertHead c2 .lru n).cnum = d.cnum ∧
      (insertHead c2 .lru n).snum = d.snum ∧
      (insertHead c2 .lru n).pnum = d.pnum ∧
      (insertHead c2 .lru n).entries.size = d.entries.size ∧
      (∀ i, ((insertHead c2 .lru n).eget i).key = (d.eget i).key ∧
        ((insertHead c2 .lru n).eget i).value = (d.eget i).value) ∧
      (∀ i, i ∉ ls → i ∉ asp ++ n :: bsp →
        (insertHead c2 .lru n).eget i = d.eget i) ∧
      (∀ i, ((insertHead c2 .lru n).eget i).list =
        if i = n then some ListId.lru else (d.eget i).list) := by
  have hnps : n ∈ asp ++ n :: bsp := by simp
  have hnls : n ∉ ls := fun hc => hdlp n hc hnps
  obtain ⟨hn0, hn1, hntag⟩ := listRep_mem hprobe hnps
  obtain ⟨c2, hrn, hrep2, hframe2, htags2⟩ := removeN_spec hprobe hpnd
  obtain ⟨hm2, hc2, hs2, hp2, hsz2, hlst2, hout2, hkv2⟩ := hframe2
  have hlru2 : listRep c2 .lru ls := by
    refine listRep_frame hsz2 (hlst2 _ (by simp)) ?_ hlru
    intro i hi
    rw [hout2 _ (hdlp i hi)]
    exact linkEq_refl
  have hn1' : n < (c2.entries.size : Int) := by rw [hsz2]; exact hn1
  obtain ⟨hrep3, hframe3, htags3⟩ := insertHead_spec hlru2 hlnd hn0 hn1' hnls
  obtain ⟨hm3, hc3, hs3, hp3, hsz3, hlst3, hout3, hkv3⟩ := hframe3
  have hprobe3 : listRep (insertHead c2 .lru n) .probe (asp ++ bsp) := by
    refine listRep_frame hsz3 (hlst3 _ (by simp)) ?_ hrep2
    intro i hi
    rw [hout3 _ ?_]
    · exact linkEq_refl
    · intro hc
      rcases List.mem_cons.mp hc with hc | hc
      · subst hc
        have : i ∉ asp ++ i :: bsp := fun hm => (by
          have hnd2 := hpnd
          rcases List.mem_append.mp hi with h3 | h3
          · exact (List.disjoint_of_nodup_append hnd2) h3 (List.mem_cons_self _ _)
          · exact (List.nodup_cons.mp (List.nodup_append.mp hnd2).2.1).1 h3)
        exact this (by simp)
      · exact hdlp i hc (List.mem_append.mpr
          (Or.imp id (List.mem_cons_of_mem _) (List.mem_append.mp hi)))
  refine ⟨c2, hrn, hrep3, hprobe3, ?_, ?_, ?_, ?_, ?_, ?_, ?_, ?_, ?_⟩
  · intro lid' hne1 hne2
    rw [hlst3 _ hne1, hlst2 _ hne2]
  · rw [hm3, hm2]
  · rw [hc3, hc2]
  · rw [hs3, hs2]
  · rw [hp3, hp2]
  · rw [hsz3, hsz2]
  · intro i
    exact ⟨by rw [(hkv3 i).1, (hkv2 i).1], by rw [(hkv3 i).2, (hkv2 i).2]⟩
  · intro i hi1 hi2
    rw [hout3 _ ?_, hout2 _ hi2]
    intro hc
    rcases List.mem_cons.mp hc with hc | hc
    · exact hi2 (hc ▸ hnps)
    · exact hi1 hc
  · intro i
    by_cases hin : i = n
    · subst hin
      rw [htags3 i, if_pos rfl, if_pos rfl]
    · rw [htags3 i, if_neg hin, htags2 i, if_neg hin, if_neg hin]

/-- Shared WF-reassembly for the two promotion variants that do not evict
(protected has room, or protected is empty with `snum = 0`). -/
theorem wf_promote_noevict {c c2 : Cache K V} {k : K} {n : Int}
    {fs ls asp bsp : List Int}
    (hfree : listRep c .free fs)
    (hprobe : listRep c .probe (asp ++ n :: bsp))
    (hperm : (fs ++ ls ++ (asp ++ n :: bsp)).Perm (rangeI c.entries.size))
    (hmaps : MapsOk c ls (asp ++ n :: bsp) fs)
    (hsz : (c.entries.size : Int) = c.cnum)
    (hcnums : c.cnum = c.snum + c.pnum) (hs0 : 0 ≤ c.snum) (hp0 : 0 ≤ c.pnum)
    (hpb : c.probelist.count ≤ c.pnum)
    (hdfl : ∀ i ∈ fs, i ∉ ls) (hdfp : ∀ i ∈ fs, i ∉ asp ++ n :: bsp)
    (hlru3 : listRep (insertHead c2 .lru n) .lru (n :: ls))
    (hprobe3 : listRep (insertHead c2 .lru n) .probe (asp ++ bsp))
    (hlst3 : ∀ lid', lid' ≠ ListId.lru → lid' ≠ ListId.probe →
      (insertHead c2 .lru n).lst lid' = c.lst lid')
    (hm3 : (insertHead c2 .lru n).mapping = c.mapping)
    (hc3 : (insertHead c2 .lru n).cnum = c.cnum)
    (hs3 : (insertHead c2 .lru n).snum = c.snum)
    (hp3 : (insertHead c2 .lru n).pnum = c.pnum)
    (hsz3 : (insertHead c2 .lru n).entries.size = c.entries.size)
    (hkv3 : ∀ i, ((insertHead c2 .lru n).eget i).key = (c.eget i).key ∧
      ((insertHead c2 .lru n).eget i).value = (c.eget i).value)
    (hout3 : ∀ i, i ∉ ls → i ∉ asp ++ n :: bsp →
      (insertHead c2 .lru n).eget i = c.eget i)
    (hbound : (insertHead c2 .lru n).lrulist.count ≤
      max (insertHead c2 .lru n).snum 1) :
    WF (insertHead c2 .lru n) := by
  refine ⟨fs, n :: ls, asp ++ bsp, ?_, hlru3, hprobe3, ?_, ?_, ?_, ?_, ?_, ?_, hbound, ?_⟩
  · refine listRep_frame hsz3 (hlst3 _ (by simp) (by simp)) ?_ hfree
    intro i hi
    rw [hout3 _ (hdfl i hi) (hdfp i hi)]
    exact linkEq_refl
  · rw [hsz3]
    refine List.Perm.trans ?_ hperm
    refine Multiset.coe_eq_coe.mp ?_
    simp only [← Multiset.coe_add, ← Multiset.cons_coe]
    simp only [← Multiset.singleton_add]
    abel
  · refine mapsOk_transport hm3 hkv3 ?_ (fun i h => h) hmaps
    intro i
    constructor
    · rintro (hi | hi)
      · rcases List.mem_cons.mp hi with hi | hi
        · exact Or.inr (hi ▸ (by simp))
        · exact Or.inl hi
      · exact Or.inr (List.mem_append.mpr
          (Or.imp id (List.mem_cons_of_mem _) (List.mem_append.mp hi)))
    · rintro (hi | hi)
      · exact Or.inl (List.mem_cons_of_mem _ hi)
      · rcases List.mem_append.mp hi with hi | hi
        · exact Or.inr (List.mem_append_left _ hi)
        · rcases List.mem_cons.mp hi with hi | hi
          · exact Or.inl (hi ▸ List.mem_cons_self _ _)
          · exact Or.inr (List.mem_append_right _ hi)
  · rw [hsz3, hc3]; exact hsz
  · rw [hc3, hs3, hp3]; exact hcnums
  · rw [hs3]; exact hs0
  · rw [hp3]; exact hp0
  · have h1 := hprobe3.2.2.2
    have h2 := hprobe.2.2.2
    rw [lst_probe_eq] at h1 h2
    rw [h1, hp3]
    refine le_trans ?_ hpb
    rw [h2]
    simp only [List.length_append, List.length_cons]
    push_cast
    omega

/-- `Lookup` hit on a probationary entry while the protected list has
room: promotion with no eviction. -/
theorem lookup_promote_room {c : Cache K V} {k : K} {n : Int}
    (hwf : WF c) (hf : mapFind c.mapping k = some n)
    (ht : (c.eget n).list = some .probe) (hcnt : ¬(c.lrulist.count ≥ c.snum)) :
    ∃ c', Lookup c k = some (some ((c.eget n).value), c', [Ev.inserted k]) ∧ WF c' ∧
      c'.mapping = c.mapping ∧ c'.freelist = c.freelist ∧
      c'.lrulist.count = c.lrulist.count + 1 ∧ c'.lrulist.head = n ∧
      c'.probelist.count = c.probelist.count - 1 ∧
      c'.snum = c.snum ∧ c'.pnum = c.pnum ∧ c'.cnum = c.cnum ∧
      (∀ i, (c'.eget i).key = (c.eget i).key ∧ (c'.eget i).value = (c.eget i).value) ∧
      (c'.eget n).list = some .lru ∧ mapFind c'.mapping k = some n := by
  obtain ⟨fs, ls, ps, hfree, hlru, hprobe, hperm, hmaps, hsz, hcnums, hs0, hp0, hlb, hpb⟩ := hwf
  have hlive := (hmaps.1 k n hf).1
  have hnps : n ∈ ps := (live_mem_of_tag hlru hprobe hlive).2 ht
  obtain ⟨asp, bsp, rfl⟩ := List.append_of_mem hnps
  obtain ⟨hfnd, hlnd, hpnd, hdfl, hdfp, hdlp⟩ := nodup_parts hperm
  obtain ⟨c2, hrn, hlru3, hprobe3, hlst3, hm3, hc3, hs3, hp3, hsz3, hkv3, hout3, htags3⟩ :=
    promote_core hlru hprobe hlnd hpnd hdlp
  have hcond : (some ListId.probe = some ListId.lru) = False := by simp
  have hge : (c.lrulist.count ≥ c.snum) = False := eq_false hcnt
  have heq : Lookup c k = some (some (((insertHead c2 .lru n).eget n).value),
      insertHead c2 .lru n, [Ev.inserted k]) := by
    unfold Lookup
    rw [hf]
    simp only [ht, hcond, if_false, hge, hrn, List.nil_append]
  have hcount : (insertHead c2 .lru n).lrulist.count = c.lrulist.count + 1 := by
    have h1 := hlru3.2.2.2
    have h2 := hlru.2.2.2
    rw [lst_lru_eq] at h1 h2
    rw [h1, h2]
    simp only [List.length_cons]
    push_cast
    ring
  have hpcount : (insertHead c2 .lru n).probelist.count = c.probelist.count - 1 := by
    have h1 := hprobe3.2.2.2
    have h2 := hprobe.2.2.2
    rw [lst_probe_eq] at h1 h2
    rw [h1, h2]
    simp only [List.length_append, List.length_cons]
    push_cast
    ring
  refine ⟨insertHead c2 .lru n, ?_, ?_, hm3, ?_, hcount, ?_, hpcount, hs3, hp3, hc3,
    hkv3, ?_, ?_⟩
  · rw [heq, (hkv3 n).2]
  · refine wf_promote_noevict (k := k) hfree hprobe hperm hmaps hsz hcnums hs0 hp0 hpb
      hdfl hdfp hlru3 hprobe3 hlst3 hm3 hc3 hs3 hp3 hsz3 hkv3 hout3 ?_
    rw [hcount, hs3]
    have : c.lrulist.count < c.snum := by omega
    refine le_trans ?_ (le_max_left _ 1)
    omega
  · rw [← lst_free_eq, hlst3 _ (by simp) (by simp), lst_free_eq]
  · have h1 := hlru3.2.1
    rw [lst_lru_eq] at h1
    rw [h1, headI_cons]
  · have h := htags3 n
    rw [if_pos rfl] at h
    exact h
  · rw [hm3]
    exact hf

/-- `Lookup` hit on a probationary entry when `lrulist.count ≥ snum` but
the protected list is empty (only possible with `snum = 0`): the eviction
block is skipped entirely (`removeTail` returns the sentinel), and the
promotion still completes without touching the mapping or the free
list. -/
theorem lookup_promote_empty {c : Cache K V} {k : K} {n : Int}
    (hwf : WF c) (hf : mapFind c.mapping k = some n)
    (ht : (c.eget n).list = some .probe) (hcnt : c.lrulist.count ≥ c.snum)
    (hz : c.lrulist.count = 0) :
    ∃ c', Lookup c k = some (some ((c.eget n).value), c', [Ev.inserted k]) ∧ WF c' ∧
      c'.mapping = c.mapping ∧ c'.freelist = c.freelist ∧
      c'.lrulist.count = 1 ∧ c'.lrulist.head = n ∧
      c'.probelist.count = c.probelist.count - 1 ∧
      c'.snum = c.snum ∧ c'.pnum = c.pnum ∧ c'.cnum = c.cnum ∧
      (∀ i, (c'.eget i).key = (c.eget i).key ∧ (c'.eget i).value = (c.eget i).value) ∧
      (c'.eget n).list = some .lru ∧ mapFind c'.mapping k = some n := by
  obtain ⟨fs, ls, ps, hfree, hlru, hprobe, hperm, hmaps, hsz, hcnums, hs0, hp0, hlb, hpb⟩ := hwf
  have hlive := (hmaps.1 k n hf).1
  have hnps : n ∈ ps := (live_mem_of_tag hlru hprobe hlive).2 ht
  obtain ⟨asp, bsp, rfl⟩ := List.append_of_mem hnps
  obtain ⟨hfnd, hlnd, hpnd, hdfl, hdfp, hdlp⟩ := nodup_parts hperm
  have hlsnil : ls = [] := by
    have h2 := hlru.2.2.2
    rw [lst_lru_eq] at h2
    rw [hz] at h2
    have : ls.length = 0 := by omega
    exact List.length_eq_zero.mp this
  subst hlsnil
  obtain ⟨c2, hrn, hlru3, hprobe3, hlst3, hm3, hc3, hs3, hp3, hsz3, hkv3, hout3, htags3⟩ :=
    promote_core hlru hprobe hlnd hpnd hdlp
  have hrtnil : removeTail c .lru = (SLRU_EOF, c) := removeTail_nil hlru
  have hcond : (some ListId.probe = some ListId.lru) = False := by simp
  have hge : (c.lrulist.count ≥ c.snum) = True := eq_true hcnt
  have heq : Lookup c k = some (some (((insertHead c2 .lru n).eget n).value),
      insertHead c2 .lru n, [Ev.inserted k]) := by
    unfold Lookup
    rw [hf]
    simp only [ht, hcond, if_false, hge, if_true, hrtnil, ne_eq, eq_self_iff_true,
      not_true, hrn, List.nil_append]
  have hcount : (insertHead c2 .lru n).lrulist.count = 1 := by
    have h1 := hlru3.2.2.2
    rw [lst_lru_eq] at h1
    rw [h1]
    simp
  have hpcount : (insertHead c2 .lru n).probelist.count = c.probelist.count - 1 := by
    have h1 := hprobe3.2.2.2
    have h2 := hprobe.2.2.2
    rw [lst_probe_eq] at h1 h2
    rw [h1, h2]
    simp only [List.length_append, List.length_cons]
    push_cast
    ring
  refine ⟨insertHead c2 .lru n, ?_, ?_, hm3, ?_, hcount, ?_, hpcount, hs3, hp3, hc3,
    hkv3, ?_, ?_⟩
  · rw [heq, (hkv3 n).2]
  · refine wf_promote_noevict (k := k) hfree hprobe hperm hmaps hsz hcnums hs0 hp0 hpb
      hdfl hdfp hlru3 hprobe3 hlst3 hm3 hc3 hs3 hp3 hsz3 hkv3 hout3 ?_
    rw [hcount]
    exact le_max_right _ 1
  · rw [← lst_free_eq, hlst3 _ (by simp) (by simp), lst_free_eq]
  · have h1 := hlru3.2.1
    rw [lst_lru_eq] at h1
    rw [h1, headI_cons]
  · have h := htags3 n
    rw [if_pos rfl] at h
    exact h
  · rw [hm3]
    exact hf

/-- `Lookup` hit on a probationary entry while the protected list is full
and non-empty: the protected tail is evicted to the free list (mapping
entry erased, key/value cleared, removal callback fired), then the entry
is promoted. -/
theorem lookup_promote_evict {c : Cache K V} {k : K} {n : Int}
    (hwf : WF c) (hf : mapFind c.mapping k = some n)
    (ht : (c.eget n).list = some .probe) (hcnt : c.lrulist.count ≥ c.snum)
    (hpos : c.lrulist.count ≠ 0) :
    ∃ c', Lookup c k = some (some ((c.eget n).value), c',
        [Ev.removed ((c.eget c.lrulist.tail).key), Ev.inserted k]) ∧ WF c' ∧
      mapFind c'.mapping k = some n ∧ (c'.eget n).list = some .lru ∧
      c'.lrulist.head = n ∧
      (c'.eget n).value = (c.eget n).value ∧ (c'.eget n).key = (c.eget n).key ∧
      c'.snum = c.snum ∧ c'.pnum = c.pnum ∧ c'.cnum = c.cnum ∧
      c'.lrulist.count = c.lrulist.count ∧
      c'.probelist.count = c.probelist.count - 1 ∧
      c'.freelist.count = c.freelist.count + 1 ∧
      mapFind c'.mapping ((c.eget c.lrulist.tail).key) = none := by
  obtain ⟨fs, ls, ps, hfree, hlru, hprobe, hperm, hmaps, hsz, hcnums, hs0, hp0, hlb, hpb⟩ := hwf
  have hlive := (hmaps.1 k n hf).1
  have hnps : n ∈ ps := (live_mem_of_tag hlru hprobe hlive).2 ht
  obtain ⟨asp, bsp, rfl⟩ := List.append_of_mem hnps
  obtain ⟨hfnd, hlnd, hpnd, hdfl, hdfp, hdlp⟩ := nodup_parts hperm
  rcases List.eq_nil_or_concat ls with rfl | ⟨ls0, lt, hlseq⟩
  · exfalso
    apply hpos
    have h2 := hlru.2.2.2
    rw [lst_lru_eq] at h2
    simpa using h2
  rw [List.concat_eq_append] at hlseq
  subst hlseq
  obtain ⟨ca, hrt, hrepCa, hframe1, htags1, hprevt, hnextt⟩ := removeTail_spec hlru hlnd
  obtain ⟨hm1, hc1, hs1, hp1, hsz1, hlst1, hout1, hkv1⟩ := hframe1
  have hltls : lt ∈ ls0 ++ [lt] := by simp
  obtain ⟨hlt0, hlt1, hlttag⟩ := listRep_mem hlru hltls
  have hnlt : n ≠ lt := by
    intro hc
    exact hdlp lt (by simp) (hc ▸ hnps)
  have hltn : lt ∉ ls0 := by
    intro hc
    have := hlnd
    rw [List.nodup_append] at this
    exact this.2.2 hc (by simp)
  have hls0nd : ls0.Nodup := (List.nodup_append.mp hlnd).1
  have htl' : c.lrulist.tail = lt := by
    have h := hlru.2.2.1
    rw [lst_lru_eq] at h
    rw [h, lastI_concat]
  -- the four intermediate states of the eviction block
  have hcbget : ∀ i, (({ ca with mapping := mapErase ca.mapping ((ca.eget lt).key) } : Cache K V)).eget i = ca.eget i :=
    fun i => eget_setMapping
  have hsz1' : lt < (ca.entries.size : Int) := by rw [hsz1]; exact hlt1
  have hcdget : ∀ i, i ≠ lt →
      ((({ ca with mapping := mapErase ca.mapping ((ca.eget lt).key) } : Cache K V)).eset lt
        (fun e => { e with key := default }) |>.eset lt
        (fun e => { e with value := default })).eget i = ca.eget i := by
    intro i hi
    rw [eget_eset_ne hi, eget_eset_ne hi, hcbget]
  have hcdlt : ((({ ca with mapping := mapErase ca.mapping ((ca.eget lt).key) } :
      Cache K V)).eset lt (fun e => { e with key := default }) |>.eset lt
        (fun e => { e with value := default })).eget lt =
      { ca.eget lt with key := default, value := default } := by
    rw [eget_eset_self' hlt0 (by simpa using hsz1'),
      eget_eset_self' hlt0 (by simpa using hsz1'), hcbget]
  have hcdlink : ∀ i, linkEq
      (((({ ca with mapping := mapErase ca.mapping ((ca.eget lt).key) } : Cache K V)).eset lt
        (fun e => { e with key := default }) |>.eset lt
        (fun e => { e with value := default })).eget i) (ca.eget i) := by
    intro i
    by_cases hi : i = lt
    · subst hi
      rw [hcdlt]
      exact ⟨rfl, rfl, rfl⟩
    · rw [hcdget i hi]
      exact linkEq_refl
  have hcdsz : ((({ ca with mapping := mapErase ca.mapping ((ca.eget lt).key) } :
      Cache K V)).eset lt (fun e => { e with key := default }) |>.eset lt
        (fun e => { e with value := default })).entries.size = ca.entries.size := by
    rw [size_eset, size_eset, size_setMapping]
  have hcdlst : ∀ lid, ((({ ca with mapping := mapErase ca.mapping ((ca.eget lt).key) } :
      Cache K V)).eset lt (fun e => { e with key := default }) |>.eset lt
        (fun e => { e with value := default })).lst lid = ca.lst lid := by
    intro lid
    rw [lst_eset, lst_eset, lst_setMapping]
  -- representation facts for the state cd just before the free insert
  have hrepCd_free : listRep ((({ ca with mapping := mapErase ca.mapping ((ca.eget lt).key) } : Cache K V)).eset lt
        (fun e => { e with key := default }) |>.eset lt
        (fun e => { e with value := default })) .free fs := by
    refine listRep_frame hcdsz (hcdlst _) (fun i hi => hcdlink i) ?_
    refine listRep_frame hsz1 (hlst1 _ (by simp)) ?_ hfree
    intro i hi
    rw [hout1 _ (fun hc => hdfl i hi hc)]
    exact linkEq_refl
  have hrepCd_lru : listRep ((({ ca with mapping := mapErase ca.mapping ((ca.eget lt).key) } : Cache K V)).eset lt
        (fun e => { e with key := default }) |>.eset lt
        (fun e => { e with value := default })) .lru ls0 := by
    refine listRep_frame hcdsz (hcdlst _) (fun i hi => hcdlink i) hrepCa
  have hrepCd_probe : listRep ((({ ca with mapping := mapErase ca.mapping ((ca.eget lt).key) } : Cache K V)).eset lt
        (fun e => { e with key := default }) |>.eset lt
        (fun e => { e with value := default })) .probe (asp ++ n :: bsp) := by
    refine listRep_frame hcdsz (hcdlst _) (fun i hi => hcdlink i) ?_
    refine listRep_frame hsz1 (hlst1 _ (by simp)) ?_ hprobe
    intro i hi
    rw [hout1 _ (fun hc => hdlp i hc hi)]
    exact linkEq_refl
  have hltnf : lt ∉ fs := fun hc => hdfl lt hc (by simp)
  have hlt1cd : lt < ((((({ ca with mapping := mapErase ca.mapping ((ca.eget lt).key) } : Cache K V)).eset lt
        (fun e => { e with key := default }) |>.eset lt
        (fun e => { e with value := default })).entries.size : Int)) := by
    rw [hcdsz, hsz1]; exact hlt1
  obtain ⟨hrepCe_free, hframe3, htags3⟩ :=
    insertHead_spec hrepCd_free hfnd hlt0 hlt1cd hltnf
  obtain ⟨hm3, hc3, hs3, hp3, hsz3, hlst3, hout3, hkv3⟩ := hframe3
  -- name the prepared state
  set ce := insertHead ((({ ca with mapping := mapErase ca.mapping ((ca.eget lt).key) } : Cache K V)).eset lt
        (fun e => { e with key := default }) |>.eset lt
        (fun e => { e with value := default })) .free lt with hcedef
  have hceout : ∀ i, i ≠ lt → i ∉ fs → ce.eget i =
      ((({ ca with mapping := mapErase ca.mapping ((ca.eget lt).key) } :
        Cache K V)).eset lt (fun e => { e with key := default }) |>.eset lt
        (fun e => { e with value := default })).eget i := by
    intro i h1 h2
    exact hout3 i (by simp [h1, h2])
  have hrepCe_lru : listRep ce .lru ls0 := by
    refine listRep_frame hsz3 (hlst3 _ (by simp)) ?_ hrepCd_lru
    intro i hi
    rw [hceout i (fun hc => hltn (hc ▸ hi)) (fun hc => hdfl i hc ?_)]
    · exact linkEq_refl
    · exact List.mem_append_left _ hi
  have hrepCe_probe : listRep ce .probe (asp ++ n :: bsp) := by
    refine listRep_frame hsz3 (hlst3 _ (by simp)) ?_ hrepCd_probe
    intro i hi
    rw [hceout i (fun hc => hdlp lt (by simp) (hc ▸ hi)) (fun hc => hdfp i hc hi)]
    exact linkEq_refl
  obtain ⟨c2, hrn2, hlruF, hprobeF, hlstF, hmF, hcF, hsF, hpF, hszF, hkvF, houtF, htagsF⟩ :=
    promote_core hrepCe_lru hrepCe_probe hls0nd hpnd
      (fun i hi => hdlp i (List.mem_append_left _ hi))
  -- facts about ce
  have hce_map : ce.mapping = mapErase c.mapping ((c.eget lt).key) := by
    rw [hcedef, hm3, mapping_eset, mapping_eset]
    show mapErase ca.mapping ((ca.eget lt).key) = _
    rw [hm1, (hkv1 lt).1]
  have hce_kv : ∀ i, i ≠ lt → (ce.eget i).key = (c.eget i).key ∧
      (ce.eget i).value = (c.eget i).value := by
    intro i hi
    obtain ⟨a1, a2⟩ := hkv3 i
    rw [hcdget i hi] at a1 a2
    exact ⟨by rw [a1, (hkv1 i).1], by rw [a2, (hkv1 i).2]⟩
  have hce_lt_kv : (ce.eget lt).key = (default : K) ∧
      (ce.eget lt).value = (default : V) := by
    obtain ⟨a1, a2⟩ := hkv3 lt
    rw [hcdlt] at a1 a2
    exact ⟨by rw [a1], by rw [a2]⟩
  have hce_tag : ∀ i, i ≠ lt → (ce.eget i).list = (c.eget i).list := by
    intro i hi
    rw [htags3 i, if_neg hi]
    have := (hcdlink i).2.2
    rw [this, htags1 i, if_neg hi]
  have hce_tag_n : (ce.eget n).list = some ListId.probe := by
    rw [hce_tag n hnlt, ht]
  have hltT : (lt ≠ SLRU_EOF) = True := by
    refine eq_true ?_
    intro hc
    rw [hc] at hlt0
    norm_num [SLRU_EOF] at hlt0
  have hcond : (some ListId.probe = some ListId.lru) = False := by simp
  have hge : (c.lrulist.count ≥ c.snum) = True := eq_true hcnt
  have heq : Lookup c k = some (some (((insertHead c2 .lru n).eget n).value),
      insertHead c2 .lru n, [Ev.removed ((ca.eget lt).key), Ev.inserted k]) := by
    unfold Lookup
    rw [hf]
    simp only [ht, hcond, if_false, hge, if_true, hrt, hltT]
    rw [← hcedef]
    simp only [hce_tag_n, hrn2, List.cons_append, List.nil_append]
  have hsurj_lt : mapFind c.mapping ((c.eget lt).key) = some lt :=
    hmaps.2.1 lt (Or.inl hltls)
  have hkvC : ∀ i, i ≠ lt → ((insertHead c2 .lru n).eget i).key = (c.eget i).key ∧
      ((insertHead c2 .lru n).eget i).value = (c.eget i).value := by
    intro i hi
    obtain ⟨a1, a2⟩ := hkvF i
    obtain ⟨b1, b2⟩ := hce_kv i hi
    exact ⟨by rw [a1, b1], by rw [a2, b2]⟩
  have hmapC : (insertHead c2 .lru n).mapping = mapErase c.mapping ((c.eget lt).key) := by
    rw [hmF, hce_map]
  have hlscount : c.lrulist.count = ((ls0.length : Int)) + 1 := by
    have h2 := hlru.2.2.2
    rw [lst_lru_eq] at h2
    rw [h2]
    simp only [List.length_append, List.length_cons, List.length_nil]
    push_cast
    ring
  have hnotlt : ∀ m, (m ∈ n :: ls0 ∨ m ∈ asp ++ bsp) → m ≠ lt := by
    intro m hm'
    rcases hm' with hm' | hm'
    · rcases List.mem_cons.mp hm' with hm' | hm'
      · exact hm' ▸ hnlt
      · exact fun hc => hltn (hc ▸ hm')
    · intro hc
      refine hdlp lt (by simp) ?_
      subst hc
      exact List.mem_append.mpr (Or.imp id (List.mem_cons_of_mem _) (List.mem_append.mp hm'))
  have hmem_back : ∀ m, (m ∈ n :: ls0 ∨ m ∈ asp ++ bsp) →
      (m ∈ ls0 ++ [lt] ∨ m ∈ asp ++ n :: bsp) := by
    intro m hm'
    rcases hm' with hm' | hm'
    · rcases List.mem_cons.mp hm' with hm' | hm'
      · exact Or.inr (hm' ▸ hnps)
      · exact Or.inl (List.mem_append_left _ hm')
    · exact Or.inr (List.mem_append.mpr
        (Or.imp id (List.mem_cons_of_mem _) (List.mem_append.mp hm')))
  refine ⟨insertHead c2 .lru n, ?_, ?_, ?_, ?_, ?_, (hkvC n hnlt).2, (hkvC n hnlt).1,
    ?_, ?_, ?_, ?_, ?_, ?_, ?_⟩
  · rw [heq, (hkvF n).2, (hce_kv n hnlt).2, htl', (hkv1 lt).1]
  · -- WF
    refine ⟨lt :: fs, n :: ls0, asp ++ bsp, ?_, hlruF, hprobeF, ?_, ?_, ?_, ?_, ?_, ?_, ?_, ?_⟩
    · refine listRep_frame hszF (hlstF _ (by simp) (by simp)) ?_ hrepCe_free
      intro i hi
      rcases List.mem_cons.mp hi with hi | hi
      · subst hi
        rw [houtF i hltn (fun hc => hdlp i (by simp) hc)]
        exact linkEq_refl
      · rw [houtF i (fun hc => hdfl i hi (List.mem_append_left _ hc))
          (fun hc => hdfp i hi hc)]
        exact linkEq_refl
    · rw [hszF, hsz3, hcdsz, hsz1]
      refine List.Perm.trans ?_ hperm
      refine Multiset.coe_eq_coe.mp ?_
      simp only [← Multiset.coe_add, ← Multiset.cons_coe]
      simp only [← Multiset.singleton_add]
      abel
    · refine ⟨?_, ?_, ?_⟩
      · intro k' m hfind'
        rw [hmapC] at hfind'
        by_cases hk' : k' = (c.eget lt).key
        · rw [hk', mapFind_mapErase_self] at hfind'
          cases hfind'
        · rw [mapFind_mapErase_ne hk'] at hfind'
          obtain ⟨hmem, hkey⟩ := hmaps.1 k' m hfind'
          have hmlt : m ≠ lt := by
            intro hc
            subst hc
            exact hk' hkey.symm
          refine ⟨?_, by rw [(hkvC m hmlt).1, hkey]⟩
          rcases hmem with hmem | hmem
          · rcases List.mem_append.mp hmem with hmem | hmem
            · exact Or.inl (List.mem_cons_of_mem _ hmem)
            · exact absurd (List.mem_singleton.mp hmem) hmlt
          · rcases List.mem_append.mp hmem with hmem | hmem
            · exact Or.inr (List.mem_append_left _ hmem)
            · rcases List.mem_cons.mp hmem with hmem | hmem
              · exact Or.inl (hmem ▸ List.mem_cons_self _ _)
              · exact Or.inr (List.mem_append_right _ hmem)
      · intro m hm'
        have hmlt := hnotlt m hm'
        have hmm := hmem_back m hm'
        have hkeyne : (c.eget m).key ≠ (c.eget lt).key := by
          intro hc
          have h1 := hmaps.2.1 m hmm
          rw [hc, hsurj_lt] at h1
          exact hmlt (Option.some.inj h1).symm
        rw [hmapC, (hkvC m hmlt).1, mapFind_mapErase_ne hkeyne]
        exact hmaps.2.1 m hmm
      · intro m hm'
        rcases List.mem_cons.mp hm' with hm' | hm'
        · subst hm'
          obtain ⟨a1, a2⟩ := hkvF m
          exact ⟨by rw [a1, hce_lt_kv.1], by rw [a2, hce_lt_kv.2]⟩
        · have hmlt : m ≠ lt := fun hc => hltnf (hc ▸ hm')
          obtain ⟨d1, d2⟩ := hmaps.2.2 m hm'
          exact ⟨by rw [(hkvC m hmlt).1, d1], by rw [(hkvC m hmlt).2, d2]⟩
    · rw [hszF, hsz3, hcdsz, hsz1, hcF, hc3]
      simp only [cnum_eset]
      show (c.entries.size : Int) = ca.cnum
      rw [hc1]
      exact hsz
    · rw [hcF, hc3, hsF, hs3, hpF, hp3]
      simp only [cnum_eset, snum_eset, pnum_eset]
      show ca.cnum = ca.snum + ca.pnum
      rw [hc1, hs1, hp1]
      exact hcnums
    · rw [hsF, hs3]
      simp only [snum_eset]
      show 0 ≤ ca.snum
      rw [hs1]
      exact hs0
    · rw [hpF, hp3]
      simp only [pnum_eset]
      show 0 ≤ ca.pnum
      rw [hp1]
      exact hp0
    · have h1 := hlruF.2.2.2
      rw [lst_lru_eq] at h1
      rw [h1, hsF, hs3]
      simp only [snum_eset]
      show _ ≤ max ca.snum 1
      rw [hs1]
      refine le_trans ?_ hlb
      rw [hlscount]
      simp only [List.length_cons]
      push_cast
      omega
    · have h1 := hprobeF.2.2.2
      have h2 := hprobe.2.2.2
      rw [lst_probe_eq] at h1 h2
      rw [h1, hpF, hp3]
      simp only [pnum_eset]
      show _ ≤ ca.pnum
      rw [hp1]
      refine le_trans ?_ hpb
      rw [h2]
      simp only [List.length_append, List.length_cons]
      push_cast
      omega
  · rw [hmapC, mapFind_mapErase_ne ?_]
    · exact hf
    · intro hc
      have h1 := hf
      rw [hc, hsurj_lt] at h1
      exact hnlt (Option.some.inj h1).symm
  · have h := htagsF n
    rw [if_pos rfl] at h
    exact h
  · have h1 := hlruF.2.1
    rw [lst_lru_eq] at h1
    rw [h1, headI_cons]
  · rw [hsF, hs3]
    simp only [snum_eset]
    show ca.snum = c.snum
    rw [hs1]
  · rw [hpF, hp3]
    simp only [pnum_eset]
    show ca.pnum = c.pnum
    rw [hp1]
  · rw [hcF, hc3]
    simp only [cnum_eset]
    show ca.cnum = c.cnum
    rw [hc1]
  · have h1 := hlruF.2.2.2
    rw [lst_lru_eq] at h1
    rw [h1, hlscount]
    simp only [List.length_cons]
    push_cast
    ring
  · have h1 := hprobeF.2.2.2
    have h2 := hprobe.2.2.2
    rw [lst_probe_eq] at h1 h2
    rw [h1, h2]
    simp only [List.length_append, List.length_cons]
    push_cast
    ring
  · have h1 := hrepCe_free
    have h3 : (insertHead c2 .lru n).freelist = ce.freelist := by
      rw [← lst_free_eq, hlstF _ (by simp) (by simp), lst_free_eq]
    have h4 := h1.2.2.2
    rw [lst_free_eq] at h4
    have h5 := hfree.2.2.2
    rw [lst_free_eq] at h5
    rw [h3, h4, h5]
    simp only [List.length_cons]
    push_cast
    ring
  · rw [htl', hmapC, mapFind_mapErase_self]

/-- The retire-to-free block of `Remove`: starting from a state whose free
list is `fs` and a valid slot `n` outside it, erasing a mapping entry,
clearing slot `n` and pushing it onto the free list. -/
theorem retire_core {c1 : Cache K V} {fs : List Int} {n : Int} {q : K}
    (hfree : listRep c1 .free fs) (hfnd : fs.Nodup)
    (hn0 : 0 ≤ n) (hn1 : n < (c1.entries.size : Int)) (hnf : n ∉ fs) :
    ∃ ce, (insertHead ((({ c1 with mapping := mapErase c1.mapping q } : Cache K V)).eset n
        (fun e => { e with key := default }) |>.eset n
        (fun e => { e with value := default })) .free n) = ce ∧
      listRep ce .free (n :: fs) ∧
      ce.mapping = mapErase c1.mapping q ∧
      ce.cnum = c1.cnum ∧ ce.snum = c1.snum ∧ ce.pnum = c1.pnum ∧
      ce.entries.size = c1.entries.size ∧
      (∀ lid, lid ≠ ListId.free → ce.lst lid = c1.lst lid) ∧
      (∀ i, i ≠ n → i ∉ fs → ce.eget i = c1.eget i) ∧
      (∀ i, i ≠ n → (ce.eget i).key = (c1.eget i).key ∧
        (ce.eget i).value = (c1.eget i).value) ∧
      (ce.eget n).key = (default : K) ∧ (ce.eget n).value = (default : V) ∧
      (∀ i, (ce.eget i).list = if i = n then some ListId.free else (c1.eget i).list) := by
  have hcbget : ∀ i, (({ c1 with mapping := mapErase c1.mapping q } : Cache K V)).eget i =
      c1.eget i := fun i => eget_setMapping
  have hcdget : ∀ i, i ≠ n →
      ((({ c1 with mapping := mapErase c1.mapping q } : Cache K V)).eset n
        (fun e => { e with key := default }) |>.eset n
        (fun e => { e with value := default })).eget i = c1.eget i := by
    intro i hi
    rw [eget_eset_ne hi, eget_eset_ne hi, hcbget]
  have hcdn : ((({ c1 with mapping := mapErase c1.mapping q } : Cache K V)).eset n
      (fun e => { e with key := default }) |>.eset n
        (fun e => { e with value := default })).eget n =
      { c1.eget n with key := default, value := default } := by
    rw [eget_eset_self' hn0 (by simpa using hn1),
      eget_eset_self' hn0 (by simpa using hn1), hcbget]
  have hcdlink : ∀ i, linkEq
      (((({ c1 with mapping := mapErase c1.mapping q } : Cache K V)).eset n
        (fun e => { e with key := default }) |>.eset n
        (fun e => { e with value := default })).eget i) (c1.eget i) := by
    intro i
    by_cases hi : i = n
    · subst hi
      rw [hcdn]
      exact ⟨rfl, rfl, rfl⟩
    · rw [hcdget i hi]
      exact linkEq_refl
  have hcdsz : ((({ c1 with mapping := mapErase c1.mapping q } : Cache K V)).eset n
      (fun e => { e with key := default }) |>.eset n
        (fun e => { e with value := default })).entries.size = c1.entries.size := by
    rw [size_eset, size_eset, size_setMapping]
  have hcdlst : ∀ lid, ((({ c1 with mapping := mapErase c1.mapping q } : Cache K V)).eset n
      (fun e => { e with key := default }) |>.eset n
        (fun e => { e with value := default })).lst lid = c1.lst lid := by
    intro lid
    rw [lst_eset, lst_eset, lst_setMapping]
  have hrepCd_free : listRep ((({ c1 with mapping := mapErase c1.mapping q } : Cache K V)).eset n
      (fun e => { e with key := default }) |>.eset n
        (fun e => { e with value := default })) .free fs := by
    exact listRep_frame hcdsz (hcdlst _) (fun i hi => hcdlink i) hfree
  have hn1cd : n < (((({ c1 with mapping := mapErase c1.mapping q } : Cache K V)).eset n
      (fun e => { e with key := default }) |>.eset n
        (fun e => { e with value := default })).entries.size : Int) := by
    rw [hcdsz]
    exact hn1
  obtain ⟨hrepE, hframeE, htagsE⟩ := insertHead_spec hrepCd_free hfnd hn0 hn1cd hnf
  obtain ⟨hmE, hcE, hsE, hpE, hszE, hlstE, houtE, hkvE⟩ := hframeE
  refine ⟨_, rfl, hrepE, ?_, ?_, ?_, ?_, ?_, ?_, ?_, ?_, ?_, ?_, ?_⟩
  · rw [hmE, mapping_eset, mapping_eset]
  · rw [hcE]
    simp only [cnum_eset]
  · rw [hsE]
    simp only [snum_eset]
  · rw [hpE]
    simp only [pnum_eset]
  · rw [hszE, hcdsz]
  · intro lid hlid
    rw [hlstE _ hlid, hcdlst]
  · intro i h1 h2
    rw [houtE i (by simp [h1, h2]), hcdget i h1]
  · intro i hi
    obtain ⟨a1, a2⟩ := hkvE i
    rw [hcdget i hi] at a1 a2
    exact ⟨a1, a2⟩
  · obtain ⟨a1, -⟩ := hkvE n
    rw [hcdn] at a1
    rw [a1]
  · obtain ⟨-, a2⟩ := hkvE n
    rw [hcdn] at a2
    rw [a2]
  · intro i
    by_cases hi : i = n
    · subst hi
      rw [htagsE i, if_pos rfl, if_pos rfl]
    · rw [htagsE i, if_neg hi, if_neg hi]
      exact (hcdlink i).2.2

/-- Finishing `Remove` after the found slot has been unlinked from its
segment: erasing the mapping entry, clearing the slot and pushing it on
the free list preserves the invariant. -/
theorem remove_finish {c1 : Cache K V} {k : K} {n : Int} {fs ls1 ps1 : List Int}
    (hfree1 : listRep c1 .free fs) (hlru1 : listRep c1 .lru ls1)
    (hprobe1 : listRep c1 .probe ps1)
    (hperm1 : ((n :: fs) ++ ls1 ++ ps1).Perm (rangeI c1.entries.size))
    (hfindk : mapFind c1.mapping k = some n)
    (hfwd : ∀ kx m, mapFind c1.mapping kx = some m →
      (m = n ∨ m ∈ ls1 ∨ m ∈ ps1) ∧ (c1.eget m).key = kx)
    (hbwd : ∀ m, (m ∈ ls1 ∨ m ∈ ps1) → mapFind c1.mapping ((c1.eget m).key) = some m)
    (hfclr : ∀ m ∈ fs, (c1.eget m).key = (default : K) ∧ (c1.eget m).value = (default : V))
    (hszc : (c1.entries.size : Int) = c1.cnum)
    (hcnums : c1.cnum = c1.snum + c1.pnum) (hs0 : 0 ≤ c1.snum) (hp0 : 0 ≤ c1.pnum)
    (hlb : ((ls1.length : Int)) ≤ max c1.snum 1)
    (hpb : ((ps1.length : Int)) ≤ c1.pnum)
    (hn0 : 0 ≤ n) (hn1 : n < (c1.entries.size : Int)) :
    ∃ ce, (insertHead ((({ c1 with mapping := mapErase c1.mapping k } : Cache K V)).eset n
        (fun e => { e with key := default }) |>.eset n
        (fun e => { e with value := default })) .free n) = ce ∧ WF ce ∧
      mapFind ce.mapping k = none ∧ (ce.eget n).list = some ListId.free ∧
      ce.freelist.count = ((fs.length : Int)) + 1 ∧
      ce.snum = c1.snum ∧ ce.pnum = c1.pnum ∧ ce.cnum = c1.cnum := by
  obtain ⟨hnfs_nd, hl1nd, hp1nd, hd1, hd2, hd3⟩ := nodup_parts hperm1
  have hnf : n ∉ fs := (List.nodup_cons.mp hnfs_nd).1
  have hfnd : fs.Nodup := (List.nodup_cons.mp hnfs_nd).2
  have hnl1 : n ∉ ls1 := hd1 n (List.mem_cons_self _ _)
  have hnp1 : n ∉ ps1 := hd2 n (List.mem_cons_self _ _)
  have hkeyn : (c1.eget n).key = k := (hfwd k n hfindk).2
  obtain ⟨ce, hceeq, hrepF, hmE, hcE, hsE, hpE, hszE, hlstE, houtE, hkvE,
    hkeyclr, hvalclr, htagsE⟩ := retire_core (q := k) hfree1 hfnd hn0 hn1 hnf
  have hrepL : listRep ce .lru ls1 := by
    rw [← hceeq]
    rw [← hceeq] at hszE hlstE houtE
    refine listRep_frame hszE (hlstE _ (by simp)) ?_ hlru1
    intro i hi
    rw [houtE i (fun hc => hnl1 (hc ▸ hi)) (fun hc => hd1 i (List.mem_cons_of_mem _ hc) hi)]
    exact linkEq_refl
  have hrepP : listRep ce .probe ps1 := by
    rw [← hceeq]
    rw [← hceeq] at hszE hlstE houtE
    refine listRep_frame hszE (hlstE _ (by simp)) ?_ hprobe1
    intro i hi
    rw [houtE i (fun hc => hnp1 (hc ▸ hi)) (fun hc => hd2 i (List.mem_cons_of_mem _ hc) hi)]
    exact linkEq_refl
  refine ⟨ce, hceeq, ?_, ?_, ?_, ?_, hsE, hpE, hcE⟩
  · refine ⟨n :: fs, ls1, ps1, hrepF, hrepL, hrepP, ?_, ?_, ?_, ?_, ?_, ?_, ?_, ?_⟩
    · rw [hszE]
      exact hperm1
    · refine ⟨?_, ?_, ?_⟩
      · intro kx m hx
        rw [hmE] at hx
        by_cases hkx : kx = k
        · rw [hkx, mapFind_mapErase_self] at hx
          cases hx
        · rw [mapFind_mapErase_ne hkx] at hx
          obtain ⟨hmem, hkey⟩ := hfwd kx m hx
          have hmn : m ≠ n := by
            intro hc
            subst hc
            rw [hkeyn] at hkey
            exact hkx hkey.symm
          refine ⟨?_, by rw [(hkvE m hmn).1, hkey]⟩
          rcases hmem with hmem | hmem
          · exact absurd hmem hmn
          · exact hmem
      · intro m hm
        have hmn : m ≠ n := by
          intro hc
          subst hc
          rcases hm with hm | hm
          · exact hnl1 hm
          · exact hnp1 hm
        have hne : (c1.eget m).key ≠ k := by
          intro hc
          have h1 := hbwd m hm
          rw [hc, hfindk] at h1
          exact hmn (Option.some.inj h1).symm
        rw [hmE, (hkvE m hmn).1, mapFind_mapErase_ne hne]
        exact hbwd m hm
      · intro m hm
        rcases List.mem_cons.mp hm with hm | hm
        · subst hm
          exact ⟨hkeyclr, hvalclr⟩
        · have hmn : m ≠ n := fun hc => hnf (hc ▸ hm)
          obtain ⟨d1, d2⟩ := hfclr m hm
          exact ⟨by rw [(hkvE m hmn).1, d1], by rw [(hkvE m hmn).2, d2]⟩
    · rw [hszE, hcE]
      exact hszc
    · rw [hcE, hsE, hpE]
      exact hcnums
    · rw [hsE]
      exact hs0
    · rw [hpE]
      exact hp0
    · have h1 := hrepL.2.2.2
      rw [lst_lru_eq] at h1
      rw [h1, hsE]
      exact hlb
    · have h1 := hrepP.2.2.2
      rw [lst_probe_eq] at h1
      rw [h1, hpE]
      exact hpb
  · rw [hmE]
    exact mapFind_mapErase_self
  · have h := htagsE n
    rw [if_pos rfl] at h
    exact h
  · have h1 := hrepF.2.2.2
    rw [lst_free_eq] at h1
    rw [h1]
    simp only [List.length_cons]
    push_cast
    ring

/-- `Remove` of a present key: the slot is unlinked from its segment,
cleared, unmapped, and pushed on the free list; the removal callback
fires with the key. -/
theorem remove_hit {c : Cache K V} {k : K} {n : Int}
    (hwf : WF c) (hf : mapFind c.mapping k = some n) :
    ∃ c', Remove c k = (true, c', [Ev.removed k]) ∧ WF c' ∧
      mapFind c'.mapping k = none ∧ (c'.eget n).list = some ListId.free ∧
      c'.freelist.count = c.freelist.count + 1 ∧
      c'.snum = c.snum ∧ c'.pnum = c.pnum ∧ c'.cnum = c.cnum := by
  obtain ⟨fs, ls, ps, hfree, hlru, hprobe, hperm, hmaps, hsz, hcnums, hs0, hp0, hlb, hpb⟩ := hwf
  obtain ⟨hfnd, hlnd, hpnd, hdfl, hdfp, hdlp⟩ := nodup_parts hperm
  have hlive := (hmaps.1 k n hf).1
  have hfcount : c.freelist.count = ((fs.length : Int)) := by
    have h := hfree.2.2.2
    rw [lst_free_eq] at h
    exact h
  rcases hlive with hnls | hnps
  · have ht : (c.eget n).list = some ListId.lru := (listRep_mem hlru hnls).2.2
    obtain ⟨as, bs, rfl⟩ := List.append_of_mem hnls
    obtain ⟨c1, hrn, hrep1, hframe1, htags1⟩ := removeN_spec hlru hlnd
    obtain ⟨hm1, hc1, hs1, hp1, hsz1, hlst1, hout1, hkv1⟩ := hframe1
    have hfree1 : listRep c1 .free fs := by
      refine listRep_frame hsz1 (hlst1 _ (by simp)) ?_ hfree
      intro i hi
      rw [hout1 _ (fun hc => hdfl i hi hc)]
      exact linkEq_refl
    have hprobe1 : listRep c1 .probe ps := by
      refine listRep_frame hsz1 (hlst1 _ (by simp)) ?_ hprobe
      intro i hi
      rw [hout1 _ (fun hc => hdlp i hc hi)]
      exact linkEq_refl
    have hn0 : 0 ≤ n := (listRep_mem hlru (by simp)).1
    have hn1 : n < (c1.entries.size : Int) := by
      rw [hsz1]
      exact (listRep_mem hlru (by simp)).2.1
    have hperm1 : ((n :: fs) ++ (as ++ bs) ++ ps).Perm (rangeI c1.entries.size) := by
      rw [hsz1]
      refine List.Perm.trans ?_ hperm
      refine Multiset.coe_eq_coe.mp ?_
      simp only [← Multiset.coe_add, ← Multiset.cons_coe]
      simp only [← Multiset.singleton_add]
      abel
    have hfindk : mapFind c1.mapping k = some n := by rw [hm1]; exact hf
    have hfwd : ∀ kx m, mapFind c1.mapping kx = some m →
        (m = n ∨ m ∈ as ++ bs ∨ m ∈ ps) ∧ (c1.eget m).key = kx := by
      intro kx m hx
      rw [hm1] at hx
      obtain ⟨hmem, hkey⟩ := hmaps.1 kx m hx
      refine ⟨?_, by rw [(hkv1 m).1, hkey]⟩
      rcases hmem with hmem | hmem
      · rcases List.mem_append.mp hmem with hmem | hmem
        · exact Or.inr (Or.inl (List.mem_append_left _ hmem))
        · rcases List.mem_cons.mp hmem with hmem | hmem
          · exact Or.inl hmem
          · exact Or.inr (Or.inl (List.mem_append_right _ hmem))
      · exact Or.inr (Or.inr hmem)
    have hbwd : ∀ m, (m ∈ as ++ bs ∨ m ∈ ps) →
        mapFind c1.mapping ((c1.eget m).key) = some m := by
      intro m hm
      have hmem : m ∈ as ++ n :: bs ∨ m ∈ ps := by
        rcases hm with hm | hm
        · rcases List.mem_append.mp hm with hm | hm
          · exact Or.inl (List.mem_append_left _ hm)
          · exact Or.inl (List.mem_append_right _ (List.mem_cons_of_mem _ hm))
        · exact Or.inr hm
      rw [hm1, (hkv1 m).1]
      exact hmaps.2.1 m hmem
    have hfclr : ∀ m ∈ fs, (c1.eget m).key = (default : K) ∧
        (c1.eget m).value = (default : V) := by
      intro m hm
      obtain ⟨d1, d2⟩ := hmaps.2.2 m hm
      exact ⟨by rw [(hkv1 m).1, d1], by rw [(hkv1 m).2, d2]⟩
    have hlb1 : (((as ++ bs).length : Int)) ≤ max c1.snum 1 := by
      rw [hs1]
      refine le_trans ?_ hlb
      have h2 := hlru.2.2.2
      rw [lst_lru_eq] at h2
      rw [h2]
      simp only [List.length_append, List.length_cons]
      push_cast
      omega
    have hpb1 : ((ps.length : Int)) ≤ c1.pnum := by
      rw [hp1]
      have h2 := hprobe.2.2.2
      rw [lst_probe_eq] at h2
      rw [← h2]
      exact hpb
    obtain ⟨ce, hceeq, hwfE, hfnE, htagE, hfcE, hsE, hpE, hcE⟩ :=
      remove_finish hfree1 hrep1 hprobe1 hperm1 hfindk hfwd hbwd hfclr
        (by rw [hsz1, hc1]; exact hsz) (by rw [hc1, hs1, hp1]; exact hcnums)
        (by rw [hs1]; exact hs0) (by rw [hp1]; exact hp0) hlb1 hpb1 hn0 hn1
    refine ⟨ce, ?_, hwfE, hfnE, htagE, ?_, by rw [hsE, hs1], by rw [hpE, hp1],
      by rw [hcE, hc1]⟩
    · unfold Remove
      rw [hf]
      simp only [ht, hrn]
      rw [hceeq]
    · rw [hfcE, hfcount]
  · have ht : (c.eget n).list = some ListId.probe := (listRep_mem hprobe hnps).2.2
    obtain ⟨as, bs, rfl⟩ := List.append_of_mem hnps
    obtain ⟨c1, hrn, hrep1, hframe1, htags1⟩ := removeN_spec hprobe hpnd
    obtain ⟨hm1, hc1, hs1, hp1, hsz1, hlst1, hout1, hkv1⟩ := hframe1
    have hfree1 : listRep c1 .free fs := by
      refine listRep_frame hsz1 (hlst1 _ (by simp)) ?_ hfree
      intro i hi
      rw [hout1 _ (fun hc => hdfp i hi hc)]
      exact linkEq_refl
    have hlru1 : listRep c1 .lru ls := by
      refine listRep_frame hsz1 (hlst1 _ (by simp)) ?_ hlru
      intro i hi
      rw [hout1 _ (fun hc => hdlp i hi hc)]
      exact linkEq_refl
    have hn0 : 0 ≤ n := (listRep_mem hprobe (by simp)).1
    have hn1 : n < (c1.entries.size : Int) := by
      rw [hsz1]
      exact (listRep_mem hprobe (by simp)).2.1
    have hperm1 : ((n :: fs) ++ ls ++ (as ++ bs)).Perm (rangeI c1.entries.size) := by
      rw [hsz1]
      refine List.Perm.trans ?_ hperm
      refine Multiset.coe_eq_coe.mp ?_
      simp only [← Multiset.coe_add, ← Multiset.cons_coe]
      simp only [← Multiset.singleton_add]
      abel
    have hfindk : mapFind c1.mapping k = some n := by rw [hm1]; exact hf
    have hfwd : ∀ kx m, mapFind c1.mapping kx = some m →
        (m = n ∨ m ∈ ls ∨ m ∈ as ++ bs) ∧ (c1.eget m).key = kx := by
      intro kx m hx
      rw [hm1] at hx
      obtain ⟨hmem, hkey⟩ := hmaps.1 kx m hx
      refine ⟨?_, by rw [(hkv1 m).1, hkey]⟩
      rcases hmem with hmem | hmem
      · exact Or.inr (Or.inl hmem)
      · rcases List.mem_append.mp hmem with hmem | hmem
        · exact Or.inr (Or.inr (List.mem_append_left _ hmem))
        · rcases List.mem_cons.mp hmem with hmem | hmem
          · exact Or.inl hmem
          · exact Or.inr (Or.inr (List.mem_append_right _ hmem))
    have hbwd : ∀ m, (m ∈ ls ∨ m ∈ as ++ bs) →
        mapFind c1.mapping ((c1.eget m).key) = some m := by
      intro m hm
      have hmem : m ∈ ls ∨ m ∈ as ++ n :: bs := by
        rcases hm with hm | hm
        · exact Or.inl hm
        · rcases List.mem_append.mp hm with hm | hm
          · exact Or.inr (List.mem_append_left _ hm)
          · exact Or.inr (List.mem_append_right _ (List.mem_cons_of_mem _ hm))
      rw [hm1, (hkv1 m).1]
      exact hmaps.2.1 m hmem
    have hfclr : ∀ m ∈ fs, (c1.eget m).key = (default : K) ∧
        (c1.eget m).value = (default : V) := by
      intro m hm
      obtain ⟨d1, d2⟩ := hmaps.2.2 m hm
      exact ⟨by rw [(hkv1 m).1, d1], by rw [(hkv1 m).2, d2]⟩
    have hlb1 : ((ls.length : Int)) ≤ max c1.snum 1 := by
      rw [hs1]
      have h2 := hlru.2.2.2
      rw [lst_lru_eq] at h2
      rw [← h2]
      exact hlb
    have hpb1 : (((as ++ bs).length : Int)) ≤ c1.pnum := by
      rw [hp1]
      refine le_trans ?_ hpb
      have h2 := hprobe.2.2.2
      rw [lst_probe_eq] at h2
      rw [h2]
      simp only [List.length_append, List.length_cons]
      push_cast
      omega
    obtain ⟨ce, hceeq, hwfE, hfnE, htagE, hfcE, hsE, hpE, hcE⟩ :=
      remove_finish hfree1 hlru1 hrep1 hperm1 hfindk hfwd hbwd hfclr
        (by rw [hsz1, hc1]; exact hsz) (by rw [hc1, hs1, hp1]; exact hcnums)
        (by rw [hs1]; exact hs0) (by rw [hp1]; exact hp0) hlb1 hpb1 hn0 hn1
    refine ⟨ce, ?_, hwfE, hfnE, htagE, ?_, by rw [hsE, hs1], by rw [hpE, hp1],
      by rw [hcE, hc1]⟩
    · unfold Remove
      rw [hf]
      simp only [ht, hrn]
      rw [hceeq]
    · rw [hfcE, hfcount]

/-- Overwriting a mapped slot's value keeps the invariant (the duplicate
`Insert` path). -/
theorem wf_eset_value {c : Cache K V} {k : K} {n : Int} {v : V}
    (hwf : WF c) (hf : mapFind c.mapping k = some n) :
    WF (c.eset n (fun e => { e with value := v })) := by
  obtain ⟨fs, ls, ps, hfree, hlru, hprobe, hperm, hmaps, hsz, hcnums, hs0, hp0, hlb, hpb⟩ := hwf
  obtain ⟨hfnd, hlnd, hpnd, hdfl, hdfp, hdlp⟩ := nodup_parts hperm
  have hlive := (hmaps.1 k n hf).1
  have hnf : n ∉ fs := by
    intro hc
    rcases hlive with h | h
    · exact hdfl n hc h
    · exact hdfp n hc h
  have hb : 0 ≤ n ∧ n < (c.entries.size : Int) := by
    rcases hlive with h | h
    · exact ⟨(listRep_mem hlru h).1, (listRep_mem hlru h).2.1⟩
    · exact ⟨(listRep_mem hprobe h).1, (listRep_mem hprobe h).2.1⟩
  have hgetn : (c.eset n (fun e => { e with value := v })).eget n =
      { c.eget n with value := v } := eget_eset_self' hb.1 hb.2
  have hkeq : ∀ i, ((c.eset n (fun e => { e with value := v })).eget i).key =
      (c.eget i).key := by
    intro i
    by_cases hi : i = n
    · subst hi
      rw [hgetn]
    · rw [eget_eset_ne hi]
  have hlink : ∀ i, linkEq ((c.eset n (fun e => { e with value := v })).eget i)
      (c.eget i) := by
    intro i
    by_cases hi : i = n
    · subst hi
      rw [hgetn]
      exact ⟨rfl, rfl, rfl⟩
    · rw [eget_eset_ne hi]
      exact linkEq_refl
  have hL : (c.eset n (fun e => { e with value := v })).lrulist = c.lrulist := by
    rw [← lst_lru_eq, lst_eset, lst_lru_eq]
  have hP : (c.eset n (fun e => { e with value := v })).probelist = c.probelist := by
    rw [← lst_probe_eq, lst_eset, lst_probe_eq]
  refine ⟨fs, ls, ps, ?_, ?_, ?_, ?_, ?_, ?_, ?_, ?_, ?_, ?_, ?_⟩
  · exact listRep_frame size_eset (lst_eset) (fun i hi => hlink i) hfree
  · exact listRep_frame size_eset (lst_eset) (fun i hi => hlink i) hlru
  · exact listRep_frame size_eset (lst_eset) (fun i hi => hlink i) hprobe
  · rw [size_eset]
    exact hperm
  · refine ⟨?_, ?_, ?_⟩
    · intro kx m hx
      rw [mapping_eset] at hx
      obtain ⟨hmem, hkey⟩ := hmaps.1 kx m hx
      exact ⟨hmem, by rw [hkeq m, hkey]⟩
    · intro m hm
      rw [mapping_eset, hkeq m]
      exact hmaps.2.1 m hm
    · intro m hm
      have hmn : m ≠ n := fun hc => hnf (hc ▸ hm)
      rw [eget_eset_ne hmn]
      exact hmaps.2.2 m hm
  · rw [size_eset, cnum_eset]
    exact hsz
  · rw [cnum_eset, snum_eset, pnum_eset]
    exact hcnums
  · rw [snum_eset]
    exact hs0
  · rw [pnum_eset]
    exact hp0
  · rw [hL, snum_eset]
    exact hlb
  · rw [hP, pnum_eset]
    exact hpb

/-- `Insert` of a new key while the probationary segment has room: a slot
is taken from the free-list tail, filled, mapped, and pushed at the
probationary head; no callback fires. -/
theorem insert_new_free {c : Cache K V} {k : K} {v : V}
    (hwf : WF c) (hf : mapFind c.mapping k = none)
    (hnge : ¬(c.probelist.count ≥ c.pnum))
    (hpos : c.freelist.count ≠ 0) :
    ∃ c', Insert c k v = some (c', []) ∧ WF c' ∧
      mapFind c'.mapping k = some c.freelist.tail ∧
      (c'.eget c.freelist.tail).list = some ListId.probe ∧
      (c'.eget c.freelist.tail).key = k ∧ (c'.eget c.freelist.tail).value = v ∧
      c'.probelist.head = c.freelist.tail ∧
      c'.freelist.count = c.freelist.count - 1 ∧
      c'.lrulist = c.lrulist ∧
      c'.probelist.count = c.probelist.count + 1 ∧
      c'.snum = c.snum ∧ c'.pnum = c.pnum ∧ c'.cnum = c.cnum := by
  obtain ⟨fs, ls, ps, hfree, hlru, hprobe, hperm, hmaps, hsz, hcnums, hs0, hp0, hlb, hpb⟩ := hwf
  obtain ⟨hfnd, hlnd, hpnd, hdfl, hdfp, hdlp⟩ := nodup_parts hperm
  rcases List.eq_nil_or_concat fs with rfl | ⟨gs, t, hgseq⟩
  · exfalso
    apply hpos
    have h2 := hfree.2.2.2
    rw [lst_free_eq] at h2
    simpa using h2
  rw [List.concat_eq_append] at hgseq
  subst hgseq
  obtain ⟨c1, hrt, hrep1, hframe1, htags1, hprevt, hnextt⟩ := removeTail_spec hfree hfnd
  obtain ⟨hm1, hc1, hs1, hp1, hsz1, hlst1, hout1, hkv1⟩ := hframe1
  have htfs : t ∈ gs ++ [t] := by simp
  obtain ⟨ht0, ht1, httag⟩ := listRep_mem hfree htfs
  have htl' : c.freelist.tail = t := by
    have h := hfree.2.2.1
    rw [lst_free_eq] at h
    rw [h, lastI_concat]
  have htgs : t ∉ gs := by
    have h := List.nodup_append.mp hfnd
    exact fun hc => h.2.2 hc (by simp)
  have htls : t ∉ ls := hdfl t htfs
  have htps : t ∉ ps := hdfp t htfs
  have ht1' : t < (c1.entries.size : Int) := by rw [hsz1]; exact ht1
  set c5s := (c1.eset t (fun e => { e with key := k })).eset t
    (fun e => { e with value := v }) with hc5def
  have hc5get : ∀ i, i ≠ t → c5s.eget i = c1.eget i := by
    intro i hi
    rw [hc5def, eget_eset_ne hi, eget_eset_ne hi]
  have hc5t : c5s.eget t = { c1.eget t with key := k, value := v } := by
    rw [hc5def, eget_eset_self' ht0 (by simpa using ht1'),
      eget_eset_self' ht0 (by simpa using ht1')]
  have hc5sz : c5s.entries.size = c1.entries.size := by
    rw [hc5def, size_eset, size_eset]
  have hc5lst : ∀ lid, c5s.lst lid = c1.lst lid := by
    intro lid
    rw [hc5def, lst_eset, lst_eset]
  set c6s := ({ c5s with mapping := mapInsert c5s.mapping k t } : Cache K V) with hc6def
  have hc6get : ∀ i, c6s.eget i = c5s.eget i := fun i => eget_setMapping
  have hc6sz : c6s.entries.size = c1.entries.size := by
    rw [hc6def, size_setMapping, hc5sz]
  have hc6lst : ∀ lid, c6s.lst lid = c1.lst lid := by
    intro lid
    rw [hc6def, lst_setMapping, hc5lst]
  have hc6m : c6s.mapping = mapInsert c.mapping k t := by
    rw [hc6def, mapping_setMapping, hc5def, mapping_eset, mapping_eset, hm1]
  have hc6c : c6s.cnum = c.cnum := by
    rw [hc6def, cnum_setMapping, hc5def, cnum_eset, cnum_eset, hc1]
  have hc6s : c6s.snum = c.snum := by
    rw [hc6def, snum_setMapping, hc5def, snum_eset, snum_eset, hs1]
  have hc6p : c6s.pnum = c.pnum := by
    rw [hc6def, pnum_setMapping, hc5def, pnum_eset, pnum_eset, hp1]
  have hrepP6 : listRep c6s .probe ps := by
    refine listRep_frame (by rw [hc6sz, hsz1]) (by rw [hc6lst, hlst1 _ (by simp)]) ?_ hprobe
    intro i hi
    rw [hc6get, hc5get i (fun hc => htps (hc ▸ hi)), hout1 i (fun hc => hdfp i hc hi)]
    exact linkEq_refl
  have hrepL6 : listRep c6s .lru ls := by
    refine listRep_frame (by rw [hc6sz, hsz1]) (by rw [hc6lst, hlst1 _ (by simp)]) ?_ hlru
    intro i hi
    rw [hc6get, hc5get i (fun hc => htls (hc ▸ hi)), hout1 i (fun hc => hdfl i hc hi)]
    exact linkEq_refl
  have hrepF6 : listRep c6s .free gs := by
    refine listRep_frame (by rw [hc6sz]) (by rw [hc6lst]) ?_ hrep1
    intro i hi
    rw [hc6get, hc5get i (fun hc => htgs (hc ▸ hi))]
    exact linkEq_refl
  have ht1c6 : t < (c6s.entries.size : Int) := by rw [hc6sz]; exact ht1'
  obtain ⟨hrepPW, hframeW, htagsW⟩ := insertHead_spec hrepP6 hpnd ht0 ht1c6 htps
  obtain ⟨hmW, hcW, hsW, hpW, hszW, hlstW, houtW, hkvW⟩ := hframeW
  have hgeF : (c.probelist.count ≥ c.pnum) = False := eq_false hnge
  have hcondF : ((t : Int) = SLRU_EOF) = False := by
    refine eq_false ?_
    intro hc
    rw [hc] at ht0
    norm_num [SLRU_EOF] at ht0
  have heq : Insert c k v = some (insertHead c6s .probe t, []) := by
    unfold Insert
    rw [hf]
    simp only [hgeF, if_false, hrt, hcondF, if_true]
  have hkvWt : ((insertHead c6s .probe t).eget t).key = k ∧
      ((insertHead c6s .probe t).eget t).value = v := by
    obtain ⟨a1, a2⟩ := hkvW t
    rw [hc6get, hc5t] at a1 a2
    exact ⟨by rw [a1], by rw [a2]⟩
  have hkvWoff : ∀ i, i ≠ t → ((insertHead c6s .probe t).eget i).key = (c.eget i).key ∧
      ((insertHead c6s .probe t).eget i).value = (c.eget i).value := by
    intro i hi
    obtain ⟨a1, a2⟩ := hkvW i
    rw [hc6get, hc5get i hi] at a1 a2
    exact ⟨by rw [a1, (hkv1 i).1], by rw [a2, (hkv1 i).2]⟩
  have hmWc : (insertHead c6s .probe t).mapping = mapInsert c.mapping k t := by
    rw [hmW, hc6m]
  have hLW : (insertHead c6s .probe t).lrulist = c.lrulist := by
    rw [← lst_lru_eq, hlstW _ (by simp), hc6lst, hlst1 _ (by simp), lst_lru_eq]
  refine ⟨insertHead c6s .probe t, heq, ?_, ?_, ?_, ?_, ?_, ?_, ?_, hLW, ?_, ?_, ?_, ?_⟩
  · refine ⟨gs, ls, t :: ps, ?_, ?_, hrepPW, ?_, ?_, ?_, ?_, ?_, ?_, ?_, ?_⟩
    · refine listRep_frame hszW (hlstW _ (by simp)) ?_ hrepF6
      intro i hi
      rw [houtW i ?_]
      · exact linkEq_refl
      · intro hc
        rcases List.mem_cons.mp hc with hc | hc
        · exact htgs (hc ▸ hi)
        · exact hdfp i (List.mem_append_left _ hi) hc
    · refine listRep_frame hszW (hlstW _ (by simp)) ?_ hrepL6
      intro i hi
      rw [houtW i ?_]
      · exact linkEq_refl
      · intro hc
        rcases List.mem_cons.mp hc with hc | hc
        · exact htls (hc ▸ hi)
        · exact hdlp i hi hc
    · rw [hszW, hc6sz, hsz1]
      refine List.Perm.trans ?_ hperm
      refine Multiset.coe_eq_coe.mp ?_
      simp only [← Multiset.coe_add, ← Multiset.cons_coe]
      simp only [← Multiset.singleton_add]
      abel
    · refine ⟨?_, ?_, ?_⟩
      · intro kx m hx
        rw [hmWc] at hx
        by_cases hkx : kx = k
        · subst hkx
          rw [mapFind_mapInsert_self] at hx
          have hm := Option.some.inj hx
          subst hm
          exact ⟨Or.inr (List.mem_cons_self _ _), hkvWt.1⟩
        · rw [mapFind_mapInsert_ne hkx] at hx
          obtain ⟨hmem, hkey⟩ := hmaps.1 kx m hx
          have hmt : m ≠ t := by
            intro hc
            subst hc
            rcases hmem with h | h
            · exact htls h
            · exact htps h
          refine ⟨?_, by rw [(hkvWoff m hmt).1, hkey]⟩
          rcases hmem with h | h
          · exact Or.inl h
          · exact Or.inr (List.mem_cons_of_mem _ h)
      · intro m hm
        by_cases hmt : m = t
        · subst hmt
          rw [hkvWt.1, hmWc, mapFind_mapInsert_self]
        · have hm' : m ∈ ls ∨ m ∈ ps := by
            rcases hm with h | h
            · exact Or.inl h
            · rcases List.mem_cons.mp h with h | h
              · exact absurd h hmt
              · exact Or.inr h
          have hne : (c.eget m).key ≠ k := by
            intro hc
            have h1 := hmaps.2.1 m hm'
            rw [hc, hf] at h1
            cases h1
          rw [(hkvWoff m hmt).1, hmWc, mapFind_mapInsert_ne hne]
          exact hmaps.2.1 m hm'
      · intro m hm
        have hmt : m ≠ t := fun hc => htgs (hc ▸ hm)
        obtain ⟨d1, d2⟩ := hmaps.2.2 m (List.mem_append_left _ hm)
        exact ⟨by rw [(hkvWoff m hmt).1, d1], by rw [(hkvWoff m hmt).2, d2]⟩
    · rw [hszW, hc6sz, hsz1, hcW, hc6c]
      exact hsz
    · rw [hcW, hc6c, hsW, hc6s, hpW, hc6p]
      exact hcnums
    · rw [hsW, hc6s]
      exact hs0
    · rw [hpW, hc6p]
      exact hp0
    · rw [hLW, hsW, hc6s]
      exact hlb
    · have h1 := hrepPW.2.2.2
      rw [lst_probe_eq] at h1
      rw [h1, hpW, hc6p]
      have h2 := hprobe.2.2.2
      rw [lst_probe_eq] at h2
      rw [h2] at hnge
      simp only [List.length_cons]
      push_cast
      push_cast at hnge
      omega
  · rw [htl', hmWc, mapFind_mapInsert_self]
  · rw [htl']
    have h := htagsW t
    rw [if_pos rfl] at h
    exact h
  · rw [htl']
    exact hkvWt.1
  · rw [htl']
    exact hkvWt.2
  · rw [htl']
    have h1 := hrepPW.2.1
    rw [lst_probe_eq] at h1
    rw [h1, headI_cons]
  · have h1 := hrep1.2.2.2
    rw [lst_free_eq] at h1
    have h3 : (insertHead c6s .probe t).freelist = c1.freelist := by
      rw [← lst_free_eq, hlstW _ (by simp), hc6lst, lst_free_eq]
    have h2 := hfree.2.2.2
    rw [lst_free_eq] at h2
    rw [h3, h1, h2]
    simp only [List.length_append, List.length_cons, List.length_nil]
    push_cast
    ring
  · have h1 := hrepPW.2.2.2
    rw [lst_probe_eq] at h1
    have h2 := hprobe.2.2.2
    rw [lst_probe_eq] at h2
    rw [h1, h2]
    simp only [List.length_cons]
    push_cast
    ring
  · rw [hsW, hc6s]
  · rw [hpW, hc6p]
  · rw [hcW, hc6c]

/-- `Insert` of a new key while the probationary segment is at capacity:
the probationary tail slot is evicted, its mapping entry erased, and the
slot is reused in place for the new entry; the free and protected lists
are untouched and no callback fires. -/
theorem insert_new_evict {c : Cache K V} {k : K} {v : V}
    (hwf : WF c) (hf : mapFind c.mapping k = none)
    (hge : c.probelist.count ≥ c.pnum)
    (hpos : c.probelist.count ≠ 0) :
    ∃ c', Insert c k v = some (c', []) ∧ WF c' ∧
      mapFind c'.mapping k = some c.probelist.tail ∧
      mapFind c'.mapping ((c.eget c.probelist.tail).key) = none ∧
      (c'.eget c.probelist.tail).list = some ListId.probe ∧
      (c'.eget c.probelist.tail).key = k ∧ (c'.eget c.probelist.tail).value = v ∧
      c'.probelist.head = c.probelist.tail ∧
      c'.freelist = c.freelist ∧ c'.lrulist = c.lrulist ∧
      c'.probelist.count = c.probelist.count ∧
      c'.snum = c.snum ∧ c'.pnum = c.pnum ∧ c'.cnum = c.cnum := by
  obtain ⟨fs, ls, ps, hfree, hlru, hprobe, hperm, hmaps, hsz, hcnums, hs0, hp0, hlb, hpb⟩ := hwf
  obtain ⟨hfnd, hlnd, hpnd, hdfl, hdfp, hdlp⟩ := nodup_parts hperm
  rcases List.eq_nil_or_concat ps with rfl | ⟨qs, t, hqseq⟩
  · exfalso
    apply hpos
    have h2 := hprobe.2.2.2
    rw [lst_probe_eq] at h2
    simpa using h2
  rw [List.concat_eq_append] at hqseq
  subst hqseq
  obtain ⟨c1, hrt, hrep1, hframe1, htags1, hprevt, hnextt⟩ := removeTail_spec hprobe hpnd
  obtain ⟨hm1, hc1, hs1, hp1, hsz1, hlst1, hout1, hkv1⟩ := hframe1
  have htmem : t ∈ qs ++ [t] := by simp
  obtain ⟨ht0, ht1, httag⟩ := listRep_mem hprobe htmem
  have htl' : c.probelist.tail = t := by
    have h := hprobe.2.2.1
    rw [lst_probe_eq] at h
    rw [h, lastI_concat]
  have htqs : t ∉ qs := by
    have h := List.nodup_append.mp hpnd
    exact fun hc => h.2.2 hc (by simp)
  have htls : t ∉ ls := fun hc => hdlp t hc htmem
  have htfs : t ∉ fs := fun hc => hdfp t hc htmem
  have ht1' : t < (c1.entries.size : Int) := by rw [hsz1]; exact ht1
  have hsurj_t : mapFind c.mapping ((c.eget t).key) = some t :=
    hmaps.2.1 t (Or.inr htmem)
  have hokne : (c.eget t).key ≠ k := by
    intro hc
    rw [hc, hf] at hsurj_t
    cases hsurj_t
  set c4s := ((({ c1 with mapping := mapErase c1.mapping ((c1.eget t).key) } : Cache K V)).eset t
    (fun e => { e with key := default })).eset t (fun e => { e with value := default })
    with hc4def
  have hc4get : ∀ i, i ≠ t → c4s.eget i = c1.eget i := by
    intro i hi
    rw [hc4def, eget_eset_ne hi, eget_eset_ne hi, eget_setMapping]
  have hc4m : c4s.mapping = mapErase c.mapping ((c.eget t).key) := by
    rw [hc4def, mapping_eset, mapping_eset, mapping_setMapping, hm1, (hkv1 t).1]
  have hc4sz : c4s.entries.size = c1.entries.size := by
    rw [hc4def, size_eset, size_eset, size_setMapping]
  have hc4lst : ∀ lid, c4s.lst lid = c1.lst lid := by
    intro lid
    rw [hc4def, lst_eset, lst_eset, lst_setMapping]
  have hc4c : c4s.cnum = c1.cnum := by
    rw [hc4def, cnum_eset, cnum_eset, cnum_setMapping]
  have hc4s : c4s.snum = c1.snum := by
    rw [hc4def, snum_eset, snum_eset, snum_setMapping]
  have hc4p : c4s.pnum = c1.pnum := by
    rw [hc4def, pnum_eset, pnum_eset, pnum_setMapping]
  set c5s := (c4s.eset t (fun e => { e with key := k })).eset t
    (fun e => { e with value := v }) with hc5def
  have hc5get : ∀ i, i ≠ t → c5s.eget i = c4s.eget i := by
    intro i hi
    rw [hc5def, eget_eset_ne hi, eget_eset_ne hi]
  have ht1c4 : t < (c4s.entries.size : Int) := by rw [hc4sz]; exact ht1'
  have hc5t : c5s.eget t = { c4s.eget t with key := k, value := v } := by
    rw [hc5def, eget_eset_self' ht0 (by simpa using ht1c4),
      eget_eset_self' ht0 (by simpa using ht1c4)]
  have hc5sz : c5s.entries.size = c1.entries.size := by
    rw [hc5def, size_eset, size_eset, hc4sz]
  have hc5lst : ∀ lid, c5s.lst lid = c1.lst lid := by
    intro lid
    rw [hc5def, lst_eset, lst_eset, hc4lst]
  set c6s := ({ c5s with mapping := mapInsert c5s.mapping k t } : Cache K V) with hc6def
  have hc6get : ∀ i, c6s.eget i = c5s.eget i := fun i => eget_setMapping
  have hc6sz : c6s.entries.size = c1.entries.size := by
    rw [hc6def, size_setMapping, hc5sz]
  have hc6lst : ∀ lid, c6s.lst lid = c1.lst lid := by
    intro lid
    rw [hc6def, lst_setMapping, hc5lst]
  have hc6m : c6s.mapping = mapInsert (mapErase c.mapping ((c.eget t).key)) k t := by
    rw [hc6def, mapping_setMapping, hc5def, mapping_eset, mapping_eset, hc4m]
  have hc6c : c6s.cnum = c.cnum := by
    rw [hc6def, cnum_setMapping, hc5def, cnum_eset, cnum_eset, hc4c, hc1]
  have hc6s : c6s.snum = c.snum := by
    rw [hc6def, snum_setMapping, hc5def, snum_eset, snum_eset, hc4s, hs1]
  have hc6p : c6s.pnum = c.pnum := by
    rw [hc6def, pnum_setMapping, hc5def, pnum_eset, pnum_eset, hc4p, hp1]
  have hc6off : ∀ i, i ≠ t → c6s.eget i = c1.eget i := by
    intro i hi
    rw [hc6get, hc5get i hi, hc4get i hi]
  have hrepP6 : listRep c6s .probe qs := by
    refine listRep_frame (by rw [hc6sz]) (by rw [hc6lst]) ?_ hrep1
    intro i hi
    rw [hc6off i (fun hc => htqs (hc ▸ hi))]
    exact linkEq_refl
  have hrepL6 : listRep c6s .lru ls := by
    refine listRep_frame (by rw [hc6sz, hsz1]) (by rw [hc6lst, hlst1 _ (by simp)]) ?_ hlru
    intro i hi
    rw [hc6off i (fun hc => htls (hc ▸ hi)), hout1 i (fun hc => hdlp i hi hc)]
    exact linkEq_refl
  have hrepF6 : listRep c6s .free fs := by
    refine listRep_frame (by rw [hc6sz, hsz1]) (by rw [hc6lst, hlst1 _ (by simp)]) ?_ hfree
    intro i hi
    rw [hc6off i (fun hc => htfs (hc ▸ hi)), hout1 i (fun hc => hdfp i hi hc)]
    exact linkEq_refl
  have ht1c6 : t < (c6s.entries.size : Int) := by rw [hc6sz]; exact ht1'
  have hqnd : qs.Nodup := (List.nodup_append.mp hpnd).1
  obtain ⟨hrepPW, hframeW, htagsW⟩ := insertHead_spec hrepP6 hqnd ht0 ht1c6 htqs
  obtain ⟨hmW, hcW, hsW, hpW, hszW, hlstW, houtW, hkvW⟩ := hframeW
  have hgeT : (c.probelist.count ≥ c.pnum) = True := eq_true hge
  have hcondF : ((t : Int) = SLRU_EOF) = False := by
    refine eq_false ?_
    intro hc
    rw [hc] at ht0
    norm_num [SLRU_EOF] at ht0
  have heq : Insert c k v = some (insertHead c6s .probe t, []) := by
    unfold Insert
    rw [hf]
    simp only [hgeT, if_true, hrt, hcondF, if_false]
  have hkvWt : ((insertHead c6s .probe t).eget t).key = k ∧
      ((insertHead c6s .probe t).eget t).value = v := by
    obtain ⟨a1, a2⟩ := hkvW t
    rw [hc6get, hc5t] at a1 a2
    exact ⟨by rw [a1], by rw [a2]⟩
  have hkvWoff : ∀ i, i ≠ t → ((insertHead c6s .probe t).eget i).key = (c.eget i).key ∧
      ((insertHead c6s .probe t).eget i).value = (c.eget i).value := by
    intro i hi
    obtain ⟨a1, a2⟩ := hkvW i
    rw [hc6off i hi] at a1 a2
    exact ⟨by rw [a1, (hkv1 i).1], by rw [a2, (hkv1 i).2]⟩
  have hmWc : (insertHead c6s .probe t).mapping =
      mapInsert (mapErase c.mapping ((c.eget t).key)) k t := by
    rw [hmW, hc6m]
  have hLW : (insertHead c6s .probe t).lrulist = c.lrulist := by
    rw [← lst_lru_eq, hlstW _ (by simp), hc6lst, hlst1 _ (by simp), lst_lru_eq]
  have hFW : (insertHead c6s .probe t).freelist = c.freelist := by
    rw [← lst_free_eq, hlstW _ (by simp), hc6lst, hlst1 _ (by simp), lst_free_eq]
  refine ⟨insertHead c6s .probe t, heq, ?_, ?_, ?_, ?_, ?_, ?_, ?_, hFW, hLW, ?_, ?_, ?_, ?_⟩
  · refine ⟨fs, ls, t :: qs, ?_, ?_, hrepPW, ?_, ?_, ?_, ?_, ?_, ?_, ?_, ?_⟩
    · refine listRep_frame hszW (hlstW _ (by simp)) ?_ hrepF6
      intro i hi
      rw [houtW i ?_]
      · exact linkEq_refl
      · intro hc
        rcases List.mem_cons.mp hc with hc | hc
        · exact htfs (hc ▸ hi)
        · exact hdfp i hi (List.mem_append_left _ hc)
    · refine listRep_frame hszW (hlstW _ (by simp)) ?_ hrepL6
      intro i hi
      rw [houtW i ?_]
      · exact linkEq_refl
      · intro hc
        rcases List.mem_cons.mp hc with hc | hc
        · exact htls (hc ▸ hi)
        · exact hdlp i hi (List.mem_append_left _ hc)
    · rw [hszW, hc6sz, hsz1]
      refine List.Perm.trans ?_ hperm
      refine Multiset.coe_eq_coe.mp ?_
      simp only [← Multiset.coe_add, ← Multiset.cons_coe]
      simp only [← Multiset.singleton_add]
      abel
    · refine ⟨?_, ?_, ?_⟩
      · intro kx m hx
        rw [hmWc] at hx
        by_cases hkx : kx = k
        · subst hkx
          rw [mapFind_mapInsert_self] at hx
          have hm := Option.some.inj hx
          subst hm
          exact ⟨Or.inr (List.mem_cons_self _ _), hkvWt.1⟩
        · rw [mapFind_mapInsert_ne hkx] at hx
          by_cases hko : kx = (c.eget t).key
          · rw [hko, mapFind_mapErase_self] at hx
            cases hx
          · rw [mapFind_mapErase_ne hko] at hx
            obtain ⟨hmem, hkey⟩ := hmaps.1 kx m hx
            have hmt : m ≠ t := by
              intro hc
              subst hc
              exact hko hkey.symm
            refine ⟨?_, by rw [(hkvWoff m hmt).1, hkey]⟩
            rcases hmem with h | h
            · exact Or.inl h
            · rcases List.mem_append.mp h with h | h
              · exact Or.inr (List.mem_cons_of_mem _ h)
              · exact absurd (List.mem_singleton.mp h) hmt
      · intro m hm
        by_cases hmt : m = t
        · subst hmt
          rw [hkvWt.1, hmWc, mapFind_mapInsert_self]
        · have hm' : m ∈ ls ∨ m ∈ qs ++ [t] := by
            rcases hm with h | h
            · exact Or.inl h
            · rcases List.mem_cons.mp h with h | h
              · exact absurd h hmt
              · exact Or.inr (List.mem_append_left _ h)
          have hne1 : (c.eget m).key ≠ k := by
            intro hc
            have h1 := hmaps.2.1 m hm'
            rw [hc, hf] at h1
            cases h1
          have hne2 : (c.eget m).key ≠ (c.eget t).key := by
            intro hc
            have h1 := hmaps.2.1 m hm'
            rw [hc, hsurj_t] at h1
            exact hmt (Option.some.inj h1).symm
          rw [(hkvWoff m hmt).1, hmWc, mapFind_mapInsert_ne hne1,
            mapFind_mapErase_ne hne2]
          exact hmaps.2.1 m hm'
      · intro m hm
        have hmt : m ≠ t := fun hc => htfs (hc ▸ hm)
        obtain ⟨d1, d2⟩ := hmaps.2.2 m hm
        exact ⟨by rw [(hkvWoff m hmt).1, d1], by rw [(hkvWoff m hmt).2, d2]⟩
    · rw [hszW, hc6sz, hsz1, hcW, hc6c]
      exact hsz
    · rw [hcW, hc6c, hsW, hc6s, hpW, hc6p]
      exact hcnums
    · rw [hsW, hc6s]
      exact hs0
    · rw [hpW, hc6p]
      exact hp0
    · rw [hLW, hsW, hc6s]
      exact hlb
    · have h1 := hrepPW.2.2.2
      rw [lst_probe_eq] at h1
      rw [h1, hpW, hc6p]
      refine le_trans ?_ hpb
      have h2 := hprobe.2.2.2
      rw [lst_probe_eq] at h2
      rw [h2]
      simp only [List.length_append, List.length_cons, List.length_nil]
      push_cast
      omega
  · rw [htl', hmWc, mapFind_mapInsert_self]
  · rw [htl', hmWc, mapFind_mapInsert_ne hokne, mapFind_mapErase_self]
  · rw [htl']
    have h := htagsW t
    rw [if_pos rfl] at h
    exact h
  · rw [htl']
    exact hkvWt.1
  · rw [htl']
    exact hkvWt.2
  · rw [htl']
    have h1 := hrepPW.2.1
    rw [lst_probe_eq] at h1
    rw [h1, headI_cons]
  · have h1 := hrepPW.2.2.2
    rw [lst_probe_eq] at h1
    have h2 := hprobe.2.2.2
    rw [lst_probe_eq] at h2
    rw [h1, h2]
    simp only [List.length_append, List.length_cons, List.length_nil]
  · rw [hsW, hc6s]
  · rw [hpW, hc6p]
  · rw [hcW, hc6c]

/-- `Insert` of a new key panics (models Go `panic`) when the eviction
guard fires but the probationary list is empty. -/
theorem insert_panic_probe_empty {c : Cache K V} {k : K} {v : V}
    (hf : mapFind c.mapping k = none) (hge : c.probelist.count ≥ c.pnum)
    (hrep : listRep c .probe []) :
    Insert c k v = none := by
  have hrt := removeTail_nil hrep
  have hgeT : (c.probelist.count ≥ c.pnum) = True := eq_true hge
  have hcondT : ((SLRU_EOF : Int) = SLRU_EOF) = True := eq_true rfl
  unfold Insert
  rw [hf]
  simp only [hgeT, if_true, hrt, hcondT]

/-- `Insert` of a new key panics when the probationary segment has room
but the free list is empty. -/
theorem insert_panic_free_empty {c : Cache K V} {k : K} {v : V}
    (hf : mapFind c.mapping k = none) (hnge : ¬(c.probelist.count ≥ c.pnum))
    (hrep : listRep c .free []) :
    Insert c k v = none := by
  have hrt := removeTail_nil hrep
  have hgeF : (c.probelist.count ≥ c.pnum) = False := eq_false hnge
  have hcondT : ((SLRU_EOF : Int) = SLRU_EOF) = True := eq_true rfl
  unfold Insert
  rw [hf]
  simp only [hgeF, if_false, hrt, hcondT, if_true]

/-- Every reachable cache state satisfies the structural invariant. -/
theorem reachable_wf {c : Cache K V} (h : Reachable c) : WF c := by
  induction h with
  | new s p => exact wf_new s p
  | look k hr heq ih =>
    rename_i c0 r cp evs
    rcases hfm : mapFind c0.mapping k with _ | n
    · rw [lookup_miss hfm] at heq
      have h2 := Option.some.inj heq
      have hc : c0 = cp := congrArg (fun x => x.2.1) h2
      rw [← hc]
      exact ih
    · by_cases ht : (c0.eget n).list = some ListId.lru
      · by_cases hh : n = c0.lrulist.head
        · rw [lookup_hit_lru_head hfm ht hh] at heq
          have h2 := Option.some.inj heq
          have hc : c0 = cp := congrArg (fun x => x.2.1) h2
          rw [← hc]
          exact ih
        · obtain ⟨cm, heqm, hwfm, -⟩ := lookup_hit_lru_move ih hfm ht hh
          rw [heqm] at heq
          have h2 := Option.some.inj heq
          have hc : cm = cp := congrArg (fun x => x.2.1) h2
          rw [← hc]
          exact hwfm
      · have htp : (c0.eget n).list = some ListId.probe := by
          obtain ⟨fs, ls, ps, hfree, hlru, hprobe, hperm, hmaps, -⟩ := ih
          have hlive := (hmaps.1 k n hfm).1
          rcases hlive with h1 | h1
          · exact absurd (listRep_mem hlru h1).2.2 ht
          · exact (listRep_mem hprobe h1).2.2
        by_cases hge : c0.lrulist.count ≥ c0.snum
        · by_cases h0 : c0.lrulist.count = 0
          · obtain ⟨cm, heqm, hwfm, -⟩ := lookup_promote_empty ih hfm htp hge h0
            rw [heqm] at heq
            have h2 := Option.some.inj heq
            have hc : cm = cp := congrArg (fun x => x.2.1) h2
            rw [← hc]
            exact hwfm
          · obtain ⟨cm, heqm, hwfm, -⟩ := lookup_promote_evict ih hfm htp hge h0
            rw [heqm] at heq
            have h2 := Option.some.inj heq
            have hc : cm = cp := congrArg (fun x => x.2.1) h2
            rw [← hc]
            exact hwfm
        · obtain ⟨cm, heqm, hwfm, -⟩ := lookup_promote_room ih hfm htp hge
          rw [heqm] at heq
          have h2 := Option.some.inj heq
          have hc : cm = cp := congrArg (fun x => x.2.1) h2
          rw [← hc]
          exact hwfm
  | ins k v hr heq ih =>
    rename_i c0 cp evs
    rcases hfm : mapFind c0.mapping k with _ | n
    · by_cases hge : c0.probelist.count ≥ c0.pnum
      · by_cases h0 : c0.probelist.count = 0
        · exfalso
          obtain ⟨fs, ls, ps, hfree, hlru, hprobe, -⟩ := ih
          have hps : ps = [] := by
            have h2 := hprobe.2.2.2
            rw [lst_probe_eq] at h2
            rw [h0] at h2
            have h3 : ps.length = 0 := by exact_mod_cast h2.symm
            exact List.length_eq_zero.mp h3
          rw [hps] at hprobe
          rw [insert_panic_probe_empty hfm hge hprobe] at heq
          cases heq
        · obtain ⟨cm, heqm, hwfm, -⟩ := insert_new_evict ih hfm hge h0
          rw [heqm] at heq
          have h2 := Option.some.inj heq
          have hc : cm = cp := congrArg (fun x => x.1) h2
          rw [← hc]
          exact hwfm
      · by_cases h0 : c0.freelist.count = 0
        · exfalso
          obtain ⟨fs, ls, ps, hfree, -⟩ := ih
          have hfs : fs = [] := by
            have h2 := hfree.2.2.2
            rw [lst_free_eq] at h2
            rw [h0] at h2
            have h3 : fs.length = 0 := by exact_mod_cast h2.symm
            exact List.length_eq_zero.mp h3
          rw [hfs] at hfree
          rw [insert_panic_free_empty hfm hge hfree] at heq
          cases heq
        · obtain ⟨cm, heqm, hwfm, -⟩ := insert_new_free ih hfm hge h0
          rw [heqm] at heq
          have h2 := Option.some.inj heq
          have hc : cm = cp := congrArg (fun x => x.1) h2
          rw [← hc]
          exact hwfm
    · rw [insert_dup hfm] at heq
      have h2 := Option.some.inj heq
      have hc : c0.eset n (fun e => { e with value := v }) = cp :=
        congrArg (fun x => x.1) h2
      rw [← hc]
      exact wf_eset_value ih hfm
  | rem k hr heq ih =>
    rename_i c0 b cp evs
    rcases hfm : mapFind c0.mapping k with _ | n
    · rw [remove_miss hfm] at heq
      have hc : c0 = cp := congrArg (fun x => x.2.1) heq
      rw [← hc]
      exact ih
    · obtain ⟨cm, heqm, hwfm, -⟩ := remove_hit ih hfm
      rw [heqm] at heq
      have hc : cm = cp := congrArg (fun x => x.2.1) heq
      rw [← hc]
      exact hwfm

/-- Reachability is preserved by running an operation sequence. -/
theorem reachable_runOps {c c' : Cache K V} (ops : List (Op K V))
    (h : Reachable c) (heq : runOps c ops = some c') : Reachable c' := by
  induction ops generalizing c with
  | nil =>
    unfold runOps at heq
    exact (Option.some.inj heq) ▸ h
  | cons op rest ih =>
    unfold runOps at heq
    rcases hstep : step c op with _ | c1
    · rw [hstep] at heq
      cases heq
    · rw [hstep] at heq
      refine ih ?_ heq
      cases op with
      | ins k v =>
        have hstep2 : (Insert c k v).map Prod.fst = some c1 := hstep
        rcases hi : Insert c k v with _ | p
        · rw [hi] at hstep2
          cases hstep2
        · rw [hi] at hstep2
          have h2 : p.1 = c1 := Option.some.inj hstep2
          exact h2 ▸ Reachable.ins k v h hi
      | look k =>
        have hstep2 : (Lookup c k).map (fun r => r.2.1) = some c1 := hstep
        rcases hi : Lookup c k with _ | p
        · rw [hi] at hstep2
          cases hstep2
        · rw [hi] at hstep2
          have h2 : p.2.1 = c1 := Option.some.inj hstep2
          exact h2 ▸ Reachable.look k h hi
      | rem k =>
        have hstep2 : some (Remove c k).2.1 = some c1 := hstep
        have h2 : (Remove c k).2.1 = c1 := Option.some.inj hstep2
        exact h2 ▸ Reachable.rem k h rfl

/-! ## The spec claims -/

/-- C2 (claimed): for every reachable state, `lrulist.count ≤ snum` and
`probelist.count ≤ pnum` — refuted.  A cache built with
`survivorCapacity = 0` reaches, after inserting one key and looking it
up, a state whose protected list holds one entry while `snum = 0`: the
promotion path always runs `insertHead` after the guard, so the bound
`protected.count ≤ survivorCapacity` is violated (the code's own
`checkSLRUCacheSanity` reports exactly this state as an overflow). -/
theorem claim_C2_capacity_bound_violated :
    ∃ cw : Cache Int Int,
      runOps (NewSLRUCache Int Int 0 1) [Op.ins 0 0, Op.look 0] = some cw ∧
      cw.snum = 0 ∧ cw.lrulist.count = 1 ∧ ¬(cw.lrulist.count ≤ cw.snum) := by
  refine ⟨_, rfl, by decide, by decide, by decide⟩

/-- C3: in every reachable state the three lists partition the slot pool:
their sizes add up to the configured capacity `snum + pnum`, and their
member sets are pairwise disjoint and jointly exhaust the valid slot
indices. -/
theorem claim_C3_partition {c : Cache K V} (h : Reachable c) :
    c.freelist.count + c.lrulist.count + c.probelist.count = c.snum + c.pnum ∧
    ∃ fs ls ps : List Int,
      listRep c .free fs ∧ listRep c .lru ls ∧ listRep c .probe ps ∧
      (fs ++ ls ++ ps).Perm (rangeI c.entries.size) ∧
      (∀ i ∈ fs, i ∉ ls) ∧ (∀ i ∈ fs, i ∉ ps) ∧ (∀ i ∈ ls, i ∉ ps) := by
  obtain ⟨fs, ls, ps, hfree, hlru, hprobe, hperm, hmaps, hsz, hcnums, hs0, hp0, hlb, hpb⟩ :=
    reachable_wf h
  obtain ⟨hfnd, hlnd, hpnd, hdfl, hdfp, hdlp⟩ := nodup_parts hperm
  refine ⟨?_, fs, ls, ps, hfree, hlru, hprobe, hperm, hdfl, hdfp, hdlp⟩
  have h1 := hfree.2.2.2
  have h2 := hlru.2.2.2
  have h3 := hprobe.2.2.2
  rw [lst_free_eq] at h1
  rw [lst_lru_eq] at h2
  rw [lst_probe_eq] at h3
  have hlen := hperm.length_eq
  rw [h1, h2, h3, ← hcnums, ← hsz]
  simp only [List.length_append] at hlen
  unfold rangeI at hlen
  rw [List.length_map, List.length_range] at hlen
  push_cast
  omega

/-- C3 witness: the partition invariant instantiated at a freshly
constructed 2+3 cache. -/
theorem claim_C3_partition_witness :
    (NewSLRUCache Int Int 2 3).freelist.count +
        (NewSLRUCache Int Int 2 3).lrulist.count +
        (NewSLRUCache Int Int 2 3).probelist.count =
      (NewSLRUCache Int Int 2 3).snum + (NewSLRUCache Int Int 2 3).pnum ∧
    ∃ fs ls ps : List Int,
      listRep (NewSLRUCache Int Int 2 3) .free fs ∧
      listRep (NewSLRUCache Int Int 2 3) .lru ls ∧
      listRep (NewSLRUCache Int Int 2 3) .probe ps ∧
      (fs ++ ls ++ ps).Perm (rangeI (NewSLRUCache Int Int 2 3).entries.size) ∧
      (∀ i ∈ fs, i ∉ ls) ∧ (∀ i ∈ fs, i ∉ ps) ∧ (∀ i ∈ ls, i ∉ ps) :=
  claim_C3_partition (Reachable.new 2 3)

/-- C4: in every reachable state, every mapping entry `k ↦ n` points at a
slot owned by the protected or probationary list whose entry carries key
`k`; and every free slot is unreferenced by the mapping and has its key
and value cleared to the zero values. -/
theorem claim_C4_mapping_consistency {c : Cache K V} (h : Reachable c) :
    ∃ fs ls ps : List Int,
      listRep c .free fs ∧ listRep c .lru ls ∧ listRep c .probe ps ∧
      (∀ k n, mapFind c.mapping k = some n → (n ∈ ls ∨ n ∈ ps) ∧ (c.eget n).key = k) ∧
      (∀ n ∈ fs, (∀ k, mapFind c.mapping k ≠ some n) ∧
        (c.eget n).key = (default : K) ∧ (c.eget n).value = (default : V)) := by
  obtain ⟨fs, ls, ps, hfree, hlru, hprobe, hperm, hmaps, hsz, hcnums, hs0, hp0, hlb, hpb⟩ :=
    reachable_wf h
  obtain ⟨hfnd, hlnd, hpnd, hdfl, hdfp, hdlp⟩ := nodup_parts hperm
  refine ⟨fs, ls, ps, hfree, hlru, hprobe, hmaps.1, ?_⟩
  intro n hn
  refine ⟨?_, hmaps.2.2 n hn⟩
  intro k hc
  obtain ⟨hmem, -⟩ := hmaps.1 k n hc
  rcases hmem with h1 | h1
  · exact hdfl n hn h1
  · exact hdfp n hn h1

/-- C4 witness: mapping consistency instantiated at a freshly
constructed 1+2 cache. -/
theorem claim_C4_mapping_consistency_witness :
    ∃ fs ls ps : List Int,
      listRep (NewSLRUCache Int Int 1 2) .free fs ∧
      listRep (NewSLRUCache Int Int 1 2) .lru ls ∧
      listRep (NewSLRUCache Int Int 1 2) .probe ps ∧
      (∀ k n, mapFind (NewSLRUCache Int Int 1 2).mapping k = some n →
        (n ∈ ls ∨ n ∈ ps) ∧ ((NewSLRUCache Int Int 1 2).eget n).key = k) ∧
      (∀ n ∈ fs, (∀ k, mapFind (NewSLRUCache Int Int 1 2).mapping k ≠ some n) ∧
        ((NewSLRUCache Int Int 1 2).eget n).key = (default : Int) ∧
        ((NewSLRUCache Int Int 1 2).eget n).value = (default : Int)) :=
  claim_C4_mapping_consistency (Reachable.new 1 2)

/-- C6: `Lookup` of an absent key returns the nil result and `Remove` of
an absent key returns `false`; in both cases the state is returned
unchanged and no callback fires. -/
theorem claim_C6_miss_no_ops {c : Cache K V} {k : K}
    (h : mapFind c.mapping k = none) :
    Lookup c k = some (none, c, []) ∧ Remove c k = (false, c, []) :=
  ⟨lookup_miss h, remove_miss h⟩

/-- C6 witness: a fresh two-slot cache with the key `0` absent. -/
theorem claim_C6_miss_no_ops_witness :
    mapFind (NewSLRUCache Int Int 1 1).mapping (0 : Int) = none ∧
    (Lookup (NewSLRUCache Int Int 1 1) (0 : Int) =
        some (none, NewSLRUCache Int Int 1 1, []) ∧
      Remove (NewSLRUCache Int Int 1 1) (0 : Int) =
        (false, NewSLRUCache Int Int 1 1, [])) :=
  ⟨by decide, claim_C6_miss_no_ops (by decide)⟩

set_option maxRecDepth 100000 in
/-- C8: the concrete promotion-and-displacement scenario: on a 10+10
cache, inserting keys 0–9 and looking each up yields segment sizes
`(free, protected, probationary) = (10, 10, 0)`; inserting keys 10–19 on
top yields `(0, 10, 10)`; looking up keys 5–14 yields `(5, 10, 5)`. -/
theorem claim_C8_displacement_scenario :
    (runOps (NewSLRUCache Int Int 10 10)
        ((List.range 10).map (fun i => Op.ins (i : Int) (i : Int)) ++
         (List.range 10).map (fun i => Op.look (i : Int)))).map counts =
      some (10, 10, 0) ∧
    (runOps (NewSLRUCache Int Int 10 10)
        (((List.range 10).map (fun i => Op.ins (i : Int) (i : Int)) ++
          (List.range 10).map (fun i => Op.look (i : Int))) ++
         (List.range 10).map (fun i => Op.ins ((i + 10 : Nat) : Int) 0))).map counts =
      some (0, 10, 10) ∧
    (runOps (NewSLRUCache Int Int 10 10)
        ((((List.range 10).map (fun i => Op.ins (i : Int) (i : Int)) ++
           (List.range 10).map (fun i => Op.look (i : Int))) ++
          (List.range 10).map (fun i => Op.ins ((i + 10 : Nat) : Int) 0)) ++
         (List.range 10).map (fun i => Op.look ((i + 5 : Nat) : Int)))).map counts =
      some (5, 10, 5) := by
  exact ⟨by decide, by decide, by decide⟩

/-- C1 (corrected): when `Insert` of a new key finds the probationary
segment at capacity, it evicts the probationary tail slot, erases that
slot's mapping entry, clears and reuses the slot in place for the new
entry — but, contrary to the spec sentence, the removal notification is
NOT invoked on this path: the callback trace of the insert is empty. -/
theorem claim_C1_insert_evict_no_callback {c : Cache K V} {k : K} {v : V}
    (hr : Reachable c) (hf : mapFind c.mapping k = none)
    (hge : c.probelist.count ≥ c.pnum) (hpos : c.probelist.count ≠ 0) :
    ∃ c', Insert c k v = some (c', []) ∧
      mapFind c'.mapping ((c.eget c.probelist.tail).key) = none ∧
      (c'.eget c.probelist.tail).key = k ∧ (c'.eget c.probelist.tail).value = v ∧
      mapFind c'.mapping k = some c.probelist.tail ∧
      (c'.eget c.probelist.tail).list = some ListId.probe := by
  obtain ⟨cn, heq, hwf', hk, hold, htag, hkey, hval, -⟩ :=
    insert_new_evict (reachable_wf hr) hf hge hpos
  exact ⟨cn, heq, hold, hkey, hval, hk, htag⟩

/-- C1 witness: a full 1+1 cache holding key `0`; inserting key `1`
evicts `0` from probation, remaps the slot, and reports no callback. -/
theorem claim_C1_insert_evict_no_callback_witness :
    ∃ cw : Cache Int Int,
      runOps (NewSLRUCache Int Int 1 1) [Op.ins 0 7] = some cw ∧
      mapFind cw.mapping 1 = none ∧ cw.probelist.count ≥ cw.pnum ∧
      cw.probelist.count ≠ 0 ∧
      (∃ c', Insert cw 1 9 = some (c', []) ∧
        mapFind c'.mapping ((cw.eget cw.probelist.tail).key) = none ∧
        (c'.eget cw.probelist.tail).key = 1 ∧ (c'.eget cw.probelist.tail).value = 9 ∧
        mapFind c'.mapping 1 = some cw.probelist.tail ∧
        (c'.eget cw.probelist.tail).list = some ListId.probe) := by
  refine ⟨_, rfl, by decide, by decide, by decide, ?_⟩
  exact claim_C1_insert_evict_no_callback
    (reachable_runOps [Op.ins 0 7] (Reachable.new 1 1) rfl) (by decide) (by decide) (by decide)

/-- C1 counterexample: on a full 1+1 cache holding key `0`, inserting
the new key `1` evicts key `0` (its mapping entry is gone and the slot is
remapped to `1`), yet the callback trace of the insert is empty — the
removal notification promised by the spec does not fire. -/
theorem claim_C1_counterexample :
    ∃ cw cn : Cache Int Int,
      runOps (NewSLRUCache Int Int 1 1) [Op.ins 0 7] = some cw ∧
      mapFind cw.mapping 0 = some 0 ∧
      Insert cw 1 9 = some (cn, []) ∧
      mapFind cn.mapping 0 = none ∧ mapFind cn.mapping 1 = some 0 := by
  refine ⟨_, _, rfl, by decide, rfl, by decide, by decide⟩

/-- C5: `Insert` of a present key only overwrites the slot's value: no
slot changes segment, the three list records are untouched, no callback
fires, the mapping is unchanged, and a subsequent `Lookup` of the key
returns the new value. -/
theorem claim_C5_duplicate_insert {c : Cache K V} {k : K} {n : Int} {v : V}
    (hr : Reachable c) (hf : mapFind c.mapping k = some n) :
    ∃ c', Insert c k v = some (c', []) ∧
      (∀ i, (c'.eget i).list = (c.eget i).list) ∧
      c'.freelist = c.freelist ∧ c'.lrulist = c.lrulist ∧ c'.probelist = c.probelist ∧
      mapFind c'.mapping k = some n ∧ (c'.eget n).value = v ∧
      (∃ c2 evs, Lookup c' k = some (some v, c2, evs)) := by
  have hwf := reachable_wf hr
  obtain ⟨fs, ls, ps, hfree, hlru, hprobe, hperm, hmaps, hsz, hcnums, hs0, hp0, hlb, hpb⟩ := hwf
  have hlive := (hmaps.1 k n hf).1
  have hb : 0 ≤ n ∧ n < (c.entries.size : Int) := by
    rcases hlive with h | h
    · exact ⟨(listRep_mem hlru h).1, (listRep_mem hlru h).2.1⟩
    · exact ⟨(listRep_mem hprobe h).1, (listRep_mem hprobe h).2.1⟩
  have hgetn : (c.eset n (fun e => { e with value := v })).eget n =
      { c.eget n with value := v } := eget_eset_self' hb.1 hb.2
  have htags : ∀ i, ((c.eset n (fun e => { e with value := v })).eget i).list =
      (c.eget i).list := by
    intro i
    by_cases hi : i = n
    · subst hi
      rw [hgetn]
    · rw [eget_eset_ne hi]
  have hL : (c.eset n (fun e => { e with value := v })).lrulist = c.lrulist := by
    rw [← lst_lru_eq, lst_eset, lst_lru_eq]
  have hP : (c.eset n (fun e => { e with value := v })).probelist = c.probelist := by
    rw [← lst_probe_eq, lst_eset, lst_probe_eq]
  have hF : (c.eset n (fun e => { e with value := v })).freelist = c.freelist := by
    rw [← lst_free_eq, lst_eset, lst_free_eq]
  have hfk : mapFind (c.eset n (fun e => { e with value := v })).mapping k = some n := by
    rw [mapping_eset]
    exact hf
  have hvn : ((c.eset n (fun e => { e with value := v })).eget n).value = v := by
    rw [hgetn]
  have hwf' : WF (c.eset n (fun e => { e with value := v })) :=
    wf_eset_value ⟨fs, ls, ps, hfree, hlru, hprobe, hperm, hmaps, hsz, hcnums,
      hs0, hp0, hlb, hpb⟩ hf
  refine ⟨c.eset n (fun e => { e with value := v }), insert_dup hf, htags,
    hF, hL, hP, hfk, hvn, ?_⟩
  rcases hlive with h1 | h1
  · have ht : ((c.eset n (fun e => { e with value := v })).eget n).list =
        some ListId.lru := by
      rw [htags n]
      exact (listRep_mem hlru h1).2.2
    by_cases hh : n = (c.eset n (fun e => { e with value := v })).lrulist.head
    · have h2 := lookup_hit_lru_head hfk ht hh
      rw [hvn] at h2
      exact ⟨_, [], h2⟩
    · obtain ⟨c2, heq2, -⟩ := lookup_hit_lru_move hwf' hfk ht hh
      rw [hvn] at heq2
      exact ⟨c2, [], heq2⟩
  · have ht : ((c.eset n (fun e => { e with value := v })).eget n).list =
        some ListId.probe := by
      rw [htags n]
      exact (listRep_mem hprobe h1).2.2
    by_cases hge : (c.eset n (fun e => { e with value := v })).lrulist.count ≥
        (c.eset n (fun e => { e with value := v })).snum
    · by_cases h0 : (c.eset n (fun e => { e with value := v })).lrulist.count = 0
      · obtain ⟨c2, heq2, -⟩ := lookup_promote_empty hwf' hfk ht hge h0
        rw [hvn] at heq2
        exact ⟨c2, _, heq2⟩
      · obtain ⟨c2, heq2, -⟩ := lookup_promote_evict hwf' hfk ht hge h0
        rw [hvn] at heq2
        exact ⟨c2, _, heq2⟩
    · obtain ⟨c2, heq2, -⟩ := lookup_promote_room hwf' hfk ht hge
      rw [hvn] at heq2
      exact ⟨c2, _, heq2⟩

/-- C5 witness: a 1+1 cache holding key `0 ↦ 7`; re-inserting `0 ↦ 9`
updates the value in place and a lookup then returns `9`. -/
theorem claim_C5_duplicate_insert_witness :
    ∃ cw : Cache Int Int,
      runOps (NewSLRUCache Int Int 1 1) [Op.ins 0 7] = some cw ∧
      mapFind cw.mapping 0 = some 0 ∧
      (∃ c', Insert cw 0 9 = some (c', []) ∧
        (∀ i, (c'.eget i).list = (cw.eget i).list) ∧
        c'.freelist = cw.freelist ∧ c'.lrulist = cw.lrulist ∧
        c'.probelist = cw.probelist ∧
        mapFind c'.mapping 0 = some 0 ∧ (c'.eget 0).value = 9 ∧
        (∃ c2 evs, Lookup c' 0 = some (some 9, c2, evs))) := by
  refine ⟨_, rfl, by decide, ?_⟩
  exact claim_C5_duplicate_insert (reachable_runOps [Op.ins 0 7] (Reachable.new 1 1) rfl) (by decide)

/-- C7: a successful `Lookup` of a probationary key promotes it: the slot
ends up owned by the protected list at its head, and an immediately
following `Lookup` of the same key is the fast path that finds it there
and changes nothing. -/
theorem claim_C7_promotion_to_head {c : Cache K V} {k : K} {n : Int}
    (hr : Reachable c) (hf : mapFind c.mapping k = some n)
    (ht : (c.eget n).list = some ListId.probe) :
    ∃ r c' evs, Lookup c k = some (r, c', evs) ∧
      mapFind c'.mapping k = some n ∧ (c'.eget n).list = some ListId.lru ∧
      c'.lrulist.head = n ∧
      Lookup c' k = some (some ((c'.eget n).value), c', []) := by
  have hwf := reachable_wf hr
  by_cases hge : c.lrulist.count ≥ c.snum
  · by_cases h0 : c.lrulist.count = 0
    · obtain ⟨c2, heq, hwf2, hm2, hfr2, hcnt2, hhd2, -, -, -, -, -, htag2, hfk2⟩ :=
        lookup_promote_empty hwf hf ht hge h0
      exact ⟨_, c2, _, heq, hfk2, htag2, hhd2, lookup_hit_lru_head hfk2 htag2 hhd2.symm⟩
    · obtain ⟨c2, heq, hwf2, hfk2, htag2, hhd2, -⟩ :=
        lookup_promote_evict hwf hf ht hge h0
      exact ⟨_, c2, _, heq, hfk2, htag2, hhd2, lookup_hit_lru_head hfk2 htag2 hhd2.symm⟩
  · obtain ⟨c2, heq, hwf2, hm2, hfr2, hcnt2, hhd2, -, -, -, -, -, htag2, hfk2⟩ :=
      lookup_promote_room hwf hf ht hge
    exact ⟨_, c2, _, heq, hfk2, htag2, hhd2, lookup_hit_lru_head hfk2 htag2 hhd2.symm⟩

/-- C7 witness: a 1+1 cache holding key `0` in probation; looking it up
promotes it to the protected head, and a second lookup finds it there. -/
theorem claim_C7_promotion_to_head_witness :
    ∃ cw : Cache Int Int,
      runOps (NewSLRUCache Int Int 1 1) [Op.ins 0 7] = some cw ∧
      mapFind cw.mapping 0 = some 0 ∧ (cw.eget 0).list = some ListId.probe ∧
      (∃ r c' evs, Lookup cw 0 = some (r, c', evs) ∧
        mapFind c'.mapping 0 = some 0 ∧ (c'.eget 0).list = some ListId.lru ∧
        c'.lrulist.head = 0 ∧
        Lookup c' 0 = some (some ((c'.eget 0).value), c', [])) := by
  refine ⟨_, rfl, by decide, by decide, ?_⟩
  exact claim_C7_promotion_to_head
    (reachable_runOps [Op.ins 0 7] (Reachable.new 1 1) rfl) (by decide) (by decide)

/-- C9: when a new key is inserted while the probationary segment is at a
positive capacity, the evicted tail slot is reused in place and never
passes through the free list: the free and protected list records are
unchanged and the probationary count still equals the capacity. -/
theorem claim_C9_evict_reuses_slot_in_place {c : Cache K V} {k : K} {v : V}
    (hr : Reachable c) (hf : mapFind c.mapping k = none)
    (hge : c.probelist.count ≥ c.pnum) (hp1 : 1 ≤ c.pnum) :
    ∃ c', Insert c k v = some (c', []) ∧
      c'.freelist = c.freelist ∧ c'.lrulist = c.lrulist ∧
      c'.probelist.count = c.probelist.count ∧ c'.probelist.count = c.pnum ∧
      mapFind c'.mapping k = some c.probelist.tail ∧
      (c'.eget c.probelist.tail).list = some ListId.probe := by
  have hwf := reachable_wf hr
  have hble : c.probelist.count ≤ c.pnum := by
    obtain ⟨fs, ls, ps, -, -, -, -, -, -, -, -, -, -, hpb⟩ := hwf
    exact hpb
  have hcnt : c.probelist.count = c.pnum := le_antisymm hble hge
  have hpos : c.probelist.count ≠ 0 := by omega
  obtain ⟨cn, heq, hwf', hk, hold, htag, hkey, hval, hhead, hFW, hLW, hPC, -⟩ :=
    insert_new_evict hwf hf hge hpos
  refine ⟨cn, heq, hFW, hLW, hPC, by rw [hPC, hcnt], hk, htag⟩

/-- C9 witness: a full 1+1 cache; inserting a new key leaves the free and
protected lists untouched and probation at its capacity of one. -/
theorem claim_C9_evict_reuses_slot_in_place_witness :
    ∃ cw : Cache Int Int,
      runOps (NewSLRUCache Int Int 1 1) [Op.ins 0 7] = some cw ∧
      mapFind cw.mapping 1 = none ∧ cw.probelist.count ≥ cw.pnum ∧ 1 ≤ cw.pnum ∧
      (∃ c', Insert cw 1 9 = some (c', []) ∧
        c'.freelist = cw.freelist ∧ c'.lrulist = cw.lrulist ∧
        c'.probelist.count = cw.probelist.count ∧ c'.probelist.count = cw.pnum ∧
        mapFind c'.mapping 1 = some cw.probelist.tail ∧
        (c'.eget cw.probelist.tail).list = some ListId.probe) := by
  refine ⟨_, rfl, by decide, by decide, by decide, ?_⟩
  exact claim_C9_evict_reuses_slot_in_place
    (reachable_runOps [Op.ins 0 7] (Reachable.new 1 1) rfl) (by decide) (by decide) (by decide)

/-- C10: in `Lookup`'s promotion path, when the eviction guard fires but
the protected list is empty (`removeTail` returns the sentinel, possible
only with `snum = 0`), the whole eviction block is skipped — mapping and
free list untouched, no removal callback — the promotion still completes,
and `Lookup` returns normally instead of panicking. -/
theorem claim_C10_snum_zero_guard_skip {c : Cache K V} {k : K} {n : Int}
    (hr : Reachable c) (hf : mapFind c.mapping k = some n)
    (ht : (c.eget n).list = some ListId.probe)
    (hge : c.lrulist.count ≥ c.snum) (h0 : c.lrulist.count = 0) :
    ∃ c', Lookup c k = some (some ((c.eget n).value), c', [Ev.inserted k]) ∧
      c'.mapping = c.mapping ∧ c'.freelist = c.freelist ∧
      c'.lrulist.count = 1 ∧ c'.lrulist.head = n ∧
      (c'.eget n).list = some ListId.lru := by
  obtain ⟨c2, heq, hwf2, hm2, hfr2, hcnt2, hhd2, -, -, -, -, -, htag2, -⟩ :=
    lookup_promote_empty (reachable_wf hr) hf ht hge h0
  exact ⟨c2, heq, hm2, hfr2, hcnt2, hhd2, htag2⟩

/-- C10 witness: a cache with `snum = 0` holding key `0` in probation;
looking it up runs the guarded promotion with the eviction block skipped
and returns the value. -/
theorem claim_C10_snum_zero_guard_skip_witness :
    ∃ cw : Cache Int Int,
      runOps (NewSLRUCache Int Int 0 1) [Op.ins 0 7] = some cw ∧
      mapFind cw.mapping 0 = some 0 ∧ (cw.eget 0).list = some ListId.probe ∧
      cw.lrulist.count ≥ cw.snum ∧ cw.lrulist.count = 0 ∧
      (∃ c', Lookup cw 0 = some (some ((cw.eget 0).value), c', [Ev.inserted 0]) ∧
        c'.mapping = cw.mapping ∧ c'.freelist = cw.freelist ∧
        c'.lrulist.count = 1 ∧ c'.lrulist.head = 0 ∧
        (c'.eget 0).list = some ListId.lru) := by
  refine ⟨_, rfl, by decide, by decide, by decide, by decide, ?_⟩
  exact claim_C10_snum_zero_guard_skip
    (reachable_runOps [Op.ins 0 7] (Reachable.new 0 1) rfl) (by decide) (by decide)
    (by decide) (by decide)

end Ops

end SLRU
